import Mathlib

/-!
# splashecdsa: public-key reconstruction and multi-signature verification

A shallow embedding of `sig.go` and `multisig.go`.

* `*big.Int` values are `Int`; a nil pointer is `Option.none` where the zero value of a
  struct matters (`SplashPublicKey`).
* `[]byte` is `List Byte` with `Byte = Fin 256`; `uint8` is `Byte` as well.
* A Go run-time panic (nil dereference, index or slice bound out of range) is `none` in an
  `Option` result.
* `crypto/elliptic` (`CurveParams.Add`, `Double`, `ScalarMult`, `ScalarBaseMult`,
  `IsOnCurve`) is modelled by the affine group law of `y² = x³ - 3x + B` over `F_P`, with
  the library's convention that the affine pair `(0, 0)` stands for the point at infinity;
  `ScalarMult` is the library's double-and-add loop over the bits of the scalar bytes. The
  model is checked against published multiples of the P-256 base point
  (`p256_known_answers`) and against the Mathlib group law (`rep_add`, `rep_double`,
  `rep_scalarMult`).
* `math/big` `ModSqrt` is documented to return *a* square root; which one is left to the
  collaborator record `Env`, together with the Merkle tree and the compressed key encoding.
  `goModSqrt` follows the algorithm of the library (Jacobi symbol, then the branch for the
  residue class of the prime), and `goEnv` is the collaborator record that uses it.
-/

namespace Splash

/-! ## Data model -/

/-- One Go `byte` / `uint8`. -/
abbrev Byte := Fin 256

/-- The fields of `elliptic.CurveParams` that the code reads: the curve
`y² = x³ - 3x + B` over `F_P` with base point `(Gx, Gy)` of order `N`. -/
structure CurveParams where
  P : Nat
  N : Nat
  B : Nat
  Gx : Nat
  Gy : Nat
deriving DecidableEq, Repr

/-- Type `SplashSignature` of `sig.go`: `R`, `S` are `*big.Int`, `V` the reconstruction flag and
`O` the multi-signature order index (both `uint8`). -/
structure SplashSignature where
  R : Int
  S : Int
  V : Byte
  O : Byte
deriving DecidableEq, Repr

/-- Type `SplashPublicKey`: a curve handle and the two coordinates. All three are nil in the Go
zero value, which is what `make([]SplashPublicKey, n)` fills a fresh array with. -/
structure SplashPublicKey where
  Curve : Option CurveParams
  X : Option Int
  Y : Option Int
deriving DecidableEq, Repr

/-- The zero value of `SplashPublicKey`. -/
def SplashPublicKey.zero : SplashPublicKey := ⟨none, none, none⟩

/-- Type `SplashPrivateKey`: the secret scalar `D` and its curve. -/
structure SplashPrivateKey where
  Curve : CurveParams
  D : Nat
deriving DecidableEq, Repr

/-- Type `SplashMultiSigKey` of `multisig.go`. -/
structure SplashMultiSigKey where
  PrivateKey : SplashPrivateKey
  Order : Byte
  Partners : Byte
deriving DecidableEq, Repr

/-- The external collaborators whose code is not part of the repository. -/
structure Env where
  /-- Method `(*big.Int).ModSqrt x p`: some square root of `x` modulo the prime `p`, or nil. -/
  ModSqrt : Int → Int → Option Int
  /-- Method `SplashPublicKey.CompressedBytes`: parity byte followed by the X coordinate. -/
  CompressedBytes : SplashPublicKey → List Byte
  /-- Package `splashmerkle`: `Tree.ConstructTree(leaves)` followed by `Root.Bytes()`. -/
  MerkleRoot : List (List Byte) → List Byte

/-! ## `math/big` -/

/-- Big-endian value of a byte string (`new(big.Int).SetBytes`). -/
def beNat (bs : List Byte) : Nat :=
  bs.foldl (fun acc b => acc * 256 + b.val) 0

/-- Worker of `natBytes`: peel off the low byte until nothing is left. -/
def natBytesAux : Nat → Nat → List Byte → List Byte
  | 0, _, acc => acc
  | fuel + 1, n, acc =>
    if n = 0 then acc
    else natBytesAux fuel (n / 256) (⟨n % 256, Nat.mod_lt _ (by decide)⟩ :: acc)

/-- Big-endian bytes of a natural number, without leading zeros (empty for `0`). -/
def natBytes (n : Nat) : List Byte :=
  natBytesAux n n []

/-- Method `(*big.Int).Bytes`: the big-endian bytes of the absolute value. -/
def intBytes (x : Int) : List Byte :=
  natBytes x.natAbs

/-- Method `(*big.Int).ModInverse g n`: the inverse of `g` in `Z/nZ` as a value in `[0, n)`, or
nil when `g` and `n` are not coprime. -/
def ModInverse (g : Int) (n : Nat) : Option Int :=
  ((List.range n).find? (fun (x : Nat) => decide ((g * (x : Int)) % (n : Int) = 1 % (n : Int)))).map
    (fun (x : Nat) => (x : Int))

/-- Worker of `powMod`: square-and-multiply on the binary digits of the exponent. -/
def powModAux (p : Int) : Nat → Int → Nat → Int
  | 0, _, _ => 1 % p
  | fuel + 1, b, e =>
    if e = 0 then 1 % p
    else
      let h := powModAux p fuel (b * b % p) (e / 2)
      if e % 2 = 1 then h * b % p else h

/-- Modular power `b ^ e mod p` (`(*big.Int).Exp`). -/
def powMod (b : Int) (e : Nat) (p : Int) : Int :=
  powModAux p e b e

/-- Library function `big.Jacobi(x, p)` for an odd prime `p`, where the symbol is the
Legendre symbol: by Euler's criterion it is `x^((p-1)/2) mod p` read as 0, 1 or -1. -/
def jacobiPrime (x p : Int) : Int :=
  let r := powMod (x % p) ((p - 1) / 2).toNat p
  if r = 0 then 0 else if r = 1 then 1 else -1

/-- Splits `s` into its odd part and the number of trailing zero bits
(`s.abs.trailingZeroBits()` followed by `s.Rsh(&s, e)`). -/
def oddPart : Nat → Nat → Nat × Nat
  | 0, s => (s, 0)
  | fuel + 1, s =>
    if s % 2 = 0 ∧ s ≠ 0 then
      let r := oddPart fuel (s / 2)
      (r.1, r.2 + 1)
    else (s, 0)

/-- The search `for Jacobi(&n, p) != -1 { n.Add(&n, intOne) }` for a non-square. -/
def firstNonSquare (p : Int) : Nat → Int → Int
  | 0, n => n
  | fuel + 1, n => if jacobiPrime n p = -1 then n else firstNonSquare p fuel (n + 1)

/-- The inner loop of Tonelli-Shanks: the least `m` with `t^(2^m) = 1 (mod p)`. -/
def squaringsToOne (p : Int) : Nat → Int → Nat
  | 0, _ => 0
  | fuel + 1, t => if t = 1 then 0 else squaringsToOne p fuel (t * t % p) + 1

/-- The outer loop of `modSqrtTonelliShanks` on the variables `y`, `b`, `g`, `r`. -/
def tonelliLoop (p : Int) : Nat → Int → Int → Int → Nat → Int
  | 0, y, _, _, _ => y
  | fuel + 1, y, b, g, r =>
    let m := squaringsToOne p r b
    if m = 0 then y
    else
      let t := powMod g (2 ^ (r - m - 1)) p
      let g := t * t % p
      let y := y * t % p
      let b := b * g % p
      tonelliLoop p fuel y b g m

/-- Library method `(*big.Int).modSqrtTonelliShanks`. -/
def modSqrtTonelliShanks (x p : Int) : Int :=
  let se := oddPart (p - 1).toNat (p - 1).toNat
  let s := se.1
  let e := se.2
  let n := firstNonSquare p p.toNat 2
  let y := powMod x ((s + 1) / 2) p
  let b := powMod x s p
  let g := powMod n s p
  tonelliLoop p (e + 1) y b g e

/-- Library method `(*big.Int).modSqrt5Mod8Prime` (Atkin). -/
def modSqrt5Mod8Prime (x p : Int) : Int :=
  let e := (p / 8).toNat
  let tx := 2 * x
  let alpha := powMod tx e p
  let beta := alpha * alpha % p
  let beta := beta * tx % p
  let beta := beta - 1
  let beta := beta * x % p
  let beta := beta * alpha
  beta % p

/-- Library method `(*big.Int).modSqrt3Mod4Prime`: `x^((p+1)/4) mod p`. -/
def modSqrt3Mod4Prime (x p : Int) : Int :=
  powMod x ((p + 1) / 4).toNat p

/-- Library method `(*big.Int).ModSqrt(x, p)` of `math/big` for an odd prime `p`: nil when the
Jacobi symbol is -1, zero when it is 0, and otherwise the root that the branch for the
residue class of `p` computes (`p = 3 mod 4`, `p = 5 mod 8` by Atkin, else Tonelli-Shanks). -/
def goModSqrt (x p : Int) : Option Int :=
  let j := jacobiPrime x p
  if j = -1 then none
  else if j = 0 then some 0
  else
    let x := x % p
    if p % 4 = 3 then some (modSqrt3Mod4Prime x p)
    else if p % 8 = 5 then some (modSqrt5Mod8Prime x p)
    else some (modSqrtTonelliShanks x p)

/-! ## `crypto/elliptic` -/

namespace CurveParams

/-- Inverse in the prime field `F_P`. -/
def fieldInv (c : CurveParams) (a : Int) : Int :=
  powMod (a % c.P) (c.P - 2) c.P

/-- Method `CurveParams.IsOnCurve`: `y² = x³ - 3x + b (mod P)`. -/
def IsOnCurve (c : CurveParams) (x y : Int) : Bool :=
  let y2 := (y * y) % c.P
  let x3 := (x * x * x - (x * 2 + x) + c.B) % c.P
  decide (x3 = y2)

/-- Method `CurveParams.Double`; a point with `y = 0` (and the pair `(0, 0)`) doubles to the
point at infinity `(0, 0)`. -/
def Double (c : CurveParams) (x y : Int) : Int × Int :=
  let p : Int := c.P
  let x1 := x % p
  let y1 := y % p
  if y1 = 0 then (0, 0)
  else
    let l := (3 * x1 * x1 - 3) * c.fieldInv (2 * y1) % p
    let x3 := (l * l - 2 * x1) % p
    let y3 := (l * (x1 - x3) - y1) % p
    (x3, y3)

/-- Method `CurveParams.Add`: the pair `(0, 0)` is the point at infinity (`zForAffine`); equal
points are doubled, opposite points add up to infinity, otherwise the chord rule. -/
def Add (c : CurveParams) (x1 y1 x2 y2 : Int) : Int × Int :=
  let p : Int := c.P
  if x1 = 0 ∧ y1 = 0 then (x2 % p, y2 % p)
  else if x2 = 0 ∧ y2 = 0 then (x1 % p, y1 % p)
  else
    let a1 := x1 % p
    let b1 := y1 % p
    let a2 := x2 % p
    let b2 := y2 % p
    if a1 = a2 then
      if b1 = b2 then c.Double a1 b1 else (0, 0)
    else
      let l := (b2 - b1) * c.fieldInv (a2 - a1) % p
      let x3 := (l * l - a1 - a2) % p
      let y3 := (l * (a1 - x3) - b1) % p
      (x3, y3)

/-- The eight bits of a byte, most significant first. -/
def byteBits (b : Byte) : List Bool :=
  [7, 6, 5, 4, 3, 2, 1, 0].map (fun i => b.val.testBit i)

/-- Method `CurveParams.ScalarMult(Bx, By, k)`: for every bit of `k`, most significant first, the
accumulator is doubled and, when the bit is set, `(Bx, By)` is added to it. -/
def ScalarMult (c : CurveParams) (Bx By : Int) (k : List Byte) : Int × Int :=
  (k.flatMap byteBits).foldl
    (fun acc bit =>
      let d := c.Double acc.1 acc.2
      if bit then c.Add Bx By d.1 d.2 else d)
    (0, 0)

/-- Method `CurveParams.ScalarBaseMult(k)`. -/
def ScalarBaseMult (c : CurveParams) (k : List Byte) : Int × Int :=
  c.ScalarMult c.Gx c.Gy k

end CurveParams

/-! ## `sig.go` -/

/-- Function `GetY` of `sig.go` (the same body as `ecmath.GetY`, which `ReconstructPublicKey`
calls): the two candidate `y` for `x`. When `ModSqrt` returns nil the following `Sub`
dereferences it and the call panics. -/
def GetY (env : Env) (x : Int) (curve : CurveParams) : Option (Int × Int) :=
  let x3 := x * x
  let x3 := x3 * x
  let threeX := x * 2
  let threeX := threeX + x
  let x3 := x3 - threeX
  let x3 := x3 + curve.B
  let x3 := x3 % curve.P
  match env.ModSqrt x3 curve.P with
  | none => none
  | some y1 =>
    let y2 := (curve.P - y1) % curve.P
    some (y1, y2)

/-- Modelled from the spec: `ecmath.InversePoint`, which is missing from the sources;
"returns the additive inverse (x, P−y mod P)". -/
def InversePoint (x y : Int) (curve : CurveParams) : Int × Int :=
  (x, (curve.P - y) % curve.P)

/-- Method `SplashSignature.ReconstructPublicKey`: `pub = r⁻¹(sK − zG)`. Panics (`none`) when
`GetY` panics, when `msgHash` has fewer than 32 bytes (`msgHash[:32]`, the capacity of the
slice taken to be its length), and when `R` has no inverse modulo `N` (`ModInverse` returns
nil and `RMod.Bytes()` dereferences it). -/
def SplashSignature.ReconstructPublicKey (env : Env) (sig : SplashSignature)
    (msgHash : List Byte) (C : CurveParams) : Option SplashPublicKey :=
  let curve := C
  let kX := sig.R
  match GetY env sig.R curve with
  | none => none
  | some (kY0, potentialY) =>
    let kY := if sig.V = 1 then potentialY else kY0
    let sK := curve.ScalarMult kX kY (intBytes sig.S)
    if msgHash.length < 32 then none
    else
      let zG := curve.ScalarBaseMult (msgHash.take 32)
      let izG := InversePoint zG.1 zG.2 curve
      let XXYY := curve.Add sK.1 sK.2 izG.1 izG.2
      match ModInverse sig.R curve.N with
      | none => none
      | some RMod =>
        let xy := curve.ScalarMult XXYY.1 XXYY.2 (intBytes RMod)
        some { Curve := some C, X := some xy.1, Y := some xy.2 }

/-- Steps 2 to 5 of the reconstruction as the spec words them, for a given ephemeral point
`K = (R, kY)`: "Compute S·K", "Compute z·G (scalar-base multiply on first 32 bytes of
messageHash)", "Compute the negation of z·G ...; add to S·K → point T = S·K − z·G",
"Compute R⁻¹ mod N; scalar-multiply T by R⁻¹ → the recovered public key point". -/
def reconstructWith (sig : SplashSignature) (kY : Int) (msgHash : List Byte)
    (C : CurveParams) : Option SplashPublicKey :=
  if msgHash.length < 32 then none
  else
    let sK := C.ScalarMult sig.R kY (intBytes sig.S)
    let zG := C.ScalarBaseMult (msgHash.take 32)
    let nzG := InversePoint zG.1 zG.2 C
    let T := C.Add sK.1 sK.2 nzG.1 nzG.2
    match ModInverse sig.R C.N with
    | none => none
    | some rInv =>
      let Q := C.ScalarMult T.1 T.2 (intBytes rInv)
      some { Curve := some C, X := some Q.1, Y := some Q.2 }

/-- Modelled from the spec: `ecmath.CheckByteEq`, which is missing from the sources;
"byte-slice equality ...; length mismatch ⇒ not equal, no panic". -/
def CheckByteEq (a b : List Byte) : Bool :=
  decide (a = b)

/-! ## Keys, signing and verification (`keys.go`, not among the sources) -/

/-- Modelled from the spec: `SplashPrivateKey.GetPublicKey`, which is missing from the
sources; "Q = D·G (scalar multiplication of base point)". -/
def SplashPrivateKey.GetPublicKey (priv : SplashPrivateKey) : SplashPublicKey :=
  let q := priv.Curve.ScalarBaseMult (natBytes priv.D)
  { Curve := some priv.Curve, X := some q.1, Y := some q.2 }

/-- The error kinds of key generation and signing named by the spec. -/
inductive SignError where
  | RandomSourceFailure
  | NoValidRoot
  | PreconditionViolation
deriving DecidableEq, Repr

/-- Outcome of one pass through the nonce loop of `Sign`. -/
inductive SignAttempt where
  | retry
  | fail (e : SignError)
  | done (sig : SplashSignature)
deriving DecidableEq, Repr

/-- Modelled from the spec: one pass of the nonce loop of `SplashPrivateKey.Sign`, which is
missing from the sources, for the drawn nonce `k`: "compute ephemeral point K=(Kx,Ky)=k·G,
R = Kx mod N (retry nonce if R=0), S = k⁻¹(z + R·D) mod N (z = first 32 bytes of
messageHash interpreted as a big-endian integer mod N; retry nonce if S=0). Recovery id V is
computed by solving DualRoots(R, curve) and recording whether Ky equals the first or second
root (0 or 1)". -/
def SplashPrivateKey.signWithNonce (env : Env) (priv : SplashPrivateKey) (k : Nat)
    (data : List Byte) : SignAttempt :=
  let curve := priv.Curve
  if k = 0 ∨ curve.N ≤ k then SignAttempt.retry
  else
    let K := curve.ScalarBaseMult (natBytes k)
    let R := K.1 % curve.N
    if R = 0 then SignAttempt.retry
    else
      match ModInverse k curve.N with
      | none => SignAttempt.retry
      | some kInv =>
        let z : Int := (beNat (data.take 32) : Int) % curve.N
        let S := kInv * (z + R * priv.D) % curve.N
        if S = 0 then SignAttempt.retry
        else
          match GetY env R curve with
          | none => SignAttempt.fail SignError.NoValidRoot
          | some (y1, _) =>
            SignAttempt.done { R := R, S := S, V := if K.2 = y1 then 0 else 1, O := 0 }

/-- The nonce loop of `Sign` over the successive draws of the random source; the source
fails when the draws are used up. -/
def SplashPrivateKey.signLoop (env : Env) (priv : SplashPrivateKey) (data : List Byte) :
    List Nat → SplashSignature × Option SignError
  | [] => (⟨0, 0, 0, 0⟩, some SignError.RandomSourceFailure)
  | k :: draws =>
    match priv.signWithNonce env k data with
    | SignAttempt.retry => SplashPrivateKey.signLoop env priv data draws
    | SignAttempt.fail e => (⟨0, 0, 0, 0⟩, some e)
    | SignAttempt.done sig => (sig, none)

/-- Modelled from the spec: `SplashPrivateKey.Sign`, which is missing from the sources, with
the random source made explicit as the list `draws` of nonces it hands out. "Precondition:
messageHash must supply at least 32 bytes". -/
def SplashPrivateKey.Sign (env : Env) (priv : SplashPrivateKey) (draws : List Nat)
    (data : List Byte) : SplashSignature × Option SignError :=
  if data.length < 32 then (⟨0, 0, 0, 0⟩, some SignError.PreconditionViolation)
  else priv.signLoop env data draws

/-- Modelled from the spec: `SplashPublicKey.Verify`, which is missing from the sources;
"recompute u1 = z·S⁻¹ mod N, u2 = R·S⁻¹ mod N, point = u1·G + u2·Q; valid iff
point.X mod N == R. Returns false (never throws) for any mismatch, malformed scalar, or
off-curve key". -/
def SplashPublicKey.Verify (pub : SplashPublicKey) (data : List Byte)
    (sig : SplashSignature) : Bool :=
  match pub.Curve, pub.X, pub.Y with
  | some c, some x, some y =>
    if sig.R < 1 ∨ (c.N : Int) ≤ sig.R ∨ sig.S < 1 ∨ (c.N : Int) ≤ sig.S then false
    else if !c.IsOnCurve x y then false
    else
      match ModInverse sig.S c.N with
      | none => false
      | some w =>
        let z : Int := (beNat (data.take 32) : Int) % c.N
        let u1 := z * w % c.N
        let u2 := sig.R * w % c.N
        let p1 := c.ScalarBaseMult (intBytes u1)
        let p2 := c.ScalarMult x y (intBytes u2)
        let pt := c.Add p1.1 p1.2 p2.1 p2.2
        decide (pt.1 % c.N = sig.R)
  | _, _, _ => false

/-- Modelled from the spec: `GenerateSplashKeys`, which is missing from the sources, with
the random draw made explicit (`none` when the random source fails); "draws D uniformly
from [1, N−1] ...; fails only if the random source fails". -/
def GenerateSplashKeys (rand : Option Nat) (curve : CurveParams) :
    SplashPrivateKey × Option SignError :=
  match rand with
  | none => ({ Curve := curve, D := 0 }, some SignError.RandomSourceFailure)
  | some r => ({ Curve := curve, D := r % (curve.N - 1) + 1 }, none)

/-! ## `multisig.go` -/

/-- Function `GenerateMultiSigKey`: a fresh key stamped with `order` and `partners`. -/
def GenerateMultiSigKey (rand : Option Nat) (curve : CurveParams) (order partners : Byte) :
    SplashMultiSigKey × Option SignError :=
  let (priv, err) := GenerateSplashKeys rand curve
  let multiKey : SplashMultiSigKey :=
    { PrivateKey := priv, Order := order, Partners := partners }
  (multiKey, err)

/-- Method `SplashMultiSigKey.Sign`: the wrapped key signs, then `O` is overwritten. -/
def SplashMultiSigKey.Sign (env : Env) (multi : SplashMultiSigKey) (draws : List Nat)
    (data : List Byte) : SplashSignature × Option SignError :=
  let (sig, err) := multi.PrivateKey.Sign env draws data
  let sig := { sig with O := multi.Order }
  (sig, err)

/-- Function `GenerateMultiSigAddress`: flag byte `0x1`, the key count as one byte, and the first 20
bytes of the Merkle root over the compressed keys in array order. The slice `[:20]` panics
on a shorter root. -/
def GenerateMultiSigAddress (env : Env) (keys : List SplashPublicKey) : Option (List Byte) :=
  let keySet := keys.map env.CompressedBytes
  let root := env.MerkleRoot keySet
  let v : Byte := 1
  let z : Byte := ⟨keys.length % 256, Nat.mod_lt _ (by decide)⟩
  if root.length < 20 then none
  else some ([v, z] ++ root.take 20)

/-- How the `for` loop of `VerifyMutliSig` ends. -/
inductive LoopOutcome where
  | panicked
  | rejected
  | completed (partners : List SplashPublicKey)
deriving DecidableEq, Repr

/-- The `for _, sig := range sigs` loop of `VerifyMutliSig` on the working array
`partners`: reconstruct, store at index `sig.O` (an index past the end panics), and return
false as soon as one signature does not verify against its reconstructed key. -/
def verifyLoop (env : Env) (data : List Byte) (C : CurveParams) :
    List SplashSignature → List SplashPublicKey → LoopOutcome
  | [], partners => LoopOutcome.completed partners
  | sig :: sigs, partners =>
    match sig.ReconstructPublicKey env data C with
    | none => LoopOutcome.panicked
    | some pub =>
      if sig.O.val < partners.length then
        let partners := partners.set sig.O.val pub
        if !pub.Verify data sig then LoopOutcome.rejected
        else verifyLoop env data C sigs partners
      else LoopOutcome.panicked

/-- Function `VerifyMutliSig`: `none` when the call panics, otherwise the returned boolean. -/
def VerifyMutliSig (env : Env) (sigs : List SplashSignature) (data addr : List Byte)
    (C : CurveParams) : Option Bool :=
  let partners := List.replicate sigs.length SplashPublicKey.zero
  match verifyLoop env data C sigs partners with
  | LoopOutcome.panicked => none
  | LoopOutcome.rejected => some false
  | LoopOutcome.completed partners =>
    match GenerateMultiSigAddress env partners with
    | none => none
    | some a => some (CheckByteEq a addr)

/-- The signature that owns slot `i` of the working array: the last one in list order
whose order index is `i` ("a later signature at the same O silently overwrites an earlier
one"). -/
def slotOwner (sigs : List SplashSignature) (i : Nat) : Option SplashSignature :=
  sigs.reverse.find? (fun sig => decide (sig.O.val = i))

/-- The key a signature contributes to the working array (the zero value stands in for a
reconstruction that does not return). -/
def keyOf (env : Env) (data : List Byte) (C : CurveParams) (sig : SplashSignature) :
    SplashPublicKey :=
  (sig.ReconstructPublicKey env data C).getD SplashPublicKey.zero

/-- The assembled key array as the spec words it: "for each signature, reconstruct its
public key and place it at index signature.O in a working array sized to the observed
signature count"; slot `i` holds the key of the signature that owns it, and the zero-value
key when no signature carries `O = i`. -/
def assembledKeys (env : Env) (data : List Byte) (C : CurveParams)
    (sigs : List SplashSignature) : List SplashPublicKey :=
  (List.range sigs.length).map (fun i =>
    match slotOwner sigs i with
    | none => SplashPublicKey.zero
    | some sig => keyOf env data C sig)

/-! ## Well-formed curves and collaborators -/

/-- A usable curve: `P` and `N` prime, non-zero discriminant, `B ≠ 0` (so that the pair
`(0, 0)` is not a curve point), and a base point on the curve that `N` annihilates. -/
structure CurveParams.Valid (c : CurveParams) : Prop where
  prime_P : c.P.Prime
  prime_N : c.N.Prime
  disc : ¬ (c.P : Int) ∣ 432 * ((c.B : Int) * c.B - 4)
  B_ne : ¬ (c.P : Int) ∣ c.B
  G_on : c.IsOnCurve c.Gx c.Gy = true
  G_order : c.ScalarBaseMult (natBytes c.N) = (0, 0)

/-- The documented contract of `ModSqrt` for the prime `p`: a returned value is a reduced
square root, and nil is returned only when there is no square root. -/
def ModSqrtSpec (sqrt : Int → Int → Option Int) (p : Nat) : Prop :=
  ∀ a : Int, 0 ≤ a → a < p →
    (∀ y, sqrt a p = some y → 0 ≤ y ∧ y < p ∧ y * y % p = a) ∧
    (sqrt a p = none → ∀ y : Int, y * y % p ≠ a)

/-- The spec's requirement on the Merkle collaborator: "root exposes at least 20 bytes". -/
def MerkleSpec (root : List (List Byte) → List Byte) : Prop :=
  ∀ leaves, 20 ≤ (root leaves).length

/-- A supported curve has its group order just below the field prime: Hasse's bound puts
`N` within `2√P` of `P`, and on the standard curves of the curve library `N < P` with
`(P - N)² < P`. The bound from below leaves out curves on which the polynomial
`x³ - 3x + B` could take the same value at `x` and at `x - N`. -/
def CurveParams.OrderNearField (c : CurveParams) : Prop :=
  c.N < c.P ∧ 4 ≤ c.P - c.N ∧ (c.P - c.N) ^ 2 < c.P

/-- The recovery id as the spec words it, "recording whether Ky equals the first or second
root": for the nonce `k`, the y-coordinate of the ephemeral point `k·G` is one of the two
roots that the solver returns for `x = R = Kx mod N`. -/
def KyIsRoot (env : Env) (c : CurveParams) (k : Nat) : Bool :=
  match GetY env ((c.ScalarBaseMult (natBytes k)).1 % c.N) c with
  | none => false
  | some (y1, y2) =>
    decide ((c.ScalarBaseMult (natBytes k)).2 = y1 ∨ (c.ScalarBaseMult (natBytes k)).2 = y2)

/-- The address format is "collision-resistant" as far as a group needs it: replacing one
key of the array by a point of the curve gives the address of the array only when it is
the key that was there. -/
def AddressBinds (env : Env) (c : CurveParams) (keys : List SplashPublicKey) : Prop :=
  ∀ i, i < keys.length → ∀ x, x < c.P → ∀ y, y < c.P →
    c.IsOnCurve (x : Int) (y : Int) = true →
    GenerateMultiSigAddress env (keys.set i ⟨some c, some (x : Int), some (y : Int)⟩)
      = GenerateMultiSigAddress env keys →
    keys.set i ⟨some c, some (x : Int), some (y : Int)⟩ = keys

/-! ## Instances for evaluation -/

/-- Reference `ModSqrt`: the least square root (the library may return the other one, see
`goModSqrt`). -/
def leastSqrt (x p : Int) : Option Int :=
  ((List.range p.toNat).find? (fun (y : Nat) => decide (((y : Int) * (y : Int)) % p = x % p))).map
    (fun (y : Nat) => (y : Int))

/-- Reference compressed encoding: parity byte, then the bytes of `X`. -/
def parityBytes (pub : SplashPublicKey) : List Byte :=
  match pub.X, pub.Y with
  | some x, some y => ⟨(y % 2).toNat % 256, Nat.mod_lt _ (by decide)⟩ :: intBytes x
  | _, _ => []

/-- Reference 20-byte digest. -/
def digest20 (bs : List Byte) : List Byte :=
  (List.range 20).map (fun j =>
    ⟨bs.foldl (fun acc b => (acc * (2 * j + 3) + b.val + 1) % 65521) (j + 7) % 256,
      Nat.mod_lt _ (by decide)⟩)

/-- Reference Merkle root: the digest of the leaf digests. -/
def digestRoot (leaves : List (List Byte)) : List Byte :=
  digest20 (leaves.flatMap digest20)

/-- Reference collaborators. -/
def refEnv : Env :=
  { ModSqrt := leastSqrt, CompressedBytes := parityBytes, MerkleRoot := digestRoot }

/-- The collaborators with the square root of `math/big`. -/
def goEnv : Env :=
  { ModSqrt := goModSqrt, CompressedBytes := parityBytes, MerkleRoot := digestRoot }

/-- The curve `y² = x³ - 3x + 47` over `F_409`; its 383 points form a group of prime
order generated by `(1, 41)`. -/
def curve409 : CurveParams :=
  { P := 409, N := 383, B := 47, Gx := 1, Gy := 41 }

/-- The curve `y² = x³ - 3x + 22` over `F_47`; its 43 points form a group of prime order
generated by `(2, 20)`. -/
def curve47 : CurveParams :=
  { P := 47, N := 43, B := 22, Gx := 2, Gy := 20 }

/-- The NIST curve P-256 (`elliptic.P256().Params()`). -/
def p256 : CurveParams :=
  { P := 115792089210356248762697446949407573530086143415290314195533631308867097853951,
    N := 115792089210356248762697446949407573529996955224135760342422259061068512044369,
    B := 41058363725152142129326129780047268409114441015993725554835256314039467401291,
    Gx := 48439561293906451759052585252797914202762949526041747995844080717082404635286,
    Gy := 36134250956749795798585127919587881956611106672985015071877198253568414405109 }

/-- The NIST curve P-224 (`elliptic.P224().Params()`). -/
def p224 : CurveParams :=
  { P := 26959946667150639794667015087019630673557916260026308143510066298881,
    N := 26959946667150639794667015087019625940457807714424391721682722368061,
    B := 18958286285566608000408668544493926415504680968679321075787234672564,
    Gx := 19277929113566293071110308034699488026831934219452440156649784352033,
    Gy := 19926808758034470970197974370888749184205991990603949537637343198772 }

/-- A 32-byte hash whose value is the last byte. -/
def hashOf (b : Byte) : List Byte :=
  List.replicate 31 0 ++ [b]

/-- The key of the private scalar 2 on the small curve. -/
def key2 : SplashPrivateKey := { Curve := curve409, D := 2 }

/-- The key of the private scalar 3 on the small curve. -/
def key3 : SplashPrivateKey := { Curve := curve409, D := 3 }

/-- The key of the private scalar 2 on the curve over `F_47`. -/
def key47a : SplashPrivateKey := { Curve := curve47, D := 2 }

/-- The key of the private scalar 3 on the curve over `F_47`. -/
def key47b : SplashPrivateKey := { Curve := curve47, D := 3 }

/-- The signature of `key2` over `hashOf 5` with the nonce 7, stamped with the order
index `i`. -/
def sigAt (i : Nat) : SplashSignature :=
  { R := 276, S := 189, V := 0, O := ⟨i % 256, Nat.mod_lt _ (by decide)⟩ }

/-- The same signature 256 times, with the order indices 0..255. -/
def sigs256 : List SplashSignature := (List.range 256).map sigAt

/-- The public key of `key2`, 256 times. -/
def pubs256 : List SplashPublicKey := (List.range 256).map (fun _ => key2.GetPublicKey)

/-- Three signatures over `hashOf 5`, two of which carry the order index 0 (the first by
`key2` with the nonce 7, the second by `key3` with the nonce 11); no signature carries the
index 1. -/
def sigsDup : List SplashSignature :=
  [⟨276, 189, 0, 0⟩, ⟨137, 3, 0, 0⟩, ⟨276, 189, 0, 2⟩]

/-- The on-curve test of a key (`curve.IsOnCurve(pub.X, pub.Y)` in the tests); false for
a key with a nil field. -/
def SplashPublicKey.OnCurve (pub : SplashPublicKey) : Bool :=
  match pub.Curve, pub.X, pub.Y with
  | some c, some x, some y => c.IsOnCurve x y
  | _, _, _ => false

/-! ## Vocabulary of the proofs -/

/-- The Weierstrass curve `y² = x³ - 3x + B` over `ZMod P`. -/
def CurveParams.toAffine (c : CurveParams) : WeierstrassCurve.Affine (ZMod c.P) :=
  { a₁ := 0, a₂ := 0, a₃ := 0, a₄ := -3, a₆ := (c.B : ZMod c.P) }

/-- The integer pair `(x, y)` represents the point `Q` of the curve group: `(0, 0)` stands
for the point at infinity, any other pair for the affine point with these coordinates. -/
def Rep (c : CurveParams) (x y : Int) (Q : c.toAffine.Point) : Prop :=
  (x = 0 ∧ y = 0 ∧ Q = 0) ∨
  ∃ (a b : ZMod c.P) (h : c.toAffine.Nonsingular a b),
    (x : ZMod c.P) = a ∧ (y : ZMod c.P) = b ∧ Q = WeierstrassCurve.Affine.Point.some h

/-- Both coordinates are reduced modulo `P`. -/
def InRange (c : CurveParams) (p : Int × Int) : Prop :=
  0 ≤ p.1 ∧ p.1 < (c.P : Int) ∧ 0 ≤ p.2 ∧ p.2 < (c.P : Int)

/-- Value of a bit string read most significant bit first, continuing from `n`. -/
def bitsVal (n : Nat) (bits : List Bool) : Nat :=
  bits.foldl (fun a b => 2 * a + (if b then 1 else 0)) n

/-- The stores of the loop, one after the other, on the working array `partners`. -/
def storeKeys (env : Env) (data : List Byte) (C : CurveParams) :
    List SplashSignature → List SplashPublicKey → List SplashPublicKey
  | [], partners => partners
  | sig :: sigs, partners =>
    storeKeys env data C sigs (partners.set sig.O.val (keyOf env data C sig))

/-- What the loop asks of one signature to go on: it reconstructs, its index is inside
the working array of length `n`, and it verifies against the reconstructed key. -/
def SigPasses (env : Env) (data : List Byte) (C : CurveParams) (n : Nat)
    (sig : SplashSignature) : Prop :=
  ∃ pub, sig.ReconstructPublicKey env data C = some pub ∧ sig.O.val < n ∧
    pub.Verify data sig = true

/-- Exhaustive test of the `ModSqrt` contract for a small modulus. -/
def sqrtCheck (sqrt : Int → Int → Option Int) (p : Nat) : Bool :=
  (List.range p).all (fun (a : Nat) =>
    match sqrt (a : Int) (p : Int) with
    | some y => decide (0 ≤ y ∧ y < (p : Int) ∧ y * y % (p : Int) = (a : Int))
    | none => (List.range p).all (fun (y : Nat) =>
        decide (((y : Int) * (y : Int)) % (p : Int) ≠ (a : Int))))

/-! # Theorems -/

open WeierstrassCurve

/-! ## Modular arithmetic -/

theorem cast_emod (P : Nat) (a : Int) : (((a % (P : Int)) : Int) : ZMod P) = (a : ZMod P) := by
  exact ZMod.intCast_mod a P

theorem cast_powModAux (P : Nat) : ∀ (fuel : Nat) (b : Int) (e : Nat), e < 2 ^ fuel →
    ((powModAux (P : Int) fuel b e : Int) : ZMod P) = (b : ZMod P) ^ e := by
  intro fuel
  induction fuel with
  | zero =>
    intro b e he
    have : e = 0 := by simpa using he
    subst this
    simp [powModAux, cast_emod]
  | succ n ih =>
    intro b e he
    unfold powModAux
    by_cases h0 : e = 0
    · subst h0; simp [cast_emod]
    · have hlt : e / 2 < 2 ^ n := by
        rw [Nat.div_lt_iff_lt_mul (by norm_num)]
        rw [pow_succ] at he
        exact he
      have ih2 := ih (b * b % (P : Int)) (e / 2) hlt
      simp only [h0, if_false]
      have hb : (((b * b % (P : Int)) : Int) : ZMod P) = (b : ZMod P) * b := by
        rw [cast_emod]; push_cast; rfl
      by_cases h1 : e % 2 = 1
      · simp only [h1, if_true]
        rw [cast_emod]; push_cast
        rw [ih2, hb, ← pow_two, ← pow_mul, ← pow_succ]
        congr 1
        omega
      · simp only [h1, if_false]
        rw [ih2, hb, ← pow_two, ← pow_mul]
        congr 1
        omega

theorem cast_powMod (P : Nat) (b : Int) (e : Nat) :
    ((powMod b e (P : Int) : Int) : ZMod P) = (b : ZMod P) ^ e := by
  unfold powMod
  exact cast_powModAux P e b e (Nat.lt_two_pow e)

theorem cast_fieldInv (c : CurveParams) [Fact c.P.Prime] (h2 : 2 < c.P) (a : Int) :
    ((c.fieldInv a : Int) : ZMod c.P) = ((a : ZMod c.P))⁻¹ := by
  unfold CurveParams.fieldInv
  rw [cast_powMod, cast_emod]
  by_cases ha : (a : ZMod c.P) = 0
  · rw [ha, inv_zero, zero_pow]
    omega
  · have h1 := ZMod.pow_card_sub_one_eq_one ha
    have : c.P - 1 = (c.P - 2) + 1 := by omega
    rw [this, pow_succ] at h1
    exact eq_inv_of_mul_eq_one_left h1

/-! ## The affine model computes the group law -/

theorem modEq_iff_cast (P : Nat) (a b : Int) :
    a % (P : Int) = b % (P : Int) ↔ (a : ZMod P) = (b : ZMod P) := by
  rw [ZMod.intCast_eq_intCast_iff]; rfl

theorem emod_eq_zero_iff_cast (P : Nat) (a : Int) :
    a % (P : Int) = 0 ↔ (a : ZMod P) = 0 := by
  rw [ZMod.intCast_zmod_eq_zero_iff_dvd]
  exact Int.dvd_iff_emod_eq_zero.symm

theorem equation_iff_cast (c : CurveParams) (a b : ZMod c.P) :
    c.toAffine.Equation a b ↔ b * b = a * a * a - (a * 2 + a) + (c.B : ZMod c.P) := by
  rw [Affine.equation_iff]
  simp only [CurveParams.toAffine]
  constructor <;> intro h <;> linear_combination h

theorem isOnCurve_iff (c : CurveParams) (x y : Int) :
    c.IsOnCurve x y = true ↔ c.toAffine.Equation (x : ZMod c.P) (y : ZMod c.P) := by
  unfold CurveParams.IsOnCurve
  simp only [decide_eq_true_eq]
  rw [modEq_iff_cast, equation_iff_cast]
  push_cast
  constructor <;> intro h <;> exact h.symm

theorem disc_ne_zero (c : CurveParams) (hv : c.Valid) : c.toAffine.Δ ≠ 0 := by
  have h := hv.disc
  rw [← ZMod.intCast_zmod_eq_zero_iff_dvd] at h
  intro h0
  apply h
  simp only [WeierstrassCurve.Δ, WeierstrassCurve.b₂, WeierstrassCurve.b₄, WeierstrassCurve.b₆,
    WeierstrassCurve.b₈, CurveParams.toAffine] at h0
  push_cast
  linear_combination -h0

theorem two_lt_P (c : CurveParams) (hv : c.Valid) : 2 < c.P := by
  have hp := hv.prime_P
  have h2 := hp.two_le
  rcases Nat.lt_or_ge 2 c.P with h | h
  · exact h
  · exfalso
    have : c.P = 2 := by omega
    apply hv.disc
    rw [this]
    exact Dvd.dvd.mul_right (by norm_num) _

theorem two_ne_zero_zmod (c : CurveParams) [Fact c.P.Prime] (hv : c.Valid) :
    (2 : ZMod c.P) ≠ 0 := by
  have h := two_lt_P c hv
  intro h0
  have : ((2 : Nat) : ZMod c.P) = 0 := by exact_mod_cast h0
  rw [ZMod.natCast_zmod_eq_zero_iff_dvd] at this
  have := Nat.le_of_dvd (by norm_num) this
  omega

theorem rep_double (c : CurveParams) [Fact c.P.Prime] (hv : c.Valid) {x y : Int}
    {Q : c.toAffine.Point} (h : Rep c x y Q) :
    Rep c (c.Double x y).1 (c.Double x y).2 (Q + Q) := by
  have h2 := two_lt_P c hv
  have h2' := two_ne_zero_zmod c hv
  rcases h with ⟨hx, hy, hQ⟩ | ⟨a, b, hns, hxa, hyb, hQ⟩
  · subst hx hy hQ
    left
    simp [CurveParams.Double]
  · subst hQ
    unfold CurveParams.Double
    by_cases hy0 : y % (c.P : Int) = 0
    · simp only [hy0, if_true]
      left
      refine ⟨rfl, rfl, ?_⟩
      rw [emod_eq_zero_iff_cast, hyb] at hy0
      apply Affine.Point.add_self_of_Y_eq
      simp [CurveParams.toAffine, hy0]
    · simp only [hy0, if_false]
      rw [emod_eq_zero_iff_cast, hyb] at hy0
      have hne : b ≠ c.toAffine.negY a b := by
        simp only [CurveParams.toAffine, Affine.negY]
        intro hb
        apply hy0
        have : (2 : ZMod c.P) * b = 0 := by linear_combination hb
        rcases mul_eq_zero.mp this with h | h
        · exact absurd h h2'
        · exact h
      have h2b : (2 : ZMod c.P) * b ≠ 0 := mul_ne_zero h2' hy0
      have hl : ((((3 * (x % (c.P : Int)) * (x % (c.P : Int)) - 3) *
          c.fieldInv (2 * (y % (c.P : Int))) % (c.P : Int) : Int)) : ZMod c.P) =
          c.toAffine.slope a a b b := by
        rw [Affine.slope_of_Y_ne rfl hne]
        simp only [CurveParams.toAffine, Affine.negY]
        push_cast [cast_emod, cast_fieldInv c h2, hxa, hyb]
        rw [div_eq_mul_inv]
        congr 1
        · ring
        · congr 1; ring
      right
      refine ⟨_, _, Affine.nonsingular_add hns hns (fun _ => hne), ?_, ?_,
        Affine.Point.add_self_of_Y_ne hne⟩
      · simp only [Affine.addX]
        push_cast [cast_emod] at hl ⊢
        rw [hl, hxa]
        simp only [CurveParams.toAffine]
        ring
      · simp only [Affine.addX, Affine.addY, Affine.negAddY, Affine.negY]
        push_cast [cast_emod] at hl ⊢
        rw [hl, hxa, hyb]
        simp only [CurveParams.toAffine]
        ring

theorem not_equation_zero (c : CurveParams) (hv : c.Valid) :
    ¬ c.toAffine.Equation (0 : ZMod c.P) 0 := by
  rw [Affine.equation_zero]
  simp only [CurveParams.toAffine]
  have h := hv.B_ne
  rw [← ZMod.intCast_zmod_eq_zero_iff_dvd] at h
  intro h0
  apply h
  exact_mod_cast h0

theorem rep_emod (c : CurveParams) {x y : Int} {Q : c.toAffine.Point} (h : Rep c x y Q) :
    Rep c (x % (c.P : Int)) (y % (c.P : Int)) Q := by
  rcases h with ⟨hx, hy, hQ⟩ | ⟨a, b, hns, hxa, hyb, hQ⟩
  · subst hx hy hQ
    left
    simp
  · right
    exact ⟨a, b, hns, by rw [cast_emod, hxa], by rw [cast_emod, hyb], hQ⟩

theorem rep_add (c : CurveParams) [Fact c.P.Prime] (hv : c.Valid) {x1 y1 x2 y2 : Int}
    {Q1 Q2 : c.toAffine.Point} (h1 : Rep c x1 y1 Q1) (h2 : Rep c x2 y2 Q2) :
    Rep c (c.Add x1 y1 x2 y2).1 (c.Add x1 y1 x2 y2).2 (Q1 + Q2) := by
  have hP2 := two_lt_P c hv
  have hz := not_equation_zero c hv
  unfold CurveParams.Add
  rcases h1 with ⟨hx1, hy1, hQ1⟩ | ⟨a1, b1, hns1, hxa1, hyb1, hQ1⟩
  · subst hx1 hy1 hQ1
    simp only [and_self, if_true, zero_add]
    exact rep_emod c h2
  · have hnz1 : ¬ (x1 = 0 ∧ y1 = 0) := by
      rintro ⟨hx, hy⟩
      subst hx hy
      apply hz
      have := hns1.1
      rw [← hxa1, ← hyb1] at this
      simpa using this
    simp only [hnz1, if_false]
    rcases h2 with ⟨hx2, hy2, hQ2⟩ | ⟨a2, b2, hns2, hxa2, hyb2, hQ2⟩
    · subst hx2 hy2 hQ2
      simp only [and_self, if_true, add_zero]
      exact rep_emod c (Or.inr ⟨a1, b1, hns1, hxa1, hyb1, hQ1⟩)
    · have hnz2 : ¬ (x2 = 0 ∧ y2 = 0) := by
        rintro ⟨hx, hy⟩
        subst hx hy
        apply hz
        have := hns2.1
        rw [← hxa2, ← hyb2] at this
        simpa using this
      simp only [hnz2, if_false]
      subst hQ1 hQ2
      by_cases hxe : x1 % (c.P : Int) = x2 % (c.P : Int)
      · simp only [hxe, if_true]
        have hae : a1 = a2 := by
          rw [modEq_iff_cast, hxa1, hxa2] at hxe; exact hxe
        by_cases hye : y1 % (c.P : Int) = y2 % (c.P : Int)
        · simp only [hye, if_true]
          have hbe : b1 = b2 := by
            rw [modEq_iff_cast, hyb1, hyb2] at hye; exact hye
          subst hae hbe
          have hr : Rep c (x2 % (c.P : Int)) (y2 % (c.P : Int)) (Affine.Point.some hns1) :=
            rep_emod c (Or.inr ⟨a1, b1, hns1, hxa2, hyb2, rfl⟩)
          exact rep_double c hv hr
        · simp only [hye, if_false]
          left
          refine ⟨rfl, rfl, ?_⟩
          have hbne : b1 ≠ b2 := by
            intro hb
            apply hye
            rw [modEq_iff_cast, hyb1, hyb2]; exact hb
          apply Affine.Point.add_of_Y_eq hae
          rcases Affine.Y_eq_of_X_eq hns1.1 hns2.1 hae with h | h
          · exact absurd h hbne
          · exact h
      · simp only [hxe, if_false]
        have hane : a1 ≠ a2 := by
          intro ha
          apply hxe
          rw [modEq_iff_cast, hxa1, hxa2]; exact ha
        have hl : (((((y2 % (c.P : Int)) - (y1 % (c.P : Int))) *
            c.fieldInv ((x2 % (c.P : Int)) - (x1 % (c.P : Int))) % (c.P : Int) : Int)) :
            ZMod c.P) = c.toAffine.slope a1 a2 b1 b2 := by
          rw [Affine.slope_of_X_ne hane]
          push_cast [cast_emod, cast_fieldInv c hP2, hxa1, hyb1, hxa2, hyb2]
          rw [div_eq_mul_inv, ← neg_sub b1 b2, ← neg_sub a1 a2, inv_neg]
          ring
        right
        refine ⟨_, _, Affine.nonsingular_add hns1 hns2 (fun h => absurd h hane), ?_, ?_,
          Affine.Point.add_of_X_ne hane⟩
        · simp only [Affine.addX]
          push_cast [cast_emod] at hl ⊢
          rw [hl, hxa1, hxa2]
          simp only [CurveParams.toAffine]
          ring
        · simp only [Affine.addX, Affine.addY, Affine.negAddY, Affine.negY]
          push_cast [cast_emod] at hl ⊢
          rw [hl, hxa1, hxa2, hyb1]
          simp only [CurveParams.toAffine]
          ring

/-! ## Scalar multiplication -/

theorem P_pos (c : CurveParams) (hv : c.Valid) : (0 : Int) < (c.P : Int) := by
  have := hv.prime_P.pos
  exact_mod_cast this

theorem inRange_zero (c : CurveParams) (hv : c.Valid) : InRange c (0, 0) := by
  have := P_pos c hv
  exact ⟨le_refl _, this, le_refl _, this⟩

theorem inRange_emod (c : CurveParams) (hv : c.Valid) (x y : Int) :
    InRange c (x % (c.P : Int), y % (c.P : Int)) := by
  have h := P_pos c hv
  exact ⟨Int.emod_nonneg _ h.ne', Int.emod_lt_of_pos _ h, Int.emod_nonneg _ h.ne',
    Int.emod_lt_of_pos _ h⟩

theorem inRange_double (c : CurveParams) (hv : c.Valid) (x y : Int) :
    InRange c (c.Double x y) := by
  unfold CurveParams.Double
  simp only
  split
  · exact inRange_zero c hv
  · exact inRange_emod c hv _ _

theorem inRange_add (c : CurveParams) (hv : c.Valid) (x1 y1 x2 y2 : Int) :
    InRange c (c.Add x1 y1 x2 y2) := by
  unfold CurveParams.Add
  simp only
  split
  · exact inRange_emod c hv _ _
  · split
    · exact inRange_emod c hv _ _
    · split
      · split
        · exact inRange_double c hv _ _
        · exact inRange_zero c hv
      · exact inRange_emod c hv _ _

theorem scalarMult_fold (c : CurveParams) [Fact c.P.Prime] (hv : c.Valid) {Bx By : Int}
    {Q : c.toAffine.Point} (hB : Rep c Bx By Q) :
    ∀ (bits : List Bool) (acc : Int × Int) (n : Nat), Rep c acc.1 acc.2 (n • Q) →
      InRange c acc →
      Rep c (bits.foldl (fun acc bit =>
          let d := c.Double acc.1 acc.2
          if bit then c.Add Bx By d.1 d.2 else d) acc).1
        (bits.foldl (fun acc bit =>
          let d := c.Double acc.1 acc.2
          if bit then c.Add Bx By d.1 d.2 else d) acc).2 (bitsVal n bits • Q) ∧
      InRange c (bits.foldl (fun acc bit =>
          let d := c.Double acc.1 acc.2
          if bit then c.Add Bx By d.1 d.2 else d) acc) := by
  intro bits
  induction bits with
  | nil => intro acc n h hr; exact ⟨h, hr⟩
  | cons b bs ih =>
    intro acc n h hr
    simp only [List.foldl_cons, bitsVal]
    have hd := rep_double c hv h
    have hd2 : n • Q + n • Q = (2 * n) • Q := by rw [two_mul, add_nsmul]
    rw [hd2] at hd
    cases b with
    | false =>
      simp only [Bool.false_eq_true, if_false, add_zero]
      exact ih _ _ hd (inRange_double c hv _ _)
    | true =>
      simp only [if_true]
      have ha := rep_add c hv hB hd
      have ha2 : Q + (2 * n) • Q = (2 * n + 1) • Q := by
        rw [add_nsmul, one_nsmul, add_comm]
      rw [ha2] at ha
      exact ih _ _ ha (inRange_add c hv _ _ _ _)

theorem bitsVal_shift (bits : List Bool) : ∀ n, bitsVal n bits = n * 2 ^ bits.length + bitsVal 0 bits := by
  induction bits with
  | nil => intro n; simp [bitsVal]
  | cons b bs ih =>
    intro n
    simp only [bitsVal, List.foldl_cons, List.length_cons] at ih ⊢
    rw [ih (2 * n + _), ih (2 * 0 + _)]
    ring

set_option maxRecDepth 100000 in
theorem bitsVal_byteBits (b : Byte) : bitsVal 0 (CurveParams.byteBits b) = b.val := by
  revert b
  decide

theorem bitsVal_flatMap (k : List Byte) : ∀ n,
    bitsVal n (k.flatMap CurveParams.byteBits) = k.foldl (fun acc b => acc * 256 + b.val) n := by
  induction k with
  | nil => intro n; simp [bitsVal]
  | cons b bs ih =>
    intro n
    have h1 : bitsVal n (CurveParams.byteBits b) = n * 256 + b.val := by
      rw [bitsVal_shift, bitsVal_byteBits]
      simp [CurveParams.byteBits]
    simp only [List.flatMap_cons, List.foldl_cons]
    rw [← ih, ← h1]
    simp [bitsVal, List.foldl_append]

theorem rep_scalarMult (c : CurveParams) [Fact c.P.Prime] (hv : c.Valid) {Bx By : Int}
    {Q : c.toAffine.Point} (hB : Rep c Bx By Q) (k : List Byte) :
    Rep c (c.ScalarMult Bx By k).1 (c.ScalarMult Bx By k).2 (beNat k • Q) ∧
      InRange c (c.ScalarMult Bx By k) := by
  have h := scalarMult_fold c hv hB (k.flatMap CurveParams.byteBits) (0, 0) 0
    (by left; exact ⟨rfl, rfl, zero_nsmul Q⟩) (inRange_zero c hv)
  rw [bitsVal_flatMap] at h
  exact h

/-! ## Bytes, inverses, representations -/

theorem beNat_fold_shift (bs : List Byte) : ∀ n,
    bs.foldl (fun acc b => acc * 256 + b.val) n = n * 256 ^ bs.length + beNat bs := by
  induction bs with
  | nil => intro n; simp [beNat]
  | cons b bs ih =>
    intro n
    simp only [beNat, List.foldl_cons, List.length_cons] at ih ⊢
    rw [ih (n * 256 + _), ih (0 * 256 + _)]
    ring

theorem beNat_cons (b : Byte) (bs : List Byte) :
    beNat (b :: bs) = b.val * 256 ^ bs.length + beNat bs := by
  have := beNat_fold_shift bs (0 * 256 + b.val)
  simp only [beNat, List.foldl_cons] at this ⊢
  rw [this]
  simp

theorem beNat_natBytesAux : ∀ (fuel n : Nat) (acc : List Byte), n ≤ fuel →
    beNat (natBytesAux fuel n acc) = n * 256 ^ acc.length + beNat acc := by
  intro fuel
  induction fuel with
  | zero =>
    intro n acc h
    have : n = 0 := by omega
    subst this
    simp [natBytesAux]
  | succ f ih =>
    intro n acc h
    unfold natBytesAux
    by_cases h0 : n = 0
    · subst h0; simp
    · simp only [h0, if_false]
      rw [ih _ _ (by omega), beNat_cons]
      simp only [List.length_cons, pow_succ]
      conv_rhs => rw [← Nat.div_add_mod n 256]
      ring

theorem beNat_natBytes (n : Nat) : beNat (natBytes n) = n := by
  unfold natBytes
  rw [beNat_natBytesAux n n [] (le_refl _)]
  simp [beNat]

theorem beNat_intBytes (x : Int) (h : 0 ≤ x) : (beNat (intBytes x) : Int) = x := by
  unfold intBytes
  rw [beNat_natBytes]
  exact Int.natAbs_of_nonneg h

theorem modInverse_some (g : Int) (n : Nat) (w : Int) (h : ModInverse g n = some w) :
    0 ≤ w ∧ w < (n : Int) ∧ (g * w) % (n : Int) = 1 % (n : Int) := by
  unfold ModInverse at h
  rw [Option.map_eq_some'] at h
  obtain ⟨x, hx, rfl⟩ := h
  have h1 := List.find?_some hx
  have h2 := List.mem_of_find?_eq_some hx
  rw [List.mem_range] at h2
  simp only [decide_eq_true_eq] at h1
  exact ⟨Int.natCast_nonneg x, by exact_mod_cast h2, h1⟩

theorem modInverse_exists (g : Int) (n : Nat) (hn : n.Prime) (hg : ¬ (n : Int) ∣ g) :
    ∃ w, ModInverse g n = some w := by
  haveI : Fact n.Prime := ⟨hn⟩
  have hg0 : (g : ZMod n) ≠ 0 := by
    rwa [Ne, ZMod.intCast_zmod_eq_zero_iff_dvd]
  have hex : ∃ x ∈ List.range n, decide ((g * (x : Int)) % (n : Int) = 1 % (n : Int)) = true := by
    refine ⟨((g : ZMod n)⁻¹).val, List.mem_range.mpr (ZMod.val_lt _), ?_⟩
    simp only [decide_eq_true_eq]
    rw [modEq_iff_cast]
    push_cast
    rw [ZMod.natCast_val, ZMod.cast_id, mul_inv_cancel₀ hg0]
  unfold ModInverse
  cases hf : (List.range n).find? (fun (x : Nat) => decide ((g * (x : Int)) % (n : Int) = 1 % (n : Int))) with
  | none =>
    rw [List.find?_eq_none] at hf
    obtain ⟨x, hx, hp⟩ := hex
    exact absurd hp (hf x hx)
  | some x => exact ⟨_, rfl⟩

theorem rep_inversePoint (c : CurveParams) {x y : Int} {Q : c.toAffine.Point}
    (h : Rep c x y Q) :
    Rep c (InversePoint x y c).1 (InversePoint x y c).2 (-Q) := by
  unfold InversePoint
  rcases h with ⟨hx, hy, hQ⟩ | ⟨a, b, hns, hxa, hyb, hQ⟩
  · subst hx hy hQ
    left
    simp
  · subst hQ
    right
    refine ⟨_, _, Affine.nonsingular_neg hns, hxa, ?_, Affine.Point.neg_some hns⟩
    simp only [Affine.negY, CurveParams.toAffine]
    push_cast [cast_emod]
    rw [hyb]
    simp

theorem rep_zero_iff (c : CurveParams) (hv : c.Valid) {Q : c.toAffine.Point}
    (h : Rep c 0 0 Q) : Q = 0 := by
  rcases h with ⟨_, _, hQ⟩ | ⟨a, b, hns, hxa, hyb, hQ⟩
  · exact hQ
  · exfalso
    apply not_equation_zero c hv
    have := hns.1
    rw [← hxa, ← hyb] at this
    simpa using this

theorem cast_inj_of_inRange (P : Nat) {x x' : Int} (h0 : 0 ≤ x) (h1 : x < P) (h0' : 0 ≤ x')
    (h1' : x' < P) (h : (x : ZMod P) = (x' : ZMod P)) : x = x' := by
  rw [← modEq_iff_cast] at h
  rwa [Int.emod_eq_of_lt h0 h1, Int.emod_eq_of_lt h0' h1'] at h

theorem rep_unique (c : CurveParams) {p p' : Int × Int} {Q : c.toAffine.Point}
    (h : Rep c p.1 p.2 Q) (h' : Rep c p'.1 p'.2 Q) (hr : InRange c p) (hr' : InRange c p') :
    p = p' := by
  obtain ⟨x, y⟩ := p
  obtain ⟨x', y'⟩ := p'
  simp only at h h'
  rcases h with ⟨hx, hy, hQ⟩ | ⟨a, b, hns, hxa, hyb, hQ⟩
  · subst hx hy hQ
    rcases h' with ⟨hx, hy, _⟩ | ⟨a, b, hns, hxa, hyb, hQ⟩
    · rw [hx, hy]
    · exact absurd hQ.symm (Affine.Point.some_ne_zero hns)
  · rcases h' with ⟨hx, hy, hQ'⟩ | ⟨a', b', hns', hxa', hyb', hQ'⟩
    · rw [hQ'] at hQ
      exact absurd hQ.symm (Affine.Point.some_ne_zero hns)
    · rw [hQ] at hQ'
      rw [Affine.Point.some.injEq] at hQ'
      obtain ⟨ha, hb⟩ := hQ'
      have e1 : x = x' := cast_inj_of_inRange c.P hr.1 hr.2.1 hr'.1 hr'.2.1
        (by rw [hxa, hxa', ha])
      have e2 : y = y' := cast_inj_of_inRange c.P hr.2.2.1 hr.2.2.2 hr'.2.2.1 hr'.2.2.2
        (by rw [hyb, hyb', hb])
      rw [e1, e2]

theorem rep_of_equation (c : CurveParams) (hv : c.Valid) {x y : Int}
    (h : c.toAffine.Equation (x : ZMod c.P) (y : ZMod c.P)) :
    ∃ Q : c.toAffine.Point, Rep c x y Q ∧ Q ≠ 0 :=
  ⟨Affine.Point.some (Affine.nonsingular_of_Δ_ne_zero c.toAffine h (disc_ne_zero c hv)),
    Or.inr ⟨_, _, _, rfl, rfl, rfl⟩, Affine.Point.some_ne_zero _⟩

theorem getY_spec (env : Env) (c : CurveParams) (hv : c.Valid)
    (hs : ModSqrtSpec env.ModSqrt c.P) {x y1 y2 : Int} (h : GetY env x c = some (y1, y2)) :
    0 ≤ y1 ∧ y1 < (c.P : Int) ∧ y2 = ((c.P : Int) - y1) % (c.P : Int) ∧
      c.toAffine.Equation (x : ZMod c.P) (y1 : ZMod c.P) ∧
      c.toAffine.Equation (x : ZMod c.P) (y2 : ZMod c.P) := by
  have hP := P_pos c hv
  unfold GetY at h
  simp only at h
  cases hm : env.ModSqrt ((x * x * x - (x * 2 + x) + (c.B : Int)) % (c.P : Int)) (c.P : Int) with
  | none => rw [hm] at h; simp at h
  | some r =>
    rw [hm] at h
    simp only [Option.some.injEq, Prod.mk.injEq] at h
    obtain ⟨rfl, rfl⟩ := h
    obtain ⟨h0, h1, h2⟩ := (hs _ (Int.emod_nonneg _ hP.ne') (Int.emod_lt_of_pos _ hP)).1 r hm
    have he : c.toAffine.Equation (x : ZMod c.P) (r : ZMod c.P) := by
      rw [equation_iff_cast]
      have := congrArg (fun t : Int => (t : ZMod c.P)) h2
      simp only at this
      rw [cast_emod, cast_emod] at this
      push_cast at this
      exact this
    refine ⟨h0, h1, rfl, he, ?_⟩
    rw [equation_iff_cast] at he ⊢
    push_cast [cast_emod]
    rw [← he]
    simp

/-! ## Signing and reconstruction -/

theorem base_point (c : CurveParams) [Fact c.P.Prime] (hv : c.Valid) :
    ∃ Gp : c.toAffine.Point, Rep c c.Gx c.Gy Gp ∧ c.N • Gp = 0 ∧ Gp ≠ 0 := by
  have hon := hv.G_on
  rw [isOnCurve_iff] at hon
  obtain ⟨Gp, hG, hne⟩ := rep_of_equation c hv hon
  refine ⟨Gp, hG, ?_, hne⟩
  have h := (rep_scalarMult c hv hG (natBytes c.N)).1
  rw [beNat_natBytes] at h
  have ho := hv.G_order
  unfold CurveParams.ScalarBaseMult at ho
  rw [ho] at h
  exact rep_zero_iff c hv h

theorem zsmul_congr {A : Type*} [AddCommGroup A] {N : Nat} {g : A} (hN : N • g = 0)
    {a b : Int} (h : (a : ZMod N) = (b : ZMod N)) : a • g = b • g := by
  rw [ZMod.intCast_eq_intCast_iff, Int.modEq_iff_dvd] at h
  obtain ⟨t, ht⟩ := h
  have hb : b = a + (N : Int) * t := by linarith
  rw [hb, add_zsmul, mul_comm, mul_zsmul, natCast_zsmul, hN, smul_zero, add_zero]

theorem signWithNonce_done {env : Env} {priv : SplashPrivateKey} {k : Nat} {data : List Byte}
    {sig : SplashSignature} (h : priv.signWithNonce env k data = SignAttempt.done sig) :
    ∃ kInv y1 y2 : Int,
      0 < k ∧ k < priv.Curve.N ∧
      ModInverse k priv.Curve.N = some kInv ∧
      GetY env ((priv.Curve.ScalarBaseMult (natBytes k)).1 % priv.Curve.N) priv.Curve
        = some (y1, y2) ∧
      sig.R = (priv.Curve.ScalarBaseMult (natBytes k)).1 % priv.Curve.N ∧
      sig.R ≠ 0 ∧
      sig.S = kInv * ((beNat (data.take 32) : Int) % priv.Curve.N + sig.R * priv.D)
        % priv.Curve.N ∧
      sig.S ≠ 0 ∧
      sig.V = (if (priv.Curve.ScalarBaseMult (natBytes k)).2 = y1 then 0 else 1) ∧
      sig.O = 0 := by
  unfold SplashPrivateKey.signWithNonce at h
  simp only at h
  split at h
  · exact absurd h (by simp)
  · rename_i hk
    split at h
    · exact absurd h (by simp)
    · rename_i hR
      split at h
      · exact absurd h (by simp)
      · rename_i kInv hkInv
        split at h
        · exact absurd h (by simp)
        · rename_i hS
          split at h
          · exact absurd h (by simp)
          · rename_i y1 y2 hY
            simp only [SignAttempt.done.injEq] at h
            subst h
            refine ⟨kInv, y1, y2, by omega, by omega, hkInv, hY, rfl, hR, rfl, hS, rfl, rfl⟩

theorem rep_functional (c : CurveParams) (hv : c.Valid) {x y : Int} {Q Q' : c.toAffine.Point}
    (h : Rep c x y Q) (h' : Rep c x y Q') : Q = Q' := by
  rcases h with ⟨hx, hy, hQ⟩ | ⟨a, b, hns, hxa, hyb, hQ⟩
  · subst hx hy
    rw [hQ, rep_zero_iff c hv h']
  · rcases h' with ⟨hx, hy, hQ'⟩ | ⟨a', b', hns', hxa', hyb', hQ'⟩
    · subst hx hy
      have := rep_zero_iff c hv (Or.inr ⟨a, b, hns, hxa, hyb, hQ⟩)
      rw [this, hQ']
    · rw [hQ, hQ', Affine.Point.some.injEq]
      exact ⟨by rw [← hxa, ← hxa'], by rw [← hyb, ← hyb']⟩

theorem reconstruct_rep (env : Env) (c : CurveParams) [Fact c.P.Prime] (hv : c.Valid)
    (hs : ModSqrtSpec env.ModSqrt c.P) (sig : SplashSignature) (data : List Byte)
    (hlen : 32 ≤ data.length) {RMod : Int} (hR : ModInverse sig.R c.N = some RMod)
    {y1 y2 : Int} (hY : GetY env sig.R c = some (y1, y2))
    {Gp : c.toAffine.Point} (hG : Rep c c.Gx c.Gy Gp) :
    ∃ (Kp : c.toAffine.Point) (xy : Int × Int),
      Rep c sig.R (if sig.V = 1 then y2 else y1) Kp ∧ Kp ≠ 0 ∧
      sig.ReconstructPublicKey env data c = some ⟨some c, some xy.1, some xy.2⟩ ∧
      InRange c xy ∧
      Rep c xy.1 xy.2
        (RMod.natAbs • (sig.S.natAbs • Kp - beNat (data.take 32) • Gp)) := by
  obtain ⟨_, _, _, he1, he2⟩ := getY_spec env c hv hs hY
  have hek : c.toAffine.Equation (sig.R : ZMod c.P)
      (((if sig.V = 1 then y2 else y1 : Int)) : ZMod c.P) := by
    split
    · exact he2
    · exact he1
  obtain ⟨Kp, hK, hKne⟩ := rep_of_equation c hv hek
  have hsK := rep_scalarMult c hv hK (intBytes sig.S)
  have hzG := rep_scalarMult c hv hG (data.take 32)
  have hizG := rep_inversePoint c hzG.1
  have hT := rep_add c hv hsK.1 hizG
  have hxy := rep_scalarMult c hv hT (intBytes RMod)
  refine ⟨Kp, _, hK, hKne, ?_, hxy.2, ?_⟩
  · unfold SplashSignature.ReconstructPublicKey
    simp only [hY, hR, not_lt.mpr hlen, if_false]
    rfl
  · have e := hxy.1
    simp only [intBytes, beNat_natBytes] at e
    rw [sub_eq_add_neg]
    exact e

/-- The point selected by the recovery id is the ephemeral point of the signer. -/
theorem ephemeral_select (env : Env) (c : CurveParams) [Fact c.P.Prime] (hv : c.Valid)
    (hs : ModSqrtSpec env.ModSqrt c.P) {K : Int × Int} {Kp : c.toAffine.Point}
    (hK : Rep c K.1 K.2 Kp) (hKr : InRange c K) (hne : K.1 ≠ 0)
    {y1 y2 : Int} (hY : GetY env K.1 c = some (y1, y2)) :
    (if (if K.2 = y1 then (0 : Byte) else 1) = 1 then y2 else y1) = K.2 := by
  obtain ⟨h0, h1, hy2, he1, he2⟩ := getY_spec env c hv hs hY
  have hP := P_pos c hv
  by_cases h : K.2 = y1
  · simp [h]
  · simp only [h, if_false, if_true]
    rcases hK with ⟨hx, _, _⟩ | ⟨a, b, hns, hxa, hyb, hQ⟩
    · exact absurd hx hne
    · have hek : c.toAffine.Equation (K.1 : ZMod c.P) (K.2 : ZMod c.P) := by
        rw [hxa, hyb]; exact hns.1
      rcases Affine.Y_eq_of_X_eq hek he1 rfl with hh | hh
      · exact absurd (cast_inj_of_inRange c.P hKr.2.2.1 hKr.2.2.2 h0 h1 hh) h
      · have hc : (K.2 : ZMod c.P) = (y2 : ZMod c.P) := by
          rw [hh, hy2]
          simp only [Affine.negY, CurveParams.toAffine]
          push_cast [cast_emod]
          simp
        have hy2r : 0 ≤ y2 ∧ y2 < (c.P : Int) := by
          rw [hy2]
          exact ⟨Int.emod_nonneg _ hP.ne', Int.emod_lt_of_pos _ hP⟩
        exact (cast_inj_of_inRange c.P hKr.2.2.1 hKr.2.2.2 hy2r.1 hy2r.2 hc).symm

theorem reconstruct_of_signWithNonce (env : Env) (priv : SplashPrivateKey) (k : Nat)
    (data : List Byte) (sig : SplashSignature)
    (hv : priv.Curve.Valid) (hs : ModSqrtSpec env.ModSqrt priv.Curve.P)
    (hlen : 32 ≤ data.length)
    (hsig : priv.signWithNonce env k data = SignAttempt.done sig)
    (hwrap : (priv.Curve.ScalarBaseMult (natBytes k)).1 < priv.Curve.N) :
    sig.ReconstructPublicKey env data priv.Curve = some priv.GetPublicKey := by
  haveI : Fact priv.Curve.P.Prime := ⟨hv.prime_P⟩
  haveI : Fact priv.Curve.N.Prime := ⟨hv.prime_N⟩
  obtain ⟨kInv, y1, y2, hk0, hkN, hkInv, hY, hR, hRne, hS, hSne, hV, hO⟩ :=
    signWithNonce_done hsig
  obtain ⟨Gp, hG, hNG, hGne⟩ := base_point priv.Curve hv
  -- the ephemeral point
  have hKrep := rep_scalarMult priv.Curve hv hG (natBytes k)
  rw [beNat_natBytes] at hKrep
  have hNpos : (0 : Int) < (priv.Curve.N : Int) := by
    exact_mod_cast hv.prime_N.pos
  have hRK : sig.R = (priv.Curve.ScalarBaseMult (natBytes k)).1 := by
    rw [hR]
    exact Int.emod_eq_of_lt hKrep.2.1 hwrap
  have hKx : (priv.Curve.ScalarBaseMult (natBytes k)).1 ≠ 0 := by
    rw [← hRK]; exact hRne
  rw [← hR] at hY
  -- inverse of R
  have hRdvd : ¬ (priv.Curve.N : Int) ∣ sig.R := by
    intro hd
    have := Int.emod_eq_zero_of_dvd hd
    rw [hRK, ← hR] at this
    exact hRne this
  obtain ⟨RMod, hRMod⟩ := modInverse_exists sig.R priv.Curve.N hv.prime_N hRdvd
  obtain ⟨Kp, xy, hKp, _, hrec, hxyr, hxy⟩ :=
    reconstruct_rep env priv.Curve hv hs sig data hlen hRMod hY hG
  -- the selected point is k • G
  have hsel : (if sig.V = 1 then y2 else y1) = (priv.Curve.ScalarBaseMult (natBytes k)).2 := by
    rw [hV]
    have hY' := hY
    rw [hRK] at hY'
    unfold CurveParams.ScalarBaseMult at hY' hKx ⊢
    exact ephemeral_select env priv.Curve hv hs hKrep.1 hKrep.2 hKx hY'
  rw [hsel, hRK] at hKp
  have hKpk : Kp = k • Gp := rep_functional priv.Curve hv hKp hKrep.1
  -- the public key
  have hQ := rep_scalarMult priv.Curve hv hG (natBytes priv.D)
  rw [beNat_natBytes] at hQ
  -- group algebra
  obtain ⟨hk1, hk2, hk3⟩ := modInverse_some _ _ _ hkInv
  obtain ⟨hr1, hr2, hr3⟩ := modInverse_some _ _ _ hRMod
  have hS0 : 0 ≤ sig.S := by
    rw [hS]; exact Int.emod_nonneg _ hNpos.ne'
  have hpt : RMod.natAbs • (sig.S.natAbs • Kp - beNat (data.take 32) • Gp) = priv.D • Gp := by
    rw [hKpk]
    have e1 : RMod.natAbs • (sig.S.natAbs • k • Gp - beNat (data.take 32) • Gp)
        = (RMod * (sig.S * (k : Int) - (beNat (data.take 32) : Int))) • Gp := by
      rw [← natCast_zsmul, ← natCast_zsmul (k • Gp), ← natCast_zsmul Gp k,
        ← natCast_zsmul Gp (beNat _), Int.natAbs_of_nonneg hr1, Int.natAbs_of_nonneg hS0]
      module
    rw [e1, ← natCast_zsmul Gp priv.D]
    apply zsmul_congr hNG
    have cS := congrArg (fun t : Int => (t : ZMod priv.Curve.N)) hS
    have ck := (modEq_iff_cast priv.Curve.N _ _).mp hk3
    have cr := (modEq_iff_cast priv.Curve.N _ _).mp hr3
    simp only at cS
    push_cast [cast_emod] at cS ck cr ⊢
    linear_combination (RMod * k : ZMod priv.Curve.N) * cS
      + ((RMod : ZMod priv.Curve.N) * ((beNat (data.take 32) : ZMod priv.Curve.N) + sig.R * priv.D)) * ck
      + (priv.D : ZMod priv.Curve.N) * cr
  rw [hpt] at hxy
  have := rep_unique priv.Curve hxy hQ.1 hxyr hQ.2
  rw [hrec]
  unfold SplashPrivateKey.GetPublicKey
  simp only
  rw [this]
  rfl

/-! ## The reference collaborators and the small curve -/

theorem leastSqrt_spec (p : Nat) : ModSqrtSpec leastSqrt p := by
  intro a ha0 hap
  have hamod : a % (p : Int) = a := Int.emod_eq_of_lt ha0 hap
  constructor
  · intro y hy
    unfold leastSqrt at hy
    rw [Option.map_eq_some'] at hy
    obtain ⟨x, hx, rfl⟩ := hy
    have h1 := List.find?_some hx
    have h2 := List.mem_of_find?_eq_some hx
    rw [List.mem_range, Int.toNat_natCast] at h2
    simp only [decide_eq_true_eq] at h1
    rw [hamod] at h1
    exact ⟨Int.natCast_nonneg x, by exact_mod_cast h2, h1⟩
  · intro hnone y hy
    unfold leastSqrt at hnone
    rw [Option.map_eq_none', List.find?_eq_none] at hnone
    have hp : (0 : Int) < (p : Int) := lt_of_le_of_lt ha0 hap
    have hmem : (y % (p : Int)).toNat ∈ List.range (p : Int).toNat := by
      rw [List.mem_range, Int.toNat_natCast]
      have := Int.emod_lt_of_pos y hp
      omega
    have := hnone _ hmem
    apply this
    simp only [decide_eq_true_eq]
    rw [Int.toNat_of_nonneg (Int.emod_nonneg _ hp.ne'), hamod, ← hy]
    exact (Int.mul_emod y y p).symm

set_option maxRecDepth 100000 in
theorem curve409_valid : curve409.Valid where
  prime_P := by norm_num [curve409]
  prime_N := by norm_num [curve409]
  disc := by decide
  B_ne := by decide
  G_on := by decide
  G_order := by decide

theorem nsmul_ne_zero_of_lt {A : Type*} [AddCommGroup A] {N : Nat} (hN : N.Prime) {g : A}
    (hg : g ≠ 0) (hNg : N • g = 0) {d : Nat} (hd : ¬ N ∣ d) : d • g ≠ 0 := by
  intro h
  have h1 : addOrderOf g ∣ N := addOrderOf_dvd_of_nsmul_eq_zero hNg
  have h2 : addOrderOf g ∣ d := addOrderOf_dvd_of_nsmul_eq_zero h
  rcases (Nat.dvd_prime hN).mp h1 with h3 | h3
  · exact hg (AddMonoid.addOrderOf_eq_one_iff.mp h3)
  · rw [h3] at h2; exact hd h2

/-! ## Verification of honest signatures -/

theorem isOnCurve_of_rep (c : CurveParams) {x y : Int} {Q : c.toAffine.Point}
    (h : Rep c x y Q) (hQ : Q ≠ 0) : c.IsOnCurve x y = true := by
  rcases h with ⟨_, _, h0⟩ | ⟨a, b, hns, hxa, hyb, _⟩
  · exact absurd h0 hQ
  · rw [isOnCurve_iff, hxa, hyb]; exact hns.1

theorem not_dvd_of_pos_lt {N : Nat} {D : Nat} (h0 : 0 < D) (h1 : D < N) : ¬ N ∣ D := by
  intro h
  have := Nat.le_of_dvd h0 h
  omega

/-- The public key `D·G` of a private scalar in `[1, N-1]` is a curve point. -/
theorem publicKey_rep (c : CurveParams) [Fact c.P.Prime] (hv : c.Valid) (D : Nat)
    {Gp : c.toAffine.Point} (hG : Rep c c.Gx c.Gy Gp) :
    Rep c (c.ScalarBaseMult (natBytes D)).1 (c.ScalarBaseMult (natBytes D)).2 (D • Gp) ∧
      InRange c (c.ScalarBaseMult (natBytes D)) := by
  have h := rep_scalarMult c hv hG (natBytes D)
  rw [beNat_natBytes] at h
  exact h

theorem verify_of_signWithNonce (env : Env) (priv : SplashPrivateKey) (k : Nat)
    (data : List Byte) (sig : SplashSignature)
    (hv : priv.Curve.Valid)
    (hD : 0 < priv.D ∧ priv.D < priv.Curve.N)
    (hsig : priv.signWithNonce env k data = SignAttempt.done sig) :
    priv.GetPublicKey.Verify data sig = true := by
  haveI : Fact priv.Curve.P.Prime := ⟨hv.prime_P⟩
  haveI : Fact priv.Curve.N.Prime := ⟨hv.prime_N⟩
  obtain ⟨kInv, y1, y2, hk0, hkN, hkInv, hY, hR, hRne, hS, hSne, hV, hO⟩ :=
    signWithNonce_done hsig
  obtain ⟨Gp, hG, hNG, hGne⟩ := base_point priv.Curve hv
  have hNpos : (0 : Int) < (priv.Curve.N : Int) := by
    exact_mod_cast hv.prime_N.pos
  have hKrep := publicKey_rep priv.Curve hv k hG
  have hQ := publicKey_rep priv.Curve hv priv.D hG
  have hQne : priv.D • Gp ≠ 0 :=
    nsmul_ne_zero_of_lt hv.prime_N hGne hNG (not_dvd_of_pos_lt hD.1 hD.2)
  have hon := isOnCurve_of_rep priv.Curve hQ.1 hQne
  -- ranges of R and S
  have hR0 : 0 ≤ sig.R := by rw [hR]; exact Int.emod_nonneg _ hNpos.ne'
  have hRN : sig.R < priv.Curve.N := by rw [hR]; exact Int.emod_lt_of_pos _ hNpos
  have hS0 : 0 ≤ sig.S := by rw [hS]; exact Int.emod_nonneg _ hNpos.ne'
  have hSN : sig.S < priv.Curve.N := by rw [hS]; exact Int.emod_lt_of_pos _ hNpos
  have hguard : ¬ (sig.R < 1 ∨ (priv.Curve.N : Int) ≤ sig.R ∨ sig.S < 1 ∨
      (priv.Curve.N : Int) ≤ sig.S) := by
    omega
  have hSdvd : ¬ (priv.Curve.N : Int) ∣ sig.S := by
    intro hd
    have := Int.emod_eq_zero_of_dvd hd
    rw [Int.emod_eq_of_lt hS0 hSN] at this
    exact hSne this
  obtain ⟨w, hw⟩ := modInverse_exists sig.S priv.Curve.N hv.prime_N hSdvd
  obtain ⟨hw1, hw2, hw3⟩ := modInverse_some _ _ _ hw
  obtain ⟨hk1, hk2, hk3⟩ := modInverse_some _ _ _ hkInv
  -- unfold Verify
  unfold SplashPrivateKey.GetPublicKey SplashPublicKey.Verify
  simp only [hguard, if_false, hon, Bool.not_true, Bool.false_eq_true, hw]
  simp only [decide_eq_true_eq]
  -- the two scalar multiples and their sum
  have hu1 : 0 ≤ (beNat (data.take 32) : Int) % priv.Curve.N * w % priv.Curve.N :=
    Int.emod_nonneg _ hNpos.ne'
  have hu2 : 0 ≤ sig.R * w % priv.Curve.N := Int.emod_nonneg _ hNpos.ne'
  have hp1 := rep_scalarMult priv.Curve hv hG
    (intBytes ((beNat (data.take 32) : Int) % priv.Curve.N * w % priv.Curve.N))
  have hp2 := rep_scalarMult priv.Curve hv hQ.1 (intBytes (sig.R * w % priv.Curve.N))
  have hpt := rep_add priv.Curve hv hp1.1 hp2.1
  have hptr := inRange_add priv.Curve hv
    (priv.Curve.ScalarMult priv.Curve.Gx priv.Curve.Gy
      (intBytes ((beNat (data.take 32) : Int) % priv.Curve.N * w % priv.Curve.N))).1
    (priv.Curve.ScalarMult priv.Curve.Gx priv.Curve.Gy
      (intBytes ((beNat (data.take 32) : Int) % priv.Curve.N * w % priv.Curve.N))).2
    (priv.Curve.ScalarMult (priv.Curve.ScalarBaseMult (natBytes priv.D)).1
      (priv.Curve.ScalarBaseMult (natBytes priv.D)).2 (intBytes (sig.R * w % priv.Curve.N))).1
    (priv.Curve.ScalarMult (priv.Curve.ScalarBaseMult (natBytes priv.D)).1
      (priv.Curve.ScalarBaseMult (natBytes priv.D)).2 (intBytes (sig.R * w % priv.Curve.N))).2
  have hsum : beNat (intBytes ((beNat (data.take 32) : Int) % priv.Curve.N * w % priv.Curve.N))
        • Gp
      + beNat (intBytes (sig.R * w % priv.Curve.N)) • priv.D • Gp = k • Gp := by
    rw [← natCast_zsmul Gp (beNat (intBytes _)), ← natCast_zsmul (priv.D • Gp) (beNat (intBytes _)),
      ← natCast_zsmul Gp priv.D, ← natCast_zsmul Gp k,
      beNat_intBytes _ hu1, beNat_intBytes _ hu2, ← mul_zsmul, ← add_zsmul]
    apply zsmul_congr hNG
    have cS := congrArg (fun t : Int => (t : ZMod priv.Curve.N)) hS
    have ck := (modEq_iff_cast priv.Curve.N _ _).mp hk3
    have cw := (modEq_iff_cast priv.Curve.N _ _).mp hw3
    simp only at cS
    push_cast [cast_emod] at cS ck cw ⊢
    -- S = kInv (z + R D), k kInv = 1, S w = 1  ⊢  z w + R w D = k
    linear_combination (-(k : ZMod priv.Curve.N) * w) * cS
      + (-(w : ZMod priv.Curve.N) * ((beNat (data.take 32) : ZMod priv.Curve.N) + sig.R * priv.D)) * ck
      + (k : ZMod priv.Curve.N) * cw
  rw [hsum] at hpt
  have := rep_unique priv.Curve hpt hKrep.1 hptr hKrep.2
  unfold CurveParams.ScalarBaseMult at this hR ⊢
  rw [this, hR]

/-! ## The multi-signature loop -/

theorem reconstruct_setO (env : Env) (sig : SplashSignature) (o : Byte) (data : List Byte)
    (C : CurveParams) :
    SplashSignature.ReconstructPublicKey env { sig with O := o } data C
      = sig.ReconstructPublicKey env data C := rfl

theorem verify_setO (pub : SplashPublicKey) (sig : SplashSignature) (o : Byte)
    (data : List Byte) : pub.Verify data { sig with O := o } = pub.Verify data sig := rfl

theorem signLoop_done (env : Env) (priv : SplashPrivateKey) (data : List Byte)
    (sig : SplashSignature) : ∀ draws : List Nat,
    priv.signLoop env data draws = (sig, none) →
      ∃ k ∈ draws, priv.signWithNonce env k data = SignAttempt.done sig := by
  intro draws
  induction draws with
  | nil => intro h; simp [SplashPrivateKey.signLoop] at h
  | cons k ks ih =>
    intro h
    unfold SplashPrivateKey.signLoop at h
    split at h
    · obtain ⟨k', hk', hs⟩ := ih h
      exact ⟨k', List.mem_cons_of_mem _ hk', hs⟩
    · simp at h
    · rename_i sig' hs
      simp only [Prod.mk.injEq, and_true] at h
      subst h
      exact ⟨k, List.mem_cons_self _ _, hs⟩

theorem sign_done (env : Env) (priv : SplashPrivateKey) (draws : List Nat) (data : List Byte)
    (sig : SplashSignature) (h : priv.Sign env draws data = (sig, none)) :
    32 ≤ data.length ∧ ∃ k ∈ draws, priv.signWithNonce env k data = SignAttempt.done sig := by
  unfold SplashPrivateKey.Sign at h
  split at h
  · simp at h
  · rename_i hlen
    exact ⟨by omega, signLoop_done env priv data sig draws h⟩

theorem multiSign_done (env : Env) (multi : SplashMultiSigKey) (draws : List Nat)
    (data : List Byte) (sig : SplashSignature)
    (h : multi.Sign env draws data = (sig, none)) :
    ∃ sig0, multi.PrivateKey.Sign env draws data = (sig0, none) ∧
      sig = { sig0 with O := multi.Order } := by
  unfold SplashMultiSigKey.Sign at h
  simp only [Prod.mk.injEq] at h
  exact ⟨(multi.PrivateKey.Sign env draws data).1, Prod.ext rfl h.2, h.1.symm⟩

theorem generateMultiSigAddress_eq (env : Env) (keys : List SplashPublicKey)
    (h : 20 ≤ (env.MerkleRoot (keys.map env.CompressedBytes)).length) :
    GenerateMultiSigAddress env keys =
      some ([(1 : Byte), ⟨keys.length % 256, Nat.mod_lt _ (by decide)⟩] ++
        (env.MerkleRoot (keys.map env.CompressedBytes)).take 20) := by
  unfold GenerateMultiSigAddress
  simp only [not_lt.mpr h, if_false]

theorem generateMultiSigAddress_some (env : Env) (keys : List SplashPublicKey)
    (addr : List Byte) (h : GenerateMultiSigAddress env keys = some addr) :
    20 ≤ (env.MerkleRoot (keys.map env.CompressedBytes)).length ∧
    addr = [(1 : Byte), ⟨keys.length % 256, Nat.mod_lt _ (by decide)⟩] ++
        (env.MerkleRoot (keys.map env.CompressedBytes)).take 20 := by
  unfold GenerateMultiSigAddress at h
  simp only at h
  split at h
  · simp at h
  · rename_i hl
    simp only [Option.some.injEq] at h
    exact ⟨by omega, h.symm⟩

theorem verifyLoop_length (env : Env) (data : List Byte) (C : CurveParams) :
    ∀ (sigs : List SplashSignature) (partners out : List SplashPublicKey),
      verifyLoop env data C sigs partners = LoopOutcome.completed out →
      out.length = partners.length := by
  intro sigs
  induction sigs with
  | nil =>
    intro partners out h
    simp only [verifyLoop, LoopOutcome.completed.injEq] at h
    rw [h]
  | cons sig sigs ih =>
    intro partners out h
    unfold verifyLoop at h
    split at h
    · simp at h
    · split at h
      · split at h
        · simp at h
        · have := ih _ _ h
          rw [this, List.length_set]
      · simp at h

/-- The loop fills the working array in order when the signatures come in slot order, each
reconstructs to its key and verifies against it. -/
theorem verifyLoop_ordered (env : Env) (data : List Byte) (C : CurveParams) :
    ∀ (sigs : List SplashSignature) (pubs done : List SplashPublicKey),
      List.Forall₂ (fun sig pub =>
        sig.ReconstructPublicKey env data C = some pub ∧ pub.Verify data sig = true) sigs pubs →
      sigs.map (fun sig => sig.O.val) = List.range' done.length sigs.length →
      verifyLoop env data C sigs (done ++ List.replicate sigs.length SplashPublicKey.zero)
        = LoopOutcome.completed (done ++ pubs) := by
  intro sigs
  induction sigs with
  | nil =>
    intro pubs done h _
    cases h
    simp [verifyLoop]
  | cons sig sigs ih =>
    intro pubs done h ho
    cases h with
    | cons hh ht =>
      rename_i pub pubs
      simp only [List.map_cons, List.length_cons, List.range'_succ, List.cons.injEq] at ho
      obtain ⟨ho1, ho2⟩ := ho
      unfold verifyLoop
      simp only [hh.1, hh.2, ho1, List.length_append, List.length_replicate, List.length_cons,
        Bool.not_true, Bool.false_eq_true, if_false]
      have hlt : done.length < done.length + (sigs.length + 1) := by omega
      simp only [hlt, if_true]
      have hset : (done ++ List.replicate (sigs.length + 1) SplashPublicKey.zero).set
          done.length pub = (done ++ [pub]) ++ List.replicate sigs.length SplashPublicKey.zero := by
        rw [List.replicate_succ, List.set_append_right _ _ (le_refl _)]
        simp
      rw [hset]
      have := ih pubs (done ++ [pub]) ht (by simpa using ho2)
      rw [this]
      simp

theorem reconstruct_some_length (env : Env) (sig : SplashSignature) (data : List Byte)
    (C : CurveParams) (Q : SplashPublicKey)
    (h : sig.ReconstructPublicKey env data C = some Q) :
    32 ≤ data.length ∧ (∃ y1 y2, GetY env sig.R C = some (y1, y2)) ∧
      ∃ RMod, ModInverse sig.R C.N = some RMod := by
  unfold SplashSignature.ReconstructPublicKey at h
  simp only at h
  split at h
  · simp at h
  · rename_i y1 y2 hY
    split at h
    · simp at h
    · rename_i hlen
      split at h
      · simp at h
      · rename_i RMod hR
        exact ⟨by omega, ⟨y1, y2, hY⟩, ⟨RMod, hR⟩⟩

theorem verify_of_reconstruct (env : Env) (c : CurveParams) (sig : SplashSignature)
    (data : List Byte) (Q : SplashPublicKey)
    (hv : c.Valid) (hs : ModSqrtSpec env.ModSqrt c.P)
    (hR : 0 < sig.R ∧ sig.R < c.N ∧ sig.R < c.P)
    (hS : 0 < sig.S ∧ sig.S < c.N)
    (hord : ∀ y1 y2, GetY env sig.R c = some (y1, y2) →
      c.ScalarMult sig.R (if sig.V = 1 then y2 else y1) (natBytes c.N) = (0, 0))
    (hrec : sig.ReconstructPublicKey env data c = some Q)
    (hon : Q.OnCurve = true) :
    Q.Verify data sig = true := by
  haveI : Fact c.P.Prime := ⟨hv.prime_P⟩
  haveI : Fact c.N.Prime := ⟨hv.prime_N⟩
  obtain ⟨hlen, ⟨y1, y2, hY⟩, ⟨RMod, hRMod⟩⟩ := reconstruct_some_length env sig data c Q hrec
  obtain ⟨Gp, hG, hNG, hGne⟩ := base_point c hv
  obtain ⟨Kp, xy, hKp, hKne, hrec', hxyr, hxy⟩ :=
    reconstruct_rep env c hv hs sig data hlen hRMod hY hG
  rw [hrec'] at hrec
  simp only [Option.some.injEq] at hrec
  subst hrec
  -- N annihilates the ephemeral point
  have hNK : c.N • Kp = 0 := by
    have h := (rep_scalarMult c hv hKp (natBytes c.N)).1
    rw [beNat_natBytes, hord y1 y2 hY] at h
    exact rep_zero_iff c hv h
  have hNpos : (0 : Int) < (c.N : Int) := by exact_mod_cast hv.prime_N.pos
  have hguard : ¬ (sig.R < 1 ∨ (c.N : Int) ≤ sig.R ∨ sig.S < 1 ∨ (c.N : Int) ≤ sig.S) := by
    omega
  have hSdvd : ¬ (c.N : Int) ∣ sig.S := by
    intro hd
    have := Int.emod_eq_zero_of_dvd hd
    rw [Int.emod_eq_of_lt hS.1.le hS.2] at this
    omega
  obtain ⟨w, hw⟩ := modInverse_exists sig.S c.N hv.prime_N hSdvd
  obtain ⟨hw1, hw2, hw3⟩ := modInverse_some _ _ _ hw
  obtain ⟨hr1, hr2, hr3⟩ := modInverse_some _ _ _ hRMod
  have hon' : c.IsOnCurve xy.1 xy.2 = true := by
    simpa [SplashPublicKey.OnCurve] using hon
  unfold SplashPublicKey.Verify
  simp only [hguard, if_false, hon', Bool.not_true, Bool.false_eq_true, hw]
  simp only [decide_eq_true_eq]
  have hu1 : 0 ≤ (beNat (data.take 32) : Int) % c.N * w % c.N := Int.emod_nonneg _ hNpos.ne'
  have hu2 : 0 ≤ sig.R * w % c.N := Int.emod_nonneg _ hNpos.ne'
  have hp1 := rep_scalarMult c hv hG (intBytes ((beNat (data.take 32) : Int) % c.N * w % c.N))
  have hp2 := rep_scalarMult c hv hxy (intBytes (sig.R * w % c.N))
  have hpt := rep_add c hv hp1.1 hp2.1
  have hptr := inRange_add c hv
    (c.ScalarMult c.Gx c.Gy (intBytes ((beNat (data.take 32) : Int) % c.N * w % c.N))).1
    (c.ScalarMult c.Gx c.Gy (intBytes ((beNat (data.take 32) : Int) % c.N * w % c.N))).2
    (c.ScalarMult xy.1 xy.2 (intBytes (sig.R * w % c.N))).1
    (c.ScalarMult xy.1 xy.2 (intBytes (sig.R * w % c.N))).2
  have hsum : beNat (intBytes ((beNat (data.take 32) : Int) % c.N * w % c.N)) • Gp
      + beNat (intBytes (sig.R * w % c.N)) •
          (RMod.natAbs • (sig.S.natAbs • Kp - beNat (data.take 32) • Gp)) = Kp := by
    have e : beNat (intBytes ((beNat (data.take 32) : Int) % c.N * w % c.N)) • Gp
      + beNat (intBytes (sig.R * w % c.N)) •
          (RMod.natAbs • (sig.S.natAbs • Kp - beNat (data.take 32) • Gp))
        = (((beNat (data.take 32) : Int) % c.N * w % c.N)
            - (sig.R * w % c.N) * RMod * (beNat (data.take 32) : Int)) • Gp
          + ((sig.R * w % c.N) * RMod * sig.S) • Kp := by
      rw [← natCast_zsmul Gp (beNat (intBytes _)), ← natCast_zsmul _ (beNat (intBytes _)),
        ← natCast_zsmul _ RMod.natAbs, ← natCast_zsmul Kp, ← natCast_zsmul Gp (beNat (data.take 32)),
        beNat_intBytes _ hu1, beNat_intBytes _ hu2, Int.natAbs_of_nonneg hr1,
        Int.natAbs_of_nonneg hS.1.le]
      module
    rw [e]
    have cr := (modEq_iff_cast c.N _ _).mp hr3
    have cw := (modEq_iff_cast c.N _ _).mp hw3
    push_cast [cast_emod] at cr cw
    have eG : (((beNat (data.take 32) : Int) % c.N * w % c.N)
            - (sig.R * w % c.N) * RMod * (beNat (data.take 32) : Int)) • Gp = (0 : Int) • Gp := by
      apply zsmul_congr hNG
      push_cast [cast_emod]
      linear_combination (-(w : ZMod c.N) * (beNat (data.take 32) : ZMod c.N)) * cr
    have eK : ((sig.R * w % c.N) * RMod * sig.S) • Kp = (1 : Int) • Kp := by
      apply zsmul_congr hNK
      push_cast [cast_emod]
      linear_combination (sig.S * w : ZMod c.N) * cr + cw
    rw [eG, eK, zero_zsmul, one_zsmul, zero_add]
  rw [hsum] at hpt
  -- the ephemeral pair is reduced
  have hYspec := getY_spec env c hv hs hY
  have hP := P_pos c hv
  have hkyr : InRange c (sig.R, if sig.V = 1 then y2 else y1) := by
    refine ⟨hR.1.le, hR.2.2, ?_⟩
    split
    · rw [hYspec.2.2.1]
      exact ⟨Int.emod_nonneg _ hP.ne', Int.emod_lt_of_pos _ hP⟩
    · exact ⟨hYspec.1, hYspec.2.1⟩
  have := rep_unique c hpt hKp hptr hkyr
  unfold CurveParams.ScalarBaseMult
  rw [this]
  exact Int.emod_eq_of_lt hR.1.le hR.2.1

theorem partner_signatures (env : Env) (c : CurveParams) (data : List Byte)
    (hv : c.Valid) (hs : ModSqrtSpec env.ModSqrt c.P) :
    ∀ (keys : List SplashMultiSigKey) (sigs : List SplashSignature),
      List.Forall₂ (fun key sig => ∃ d : List Nat, key.Sign env d data = (sig, none) ∧
        ∀ k ∈ d, (c.ScalarBaseMult (natBytes k)).1 < c.N) keys sigs →
      (∀ key ∈ keys, key.PrivateKey.Curve = c ∧ 0 < key.PrivateKey.D ∧
        key.PrivateKey.D < c.N) →
      List.Forall₂ (fun sig pub =>
        sig.ReconstructPublicKey env data c = some pub ∧ pub.Verify data sig = true) sigs
        (keys.map (fun key => key.PrivateKey.GetPublicKey)) ∧
      sigs.map (fun sig => sig.O.val) = keys.map (fun key => key.Order.val) := by
  intro keys sigs h
  induction h with
  | nil => intro _; exact ⟨List.Forall₂.nil, rfl⟩
  | @cons key sig keys sigs hh _ ih =>
    intro hkeys
    obtain ⟨d, hsign, hwrap⟩ := hh
    obtain ⟨hc, hD0, hDN⟩ := hkeys key (List.mem_cons_self _ _)
    obtain ⟨ih1, ih2⟩ := ih (fun key hk => hkeys key (List.mem_cons_of_mem _ hk))
    obtain ⟨sig0, hsig0, hO⟩ := multiSign_done env key d data sig hsign
    obtain ⟨hlen, k, hk, hdone⟩ := sign_done env key.PrivateKey d data sig0 hsig0
    have hv' : key.PrivateKey.Curve.Valid := by rw [hc]; exact hv
    have hs' : ModSqrtSpec env.ModSqrt key.PrivateKey.Curve.P := by rw [hc]; exact hs
    have hrec := reconstruct_of_signWithNonce env key.PrivateKey k data sig0 hv' hs' hlen hdone
      (by rw [hc]; exact hwrap k hk)
    have hver := verify_of_signWithNonce env key.PrivateKey k data sig0 hv'
      ⟨hD0, by rw [hc]; exact hDN⟩ hdone
    rw [hc] at hrec
    constructor
    · simp only [List.map_cons]
      refine List.Forall₂.cons ⟨?_, ?_⟩ ih1
      · rw [hO, reconstruct_setO]; exact hrec
      · rw [hO, verify_setO]; exact hver
    · simp only [List.map_cons, ih2, hO]

theorem verifyMutliSig_of_ordered (env : Env) (c : CurveParams) (data addr : List Byte)
    (sigs : List SplashSignature) (pubs : List SplashPublicKey)
    (h : List.Forall₂ (fun sig pub =>
        sig.ReconstructPublicKey env data c = some pub ∧ pub.Verify data sig = true) sigs pubs)
    (ho : sigs.map (fun sig => sig.O.val) = List.range sigs.length)
    (haddr : GenerateMultiSigAddress env pubs = some addr) :
    VerifyMutliSig env sigs data addr c = some true := by
  have hl := verifyLoop_ordered env data c sigs pubs [] h
    (by rw [ho, List.range_eq_range']; rfl)
  simp only [List.nil_append] at hl
  unfold VerifyMutliSig
  simp only [hl, haddr, CheckByteEq, decide_True]

theorem verifyMutliSig_true_address (env : Env) (sigs : List SplashSignature)
    (data addr : List Byte) (C : CurveParams)
    (h : VerifyMutliSig env sigs data addr C = some true) :
    addr.length = 22 ∧ addr[1]?.map Fin.val = some (sigs.length % 256) := by
  unfold VerifyMutliSig at h
  simp only at h
  split at h
  · simp at h
  · simp at h
  · rename_i out hloop
    have hlen := verifyLoop_length env data C sigs _ out hloop
    rw [List.length_replicate] at hlen
    split at h
    · simp at h
    · rename_i a ha
      obtain ⟨hroot, haeq⟩ := generateMultiSigAddress_some env out a ha
      simp only [Option.some.injEq, CheckByteEq, decide_eq_true_eq] at h
      subst h
      rw [haeq]
      constructor
      · simp only [List.cons_append, List.nil_append, List.length_cons, List.length_take]
        omega
      · simp [hlen]

/-! ## Facts about the instances -/

theorem digestRoot_length (leaves : List (List Byte)) : (digestRoot leaves).length = 20 := by
  simp [digestRoot, digest20]

theorem refEnv_merkle : MerkleSpec refEnv.MerkleRoot := by
  intro leaves
  exact le_of_eq (digestRoot_length leaves).symm

theorem sigs256_forall₂ : ∀ l : List Nat,
    List.Forall₂ (fun sig pub =>
      SplashSignature.ReconstructPublicKey refEnv sig (hashOf 5) curve409 = some pub ∧
        pub.Verify (hashOf 5) sig = true)
      (l.map sigAt) (l.map (fun _ => key2.GetPublicKey)) := by
  have hr : SplashSignature.ReconstructPublicKey refEnv ⟨276, 189, 0, 0⟩ (hashOf 5) curve409
      = some key2.GetPublicKey := by
    set_option maxRecDepth 100000 in decide
  have hver : key2.GetPublicKey.Verify (hashOf 5) ⟨276, 189, 0, 0⟩ = true := by
    set_option maxRecDepth 100000 in decide
  intro l
  induction l with
  | nil => exact List.Forall₂.nil
  | cons i l ih =>
    simp only [List.map_cons]
    exact List.Forall₂.cons ⟨hr, hver⟩ ih

theorem sigs256_orders : sigs256.map (fun sig => sig.O.val) = List.range sigs256.length := by
  have hl : sigs256.length = 256 := by
    simp only [sigs256, List.length_map, List.length_range]
  rw [hl]
  unfold sigs256
  rw [List.map_map]
  conv_rhs => rw [← List.map_id (List.range 256)]
  apply List.map_congr_left
  intro i hi
  rw [List.mem_range] at hi
  simp only [Function.comp, sigAt, id]
  omega

set_option maxRecDepth 1000000 in
/-- The model of `ScalarBaseMult` reproduces the published multiples `2·G`, `3·G` and
`112233445566778899·G` of the P-256 base point. -/
theorem p256_known_answers :
    p256.ScalarBaseMult (natBytes 2) =
      (0x7cf27b188d034f7e8a52380304b51ac3c08969e277f21b35a60b48fc47669978,
       0x07775510db8ed040293d9ac69f7430dbba7dade63ce982299e04b79d227873d1) ∧
    p256.ScalarBaseMult (natBytes 3) =
      (0x5ecbe4d1a6330a44c8f7ef951d4bf165e6c6b721efada985fb41661bc6e7fd6c,
       0x8734640c4998ff7e374b06ce1a64a2ecd82ab036384fb83d9a79b127a27d5032) ∧
    p256.ScalarBaseMult (natBytes 112233445566778899) =
      (0x339150844ec15234807fe862a86be77977dbfb3ae3d96f4c22795513aeaab82f,
       0xb1c14ddfdc8ec1b2583f51e85a5eb3a155840f2034730e9b5ada38b674336a21) := by
  refine ⟨?_, ?_, ?_⟩ <;> decide!

/-! ## The two roots -/

theorem getY_arg (c : CurveParams) (x : Int) :
    (x * x * x - (x * 2 + x) + (c.B : Int)) % (c.P : Int)
      = (x * x * x - 3 * x + (c.B : Int)) % (c.P : Int) := by
  congr 1; ring

theorem getY_eq (env : Env) (c : CurveParams) (x : Int) :
    GetY env x c =
      (env.ModSqrt ((x * x * x - 3 * x + (c.B : Int)) % (c.P : Int)) (c.P : Int)).map
        (fun y1 => (y1, ((c.P : Int) - y1) % (c.P : Int))) := by
  unfold GetY
  simp only
  rw [getY_arg]
  cases env.ModSqrt ((x * x * x - 3 * x + (c.B : Int)) % (c.P : Int)) (c.P : Int) <;> rfl

theorem getY_some_iff (env : Env) (c : CurveParams) (x y1 y2 : Int) :
    GetY env x c = some (y1, y2) ↔
      env.ModSqrt ((x * x * x - 3 * x + (c.B : Int)) % (c.P : Int)) (c.P : Int) = some y1 ∧
        y2 = ((c.P : Int) - y1) % (c.P : Int) := by
  rw [getY_eq]
  cases env.ModSqrt ((x * x * x - 3 * x + (c.B : Int)) % (c.P : Int)) (c.P : Int) with
  | none => simp
  | some r =>
    simp only [Option.map_some', Option.some.injEq, Prod.mk.injEq]
    constructor
    · rintro ⟨rfl, rfl⟩; exact ⟨rfl, rfl⟩
    · rintro ⟨rfl, rfl⟩; exact ⟨rfl, rfl⟩

theorem getY_roots (env : Env) (c : CurveParams) (x : Int) (hP : c.P.Prime)
    (hs : ModSqrtSpec env.ModSqrt c.P) {y1 y2 : Int} (h : GetY env x c = some (y1, y2)) :
    0 ≤ y1 ∧ y1 < (c.P : Int) ∧ 0 ≤ y2 ∧ y2 < (c.P : Int) ∧
      y1 * y1 % (c.P : Int) = (x * x * x - 3 * x + (c.B : Int)) % (c.P : Int) ∧
      y2 = ((c.P : Int) - y1) % (c.P : Int) ∧
      y2 * y2 % (c.P : Int) = (x * x * x - 3 * x + (c.B : Int)) % (c.P : Int) := by
  have hPpos : (0 : Int) < (c.P : Int) := by exact_mod_cast hP.pos
  rw [getY_some_iff] at h
  obtain ⟨hm, hy2⟩ := h
  have ha0 := Int.emod_nonneg (x * x * x - 3 * x + (c.B : Int)) hPpos.ne'
  have ha1 := Int.emod_lt_of_pos (x * x * x - 3 * x + (c.B : Int)) hPpos
  obtain ⟨h0, h1, h2⟩ := (hs _ ha0 ha1).1 y1 hm
  refine ⟨h0, h1, ?_, ?_, h2, hy2, ?_⟩
  · rw [hy2]; exact Int.emod_nonneg _ hPpos.ne'
  · rw [hy2]; exact Int.emod_lt_of_pos _ hPpos
  · rw [← h2, hy2, modEq_iff_cast]
    push_cast [cast_emod]
    simp

theorem getY_succeeds (env : Env) (c : CurveParams) (x : Int) (hP : c.P.Prime)
    (hs : ModSqrtSpec env.ModSqrt c.P)
    (hroot : ∃ y : Int, y * y % (c.P : Int) = (x * x * x - 3 * x + (c.B : Int)) % (c.P : Int)) :
    ∃ y1 y2, GetY env x c = some (y1, y2) := by
  have hPpos : (0 : Int) < (c.P : Int) := by exact_mod_cast hP.pos
  have ha0 := Int.emod_nonneg (x * x * x - 3 * x + (c.B : Int)) hPpos.ne'
  have ha1 := Int.emod_lt_of_pos (x * x * x - 3 * x + (c.B : Int)) hPpos
  cases hm : env.ModSqrt ((x * x * x - 3 * x + (c.B : Int)) % (c.P : Int)) (c.P : Int) with
  | none =>
    obtain ⟨y, hy⟩ := hroot
    exact absurd hy ((hs _ ha0 ha1).2 hm y)
  | some r =>
    exact ⟨r, _, (getY_some_iff env c x r _).mpr ⟨hm, rfl⟩⟩

/-- Under the `ModSqrt` contract, `GetY` panics exactly when `x³ - 3x + B` has no square
root modulo `P`, and returns the pair for every `x` with a root. -/
theorem getY_none_iff_no_root (env : Env) (c : CurveParams) (x : Int) (hP : c.P.Prime)
    (hs : ModSqrtSpec env.ModSqrt c.P) :
    (GetY env x c = none ↔
      ¬ ∃ y : Int, y * y % (c.P : Int) = (x * x * x - 3 * x + (c.B : Int)) % (c.P : Int)) ∧
    ((∃ y : Int, y * y % (c.P : Int) = (x * x * x - 3 * x + (c.B : Int)) % (c.P : Int)) →
      ∃ y1 y2, GetY env x c = some (y1, y2)) := by
  refine ⟨⟨?_, ?_⟩, getY_succeeds env c x hP hs⟩
  · intro hnone hroot
    obtain ⟨y1, y2, h⟩ := getY_succeeds env c x hP hs hroot
    rw [hnone] at h
    exact absurd h (by simp)
  · intro hno
    cases h : GetY env x c with
    | none => rfl
    | some p =>
      obtain ⟨y1, y2⟩ := p
      exact absurd ⟨y1, (getY_roots env c x hP hs h).2.2.2.2.1⟩ hno

/-! ## The working array of the multi-signature loop -/

theorem storeKeys_length (env : Env) (data : List Byte) (C : CurveParams) :
    ∀ (sigs : List SplashSignature) (partners : List SplashPublicKey),
      (storeKeys env data C sigs partners).length = partners.length := by
  intro sigs
  induction sigs with
  | nil => intro partners; rfl
  | cons sig sigs ih =>
    intro partners
    simp only [storeKeys, ih, List.length_set]

theorem slotOwner_nil (i : Nat) : slotOwner [] i = none := rfl

theorem slotOwner_cons (sig : SplashSignature) (sigs : List SplashSignature) (i : Nat) :
    slotOwner (sig :: sigs) i =
      (slotOwner sigs i).or (if sig.O.val = i then some sig else none) := by
  unfold slotOwner
  rw [List.reverse_cons, List.find?_append]
  congr 1
  by_cases h : sig.O.val = i <;> simp [List.find?, h]

theorem storeKeys_getElem? (env : Env) (data : List Byte) (C : CurveParams) :
    ∀ (sigs : List SplashSignature) (partners : List SplashPublicKey) (i : Nat),
      (storeKeys env data C sigs partners)[i]? =
        match slotOwner sigs i with
        | none => partners[i]?
        | some sig => if i < partners.length then some (keyOf env data C sig) else none := by
  intro sigs
  induction sigs with
  | nil => intro partners i; simp [storeKeys, slotOwner_nil]
  | cons sig sigs ih =>
    intro partners i
    rw [storeKeys, ih, slotOwner_cons, List.length_set]
    cases hs : slotOwner sigs i with
    | some t => simp
    | none =>
      simp only [Option.none_or]
      by_cases h : sig.O.val = i
      · simp only [h, if_true]
        rw [← h, List.getElem?_set]
        simp
      · simp only [h, if_false]
        rw [List.getElem?_set]
        simp [h]

theorem storeKeys_replicate (env : Env) (data : List Byte) (C : CurveParams)
    (sigs : List SplashSignature) :
    storeKeys env data C sigs (List.replicate sigs.length SplashPublicKey.zero)
      = assembledKeys env data C sigs := by
  apply List.ext_getElem?
  intro i
  rw [storeKeys_getElem?]
  unfold assembledKeys
  rw [List.getElem?_map, List.length_replicate, List.getElem?_replicate]
  by_cases h : i < sigs.length
  · rw [List.getElem?_range h]
    simp only [h, if_true, Option.map_some']
    cases slotOwner sigs i <;> rfl
  · rw [List.getElem?_eq_none (by simpa using h)]
    simp only [h, if_false, Option.map_none']
    cases slotOwner sigs i <;> rfl

/-- The loop runs to its end exactly when every signature passes, and then the working
array holds the stores in list order. -/
theorem verifyLoop_completed_iff (env : Env) (data : List Byte) (C : CurveParams) :
    ∀ (sigs : List SplashSignature) (partners out : List SplashPublicKey),
      verifyLoop env data C sigs partners = LoopOutcome.completed out ↔
        (∀ sig ∈ sigs, SigPasses env data C partners.length sig) ∧
          out = storeKeys env data C sigs partners := by
  intro sigs
  induction sigs with
  | nil =>
    intro partners out
    simp only [verifyLoop, LoopOutcome.completed.injEq, storeKeys, List.not_mem_nil,
      false_implies, implies_true, true_and]
    exact eq_comm
  | cons sig sigs ih =>
    intro partners out
    unfold verifyLoop
    cases hrec : sig.ReconstructPublicKey env data C with
    | none =>
      simp only [reduceCtorEq, false_iff, not_and]
      intro h
      obtain ⟨pub, hp, _⟩ := h sig (List.mem_cons_self _ _)
      rw [hrec] at hp
      exact absurd hp (by simp)
    | some pub =>
      simp only
      by_cases hO : sig.O.val < partners.length
      · simp only [hO, if_true]
        by_cases hV : pub.Verify data sig = true
        · simp only [hV, Bool.not_true, Bool.false_eq_true, if_false]
          rw [ih, List.length_set]
          simp only [List.mem_cons, forall_eq_or_imp, storeKeys, keyOf, hrec, Option.getD_some]
          constructor
          · rintro ⟨h1, h2⟩
            exact ⟨⟨⟨pub, hrec, hO, hV⟩, h1⟩, h2⟩
          · rintro ⟨⟨_, h1⟩, h2⟩
            exact ⟨h1, h2⟩
        · simp only [Bool.not_eq_true] at hV
          simp only [hV, Bool.not_false, if_true, reduceCtorEq, false_iff, not_and]
          intro h
          obtain ⟨pub', hp, _, hv'⟩ := h sig (List.mem_cons_self _ _)
          rw [hrec, Option.some.injEq] at hp
          subst hp
          rw [hV] at hv'
          exact absurd hv' (by simp)
      · simp only [hO, if_false, reduceCtorEq, false_iff, not_and]
        intro h
        obtain ⟨pub', _, hlt, _⟩ := h sig (List.mem_cons_self _ _)
        exact absurd hlt hO

/-- When no signature panics, the loop ends by a rejection or by running to its end. -/
theorem verifyLoop_of_reconstructs (env : Env) (data : List Byte) (C : CurveParams) :
    ∀ (sigs : List SplashSignature) (partners : List SplashPublicKey),
      (∀ sig ∈ sigs, (sig.ReconstructPublicKey env data C).isSome ∧
        sig.O.val < partners.length) →
      verifyLoop env data C sigs partners =
        if sigs.all (fun sig => (keyOf env data C sig).Verify data sig) then
          LoopOutcome.completed (storeKeys env data C sigs partners)
        else LoopOutcome.rejected := by
  intro sigs
  induction sigs with
  | nil => intro partners _; simp [verifyLoop, storeKeys]
  | cons sig sigs ih =>
    intro partners h
    obtain ⟨h1, h2⟩ := h sig (List.mem_cons_self _ _)
    obtain ⟨pub, hrec⟩ := Option.isSome_iff_exists.mp h1
    unfold verifyLoop
    simp only [hrec, h2, if_true, List.all_cons, keyOf, Option.getD_some, storeKeys]
    by_cases hV : pub.Verify data sig = true
    · simp only [hV, Bool.not_true, Bool.false_eq_true, if_false, Bool.true_and]
      rw [ih]
      · rfl
      · intro t ht
        rw [List.length_set]
        exact h t (List.mem_cons_of_mem _ ht)
    · simp only [Bool.not_eq_true] at hV
      simp [hV]

theorem slotOwner_some (sigs : List SplashSignature) (i : Nat) (sig : SplashSignature)
    (h : slotOwner sigs i = some sig) : sig ∈ sigs ∧ sig.O.val = i := by
  unfold slotOwner at h
  have h1 := List.mem_of_find?_eq_some h
  have h2 := List.find?_some h
  exact ⟨List.mem_reverse.mp h1, by simpa using h2⟩

theorem slotOwner_none (sigs : List SplashSignature) (i : Nat)
    (h : ∀ sig ∈ sigs, sig.O.val ≠ i) : slotOwner sigs i = none := by
  unfold slotOwner
  rw [List.find?_eq_none]
  intro sig hs
  simpa using h sig (List.mem_reverse.mp hs)

theorem slotOwner_last (pre post : List SplashSignature) (sig : SplashSignature)
    (h : ∀ t ∈ post, t.O.val ≠ sig.O.val) :
    slotOwner (pre ++ sig :: post) sig.O.val = some sig := by
  induction pre with
  | nil =>
    rw [List.nil_append, slotOwner_cons, slotOwner_none post _ h]
    simp
  | cons p pre ih =>
    rw [List.cons_append, slotOwner_cons, ih]
    rfl

theorem slotOwner_of_nodup (sigs : List SplashSignature)
    (hnd : (sigs.map (fun sig => sig.O.val)).Nodup) (i : Nat) (sig : SplashSignature) :
    slotOwner sigs i = some sig ↔ sig ∈ sigs ∧ sig.O.val = i := by
  constructor
  · exact slotOwner_some sigs i sig
  · rintro ⟨hm, hi⟩
    cases h : slotOwner sigs i with
    | none =>
      unfold slotOwner at h
      rw [List.find?_eq_none] at h
      have := h sig (List.mem_reverse.mpr hm)
      simp [hi] at this
    | some t =>
      obtain ⟨ht, hti⟩ := slotOwner_some sigs i t h
      have := List.inj_on_of_nodup_map hnd ht hm (by rw [hti, hi])
      rw [this]

theorem slotOwner_perm (sigs sigs' : List SplashSignature) (hp : sigs.Perm sigs')
    (hnd : (sigs.map (fun sig => sig.O.val)).Nodup) (i : Nat) :
    slotOwner sigs i = slotOwner sigs' i := by
  have hnd' : (sigs'.map (fun sig => sig.O.val)).Nodup :=
    (hp.map _).nodup_iff.mp hnd
  apply Option.ext
  intro sig
  rw [Option.mem_def, Option.mem_def, slotOwner_of_nodup sigs hnd,
    slotOwner_of_nodup sigs' hnd', hp.mem_iff]

theorem storeKeys_perm (env : Env) (data : List Byte) (C : CurveParams)
    (sigs sigs' : List SplashSignature) (hp : sigs.Perm sigs')
    (hnd : (sigs.map (fun sig => sig.O.val)).Nodup) (partners : List SplashPublicKey) :
    storeKeys env data C sigs partners = storeKeys env data C sigs' partners := by
  apply List.ext_getElem?
  intro i
  rw [storeKeys_getElem?, storeKeys_getElem?, slotOwner_perm sigs sigs' hp hnd]

theorem verifyLoop_perm (env : Env) (data : List Byte) (C : CurveParams)
    (sigs sigs' : List SplashSignature) (hp : sigs.Perm sigs')
    (hnd : (sigs.map (fun sig => sig.O.val)).Nodup) (partners : List SplashPublicKey)
    (hrec : ∀ sig ∈ sigs, (sig.ReconstructPublicKey env data C).isSome ∧
      sig.O.val < partners.length) :
    verifyLoop env data C sigs partners = verifyLoop env data C sigs' partners := by
  rw [verifyLoop_of_reconstructs env data C sigs partners hrec,
    verifyLoop_of_reconstructs env data C sigs' partners
      (fun sig hs => hrec sig (hp.mem_iff.mpr hs)),
    storeKeys_perm env data C sigs sigs' hp hnd]
  have : sigs.all (fun sig => (keyOf env data C sig).Verify data sig)
      = sigs'.all (fun sig => (keyOf env data C sig).Verify data sig) := by
    rw [Bool.eq_iff_iff]
    simp only [List.all_eq_true, hp.mem_iff]
  rw [this]

/-- The call returns true exactly when every signature passes and the address of the
assembled array is the given one. -/
theorem verifyMutliSig_true_iff (env : Env) (sigs : List SplashSignature)
    (data addr : List Byte) (C : CurveParams) :
    VerifyMutliSig env sigs data addr C = some true ↔
      (∀ sig ∈ sigs, SigPasses env data C sigs.length sig) ∧
        GenerateMultiSigAddress env (assembledKeys env data C sigs) = some addr := by
  have key := verifyLoop_completed_iff env data C sigs
    (List.replicate sigs.length SplashPublicKey.zero)
  simp only [List.length_replicate, storeKeys_replicate] at key
  unfold VerifyMutliSig
  simp only
  constructor
  · intro h
    split at h
    · simp at h
    · simp at h
    · rename_i out hloop
      obtain ⟨hall, hout⟩ := (key out).mp hloop
      subst hout
      refine ⟨hall, ?_⟩
      split at h
      · simp at h
      · rename_i a ha
        simp only [Option.some.injEq, CheckByteEq, decide_eq_true_eq] at h
        rw [ha, h]
  · rintro ⟨hall, haddr⟩
    rw [(key _).mpr ⟨hall, rfl⟩]
    simp only [haddr, CheckByteEq, decide_True]

/-- A call that does not run its loop to the end does not return true. -/
theorem verifyMutliSig_not_passing (env : Env) (sigs : List SplashSignature)
    (data addr : List Byte) (C : CurveParams)
    (h : ¬ ∀ sig ∈ sigs, SigPasses env data C sigs.length sig) (b : Bool)
    (hb : VerifyMutliSig env sigs data addr C = some b) : b = false := by
  cases b with
  | false => rfl
  | true => exact absurd ((verifyMutliSig_true_iff env sigs data addr C).mp hb).1 h

theorem verifyMutliSig_perm (env : Env) (sigs sigs' : List SplashSignature)
    (data addr : List Byte) (C : CurveParams) (hp : sigs.Perm sigs')
    (hnd : (sigs.map (fun sig => sig.O.val)).Nodup)
    (hrec : ∀ sig ∈ sigs, (sig.ReconstructPublicKey env data C).isSome ∧
      sig.O.val < sigs.length) :
    VerifyMutliSig env sigs data addr C = VerifyMutliSig env sigs' data addr C := by
  unfold VerifyMutliSig
  simp only
  rw [← hp.length_eq, verifyLoop_perm env data C sigs sigs' hp hnd _
    (by simpa using hrec)]

theorem sigPasses_perm (env : Env) (sigs sigs' : List SplashSignature)
    (data : List Byte) (C : CurveParams) (hp : sigs.Perm sigs') :
    (∀ sig ∈ sigs, SigPasses env data C sigs.length sig) ↔
      (∀ sig ∈ sigs', SigPasses env data C sigs'.length sig) := by
  rw [hp.length_eq]
  constructor
  · intro h sig hs; exact h sig (hp.mem_iff.mpr hs)
  · intro h sig hs; exact h sig (hp.mem_iff.mp hs)

theorem verifyMutliSig_perm_returns (env : Env) (sigs sigs' : List SplashSignature)
    (data addr : List Byte) (C : CurveParams) (hp : sigs.Perm sigs')
    (hnd : (sigs.map (fun sig => sig.O.val)).Nodup) (b b' : Bool)
    (hb : VerifyMutliSig env sigs data addr C = some b)
    (hb' : VerifyMutliSig env sigs' data addr C = some b') : b = b' := by
  by_cases hall : ∀ sig ∈ sigs, SigPasses env data C sigs.length sig
  · have hrec : ∀ sig ∈ sigs, (sig.ReconstructPublicKey env data C).isSome ∧
        sig.O.val < sigs.length := by
      intro sig hs
      obtain ⟨pub, h1, h2, _⟩ := hall sig hs
      exact ⟨by rw [h1]; rfl, h2⟩
    rw [verifyMutliSig_perm env sigs sigs' data addr C hp hnd hrec, hb'] at hb
    exact (Option.some.inj hb).symm
  · rw [verifyMutliSig_not_passing env sigs data addr C hall b hb,
      verifyMutliSig_not_passing env sigs' data addr C
        (fun h => hall ((sigPasses_perm env sigs sigs' data C hp).mpr h)) b' hb']

theorem verifyMutliSig_returns (env : Env) (sigs : List SplashSignature)
    (data addr : List Byte) (C : CurveParams) (hm : MerkleSpec env.MerkleRoot)
    (hrec : ∀ sig ∈ sigs, (sig.ReconstructPublicKey env data C).isSome ∧
      sig.O.val < sigs.length) :
    ∃ b, VerifyMutliSig env sigs data addr C = some b := by
  unfold VerifyMutliSig
  simp only
  rw [verifyLoop_of_reconstructs env data C sigs _ (by simpa using hrec)]
  by_cases hall : (sigs.all fun sig => (keyOf env data C sig).Verify data sig) = true
  · simp only [hall, if_true]
    rw [generateMultiSigAddress_eq env _ (hm _)]
    exact ⟨_, rfl⟩
  · simp only [hall]
    exact ⟨false, rfl⟩

theorem verifyMutliSig_of_completed (env : Env) (sigs : List SplashSignature)
    (data addr : List Byte) (C : CurveParams) (out : List SplashPublicKey)
    (h : verifyLoop env data C sigs (List.replicate sigs.length SplashPublicKey.zero)
      = LoopOutcome.completed out) :
    VerifyMutliSig env sigs data addr C =
      (GenerateMultiSigAddress env out).map (fun a => CheckByteEq a addr) := by
  unfold VerifyMutliSig
  simp only [h]
  cases GenerateMultiSigAddress env out <;> rfl

/-! ## Altered signatures -/

/-- The ephemeral point behind an honest signature whose nonce does not wrap. -/
theorem signWithNonce_ephemeral (env : Env) (priv : SplashPrivateKey) (k : Nat)
    (data : List Byte) (sig : SplashSignature)
    (hv : priv.Curve.Valid) (hs : ModSqrtSpec env.ModSqrt priv.Curve.P)
    (hsig : priv.signWithNonce env k data = SignAttempt.done sig)
    (hwrap : (priv.Curve.ScalarBaseMult (natBytes k)).1 < priv.Curve.N)
    [Fact priv.Curve.P.Prime] {Gp : priv.Curve.toAffine.Point}
    (hG : Rep priv.Curve priv.Curve.Gx priv.Curve.Gy Gp) :
    ∃ y1 y2 : Int, GetY env sig.R priv.Curve = some (y1, y2) ∧
      Rep priv.Curve sig.R (if sig.V = 1 then y2 else y1) (k • Gp) ∧
      0 < k ∧ k < priv.Curve.N ∧ 0 ≤ sig.S ∧ sig.S < priv.Curve.N := by
  obtain ⟨kInv, y1, y2, hk0, hkN, hkInv, hY, hR, hRne, hS, hSne, hV, hO⟩ :=
    signWithNonce_done hsig
  have hKrep := rep_scalarMult priv.Curve hv hG (natBytes k)
  rw [beNat_natBytes] at hKrep
  have hNpos : (0 : Int) < (priv.Curve.N : Int) := by
    exact_mod_cast hv.prime_N.pos
  have hRK : sig.R = (priv.Curve.ScalarBaseMult (natBytes k)).1 := by
    rw [hR]
    exact Int.emod_eq_of_lt hKrep.2.1 hwrap
  have hKx : (priv.Curve.ScalarBaseMult (natBytes k)).1 ≠ 0 := by
    rw [← hRK]; exact hRne
  rw [← hR] at hY
  have hsel : (if sig.V = 1 then y2 else y1) = (priv.Curve.ScalarBaseMult (natBytes k)).2 := by
    rw [hV]
    have hY' := hY
    rw [hRK] at hY'
    unfold CurveParams.ScalarBaseMult at hY' hKx ⊢
    exact ephemeral_select env priv.Curve hv hs hKrep.1 hKrep.2 hKx hY'
  refine ⟨y1, y2, hY, ?_, hk0, hkN, ?_, ?_⟩
  · rw [hsel, hRK]
    exact hKrep.1
  · rw [hS]; exact Int.emod_nonneg _ hNpos.ne'
  · rw [hS]; exact Int.emod_lt_of_pos _ hNpos

/-- A key that passes `Verify` comes with scalars in `[1, N-1]`. -/
theorem verify_true_range (c : CurveParams) (x y : Int) (data : List Byte)
    (sig : SplashSignature)
    (h : SplashPublicKey.Verify ⟨some c, some x, some y⟩ data sig = true) :
    0 < sig.R ∧ sig.R < c.N ∧ 0 < sig.S ∧ sig.S < c.N := by
  unfold SplashPublicKey.Verify at h
  simp only at h
  split at h
  · simp at h
  · rename_i hg
    push_neg at hg
    omega

/-- Two signatures that differ only in `S`, both with `S` in `[0, N-1]`, over an ephemeral
point of order `N`, reconstruct to different keys. -/
theorem tampered_key_ne (env : Env) (c : CurveParams) [Fact c.P.Prime] [Fact c.N.Prime]
    (hv : c.Valid) (hs : ModSqrtSpec env.ModSqrt c.P) (sig : SplashSignature) (S' : Int)
    (data : List Byte) {Gp : c.toAffine.Point} (hG : Rep c c.Gx c.Gy Gp)
    {y1 y2 : Int} (hY : GetY env sig.R c = some (y1, y2))
    {Kp : c.toAffine.Point} (hK : Rep c sig.R (if sig.V = 1 then y2 else y1) Kp)
    (hK0 : Kp ≠ 0) (hNK : c.N • Kp = 0)
    (hS : 0 ≤ sig.S ∧ sig.S < c.N) (hS' : 0 ≤ S' ∧ S' < c.N) (hne : S' ≠ sig.S)
    {Q Q' : SplashPublicKey} (hQ : sig.ReconstructPublicKey env data c = some Q)
    (hQ' : SplashSignature.ReconstructPublicKey env { sig with S := S' } data c = some Q') :
    Q' ≠ Q := by
  obtain ⟨hlen, _, ⟨RMod, hR⟩⟩ := reconstruct_some_length env sig data c Q hQ
  obtain ⟨K1, xy1, hK1, _, hrec1, hr1, hxy1⟩ :=
    reconstruct_rep env c hv hs sig data hlen hR hY hG
  obtain ⟨K2, xy2, hK2, _, hrec2, hr2, hxy2⟩ :=
    reconstruct_rep env c hv hs { sig with S := S' } data hlen hR hY hG
  have e1 : K1 = Kp := rep_functional c hv hK1 hK
  have e2 : K2 = Kp := rep_functional c hv hK2 hK
  rw [e1] at hxy1
  rw [e2] at hxy2
  rw [hrec1, Option.some.injEq] at hQ
  rw [hrec2, Option.some.injEq] at hQ'
  intro heq
  rw [← hQ, ← hQ', SplashPublicKey.mk.injEq] at heq
  simp only [Option.some.injEq, true_and] at heq
  rw [heq.1, heq.2] at hxy2
  have hpt := rep_functional c hv hxy1 hxy2
  simp only at hpt
  obtain ⟨hr0, hrN, hrinv⟩ := modInverse_some _ _ _ hR
  have hz : (RMod * (sig.S - S')) • Kp = 0 := by
    have : (RMod * (sig.S - S')) • Kp
        = RMod.natAbs • (sig.S.natAbs • Kp - beNat (data.take 32) • Gp)
          - RMod.natAbs • (S'.natAbs • Kp - beNat (data.take 32) • Gp) := by
      rw [← natCast_zsmul, ← natCast_zsmul Kp, ← natCast_zsmul Gp,
        ← natCast_zsmul _ RMod.natAbs, ← natCast_zsmul Kp S'.natAbs,
        Int.natAbs_of_nonneg hr0, Int.natAbs_of_nonneg hS.1, Int.natAbs_of_nonneg hS'.1]
      module
    rw [this, hpt, sub_self]
  have hz2 : (sig.S - S') • Kp = 0 := by
    have h1 : (sig.R * (RMod * (sig.S - S'))) • Kp = 0 := by
      rw [mul_zsmul, hz, zsmul_zero]
    rw [← h1]
    apply zsmul_congr hNK
    have cr := (modEq_iff_cast c.N _ _).mp hrinv
    push_cast at cr ⊢
    linear_combination (-((sig.S : ZMod c.N) - S')) * cr
  have hord : addOrderOf Kp = c.N := addOrderOf_eq_prime hNK hK0
  have hdvd : (c.N : Int) ∣ sig.S - S' := by
    rw [← hord]
    exact addOrderOf_dvd_iff_zsmul_eq_zero.mpr hz2
  have := Int.eq_zero_of_abs_lt_dvd hdvd (by rw [abs_lt]; constructor <;> omega)
  exact hne (by omega)

theorem assembledKeys_pair (env : Env) (data : List Byte) (C : CurveParams)
    (s0 s1 : SplashSignature) (h0 : s0.O.val = 0) (h1 : s1.O.val = 1) :
    assembledKeys env data C [s0, s1] = [keyOf env data C s0, keyOf env data C s1] := by
  rw [← storeKeys_replicate]
  simp [storeKeys, h0, h1, List.replicate]

/-- A call on signatures that all reconstruct, with indices in range and a Merkle root of 20
bytes, returns false unless every signature passes and the address matches. -/
theorem verifyMutliSig_false_of (env : Env) (sigs : List SplashSignature)
    (data addr : List Byte) (C : CurveParams) (hm : MerkleSpec env.MerkleRoot)
    (hrec : ∀ sig ∈ sigs, (sig.ReconstructPublicKey env data C).isSome ∧
      sig.O.val < sigs.length)
    (hnot : ¬ ((∀ sig ∈ sigs, SigPasses env data C sigs.length sig) ∧
      GenerateMultiSigAddress env (assembledKeys env data C sigs) = some addr)) :
    VerifyMutliSig env sigs data addr C = some false := by
  obtain ⟨b, hb⟩ := verifyMutliSig_returns env sigs data addr C hm hrec
  cases b with
  | false => exact hb
  | true => exact absurd ((verifyMutliSig_true_iff env sigs data addr C).mp hb) hnot

/-! ## Supported curves -/

theorem no_wrap_arith (P N : Nat) (hP : P.Prime) (hN : N < P) (h4 : 4 ≤ P - N)
    (hsq : (P - N) ^ 2 < P) (b x y : Int) (hxP : x < P)
    (hon : y * y % (P : Int) = (x * x * x - 3 * x + b) % (P : Int))
    (hroot : y * y % (P : Int)
      = ((x % (N : Int)) * (x % (N : Int)) * (x % (N : Int)) - 3 * (x % (N : Int)) + b)
        % (P : Int)) :
    x < N := by
  by_contra hge
  push_neg at hge
  have hNP : (N : Int) < P := by exact_mod_cast hN
  have hd4 : (4 : Int) ≤ (P : Int) - N := by
    have : ((4 : Nat) : Int) ≤ ((P - N : Nat) : Int) := by exact_mod_cast h4
    rw [Nat.cast_sub hN.le] at this
    exact_mod_cast this
  have hdsq : ((P : Int) - N) ^ 2 < P := by
    have : (((P - N) ^ 2 : Nat) : Int) < (P : Int) := by exact_mod_cast hsq
    rw [Nat.cast_pow, Nat.cast_sub hN.le] at this
    exact this
  have hx2N : x - N < N := by nlinarith
  have hR : x % (N : Int) = x - N := by
    rw [Int.emod_eq_sub_self_emod]
    exact Int.emod_eq_of_lt (by linarith) hx2N
  rw [hR] at hroot
  have hmod : ((x - N) * (x - N) * (x - N) - 3 * (x - N) + b) % (P : Int)
      = (x * x * x - 3 * x + b) % (P : Int) := hroot.symm.trans hon
  have hdvd : (P : Int) ∣
      (x * x * x - 3 * x + b) - ((x - N) * (x - N) * (x - N) - 3 * (x - N) + b) :=
    Int.ModEq.dvd hmod
  have hfac : (x * x * x - 3 * x + b) - ((x - N) * (x - N) * (x - N) - 3 * (x - N) + b)
      = (N : Int) * (3 * x * x - 3 * x * N + N * N - 3) := by ring
  rw [hfac] at hdvd
  have hPp : Prime (P : Int) := Nat.prime_iff_prime_int.mp hP
  have hN0 : (0 : Int) < N := by nlinarith
  rcases hPp.dvd_or_dvd hdvd with h | h
  · have := Int.le_of_dvd hN0 h
    linarith
  · have hg : (P : Int) ∣ 3 * ((P : Int) - x) * ((P : Int) - x)
        - 3 * ((P : Int) - x) * ((P : Int) - N) + ((P : Int) - N) * ((P : Int) - N) - 3 := by
      have e : 3 * ((P : Int) - x) * ((P : Int) - x)
          - 3 * ((P : Int) - x) * ((P : Int) - N) + ((P : Int) - N) * ((P : Int) - N) - 3
          = (3 * x * x - 3 * x * N + N * N - 3) - (P : Int) * (3 * x - P - N) := by ring
      rw [e]
      exact dvd_sub h (dvd_mul_right _ _)
    have hu1 : (1 : Int) ≤ (P : Int) - x := by linarith
    have hu2 : (P : Int) - x ≤ (P : Int) - N := by linarith
    have hpos : 0 < 3 * ((P : Int) - x) * ((P : Int) - x)
        - 3 * ((P : Int) - x) * ((P : Int) - N) + ((P : Int) - N) * ((P : Int) - N) - 3 := by
      nlinarith [sq_nonneg (2 * ((P : Int) - x) - ((P : Int) - N))]
    have hlt : 3 * ((P : Int) - x) * ((P : Int) - x)
        - 3 * ((P : Int) - x) * ((P : Int) - N) + ((P : Int) - N) * ((P : Int) - N) - 3 < P := by
      nlinarith [mul_nonneg (show (0 : Int) ≤ (P : Int) - x by linarith)
        (show (0 : Int) ≤ ((P : Int) - N) - ((P : Int) - x) by linarith)]
    have := Int.le_of_dvd hpos hg
    linarith

/-- On a curve whose order is near the field prime, a nonce whose `Ky` is one of the roots
for `x = Kx mod N` has `Kx < N`: the reduction modulo `N` did not change `Kx`. -/
theorem no_wrap_of_root (env : Env) (c : CurveParams) (hv : c.Valid)
    (hs : ModSqrtSpec env.ModSqrt c.P) (hnear : c.OrderNearField) (k : Nat)
    (hk0 : 0 < k) (hkN : k < c.N) (hroot : KyIsRoot env c k = true) :
    (c.ScalarBaseMult (natBytes k)).1 < c.N := by
  haveI : Fact c.P.Prime := ⟨hv.prime_P⟩
  obtain ⟨Gp, hG, hNG, hGne⟩ := base_point c hv
  have hK := publicKey_rep c hv k hG
  have hKne : k • Gp ≠ 0 :=
    nsmul_ne_zero_of_lt hv.prime_N hGne hNG (not_dvd_of_pos_lt hk0 hkN)
  have hon := isOnCurve_of_rep c hK.1 hKne
  unfold CurveParams.IsOnCurve at hon
  simp only [decide_eq_true_eq] at hon
  rw [getY_arg] at hon
  unfold KyIsRoot at hroot
  split at hroot
  · exact absurd hroot (by simp)
  · rename_i y1 y2 hY
    simp only [decide_eq_true_eq] at hroot
    obtain ⟨_, _, _, _, h1, _, h2⟩ := getY_roots env c _ hv.prime_P hs hY
    have hr : (c.ScalarBaseMult (natBytes k)).2 * (c.ScalarBaseMult (natBytes k)).2 % (c.P : Int)
        = (((c.ScalarBaseMult (natBytes k)).1 % (c.N : Int))
            * ((c.ScalarBaseMult (natBytes k)).1 % (c.N : Int))
            * ((c.ScalarBaseMult (natBytes k)).1 % (c.N : Int))
          - 3 * ((c.ScalarBaseMult (natBytes k)).1 % (c.N : Int)) + (c.B : Int)) % (c.P : Int) := by
      rcases hroot with h | h
      · rw [h]; exact h1
      · rw [h]; exact h2
    exact no_wrap_arith c.P c.N hv.prime_P hnear.1 hnear.2.1 hnear.2.2 c.B _ _ hK.2.2.1
      hon.symm hr

/-- The signer's key is recovered from every signature whose recovery id records a root. -/
theorem reconstruct_of_rooted (env : Env) (priv : SplashPrivateKey) (k : Nat)
    (data : List Byte) (sig : SplashSignature)
    (hv : priv.Curve.Valid) (hs : ModSqrtSpec env.ModSqrt priv.Curve.P)
    (hnear : priv.Curve.OrderNearField) (hlen : 32 ≤ data.length)
    (hsig : priv.signWithNonce env k data = SignAttempt.done sig)
    (hroot : KyIsRoot env priv.Curve k = true) :
    sig.ReconstructPublicKey env data priv.Curve = some priv.GetPublicKey := by
  obtain ⟨_, _, _, hk0, hkN, _⟩ := signWithNonce_done hsig
  exact reconstruct_of_signWithNonce env priv k data sig hv hs hlen hsig
    (no_wrap_of_root env priv.Curve hv hs hnear k hk0 hkN hroot)

/-- The public key of a private scalar in `[1, N-1]` is on the curve and is not the pair
`(0, 0)`. -/
theorem publicKey_onCurve (priv : SplashPrivateKey) (hv : priv.Curve.Valid)
    (hD : 0 < priv.D ∧ priv.D < priv.Curve.N) :
    priv.GetPublicKey.OnCurve = true ∧
      ¬ (priv.GetPublicKey.X = some 0 ∧ priv.GetPublicKey.Y = some 0) := by
  haveI : Fact priv.Curve.P.Prime := ⟨hv.prime_P⟩
  obtain ⟨Gp, hG, hNG, hGne⟩ := base_point priv.Curve hv
  have hQ := publicKey_rep priv.Curve hv priv.D hG
  have hQne : priv.D • Gp ≠ 0 :=
    nsmul_ne_zero_of_lt hv.prime_N hGne hNG (not_dvd_of_pos_lt hD.1 hD.2)
  have hon := isOnCurve_of_rep priv.Curve hQ.1 hQne
  refine ⟨by simpa [SplashPrivateKey.GetPublicKey, SplashPublicKey.OnCurve] using hon, ?_⟩
  rintro ⟨hx, hy⟩
  simp only [SplashPrivateKey.GetPublicKey, Option.some.injEq] at hx hy
  rw [hx, hy] at hQ
  exact hQne (rep_zero_iff priv.Curve hv hQ.1)

/-- A key that passes `Verify` is on its curve. -/
theorem verify_true_onCurve (c : CurveParams) (x y : Int) (data : List Byte)
    (sig : SplashSignature)
    (h : SplashPublicKey.Verify ⟨some c, some x, some y⟩ data sig = true) :
    c.IsOnCurve x y = true := by
  unfold SplashPublicKey.Verify at h
  simp only at h
  split at h
  · simp at h
  · split at h
    · simp at h
    · rename_i hon
      simpa using hon

/-- Every reconstructed key is a point of the curve or the pair `(0, 0)`. -/
theorem reconstruct_onCurve_or_zero (env : Env) (c : CurveParams) (hv : c.Valid)
    (hs : ModSqrtSpec env.ModSqrt c.P) (sig : SplashSignature) (data : List Byte)
    (pub : SplashPublicKey) (h : sig.ReconstructPublicKey env data c = some pub) :
    pub.OnCurve = true ∨ (pub.X = some 0 ∧ pub.Y = some 0) := by
  haveI : Fact c.P.Prime := ⟨hv.prime_P⟩
  obtain ⟨Gp, hG, _, _⟩ := base_point c hv
  obtain ⟨hlen, ⟨y1, y2, hY⟩, ⟨RMod, hR⟩⟩ := reconstruct_some_length env sig data c pub h
  obtain ⟨_, xy, _, _, hrec, _, hxy⟩ := reconstruct_rep env c hv hs sig data hlen hR hY hG
  rw [hrec, Option.some.injEq] at h
  subst h
  rcases hxy with ⟨hx, hy, _⟩ | ⟨a, b, hns, hxa, hyb, _⟩
  · right
    exact ⟨by rw [hx], by rw [hy]⟩
  · left
    simp only [SplashPublicKey.OnCurve]
    rw [isOnCurve_iff, hxa, hyb]
    exact hns.1

/-- A signature that one pass of `Sign` produces is reconstructed without a panic. -/
theorem reconstruct_signed_some (env : Env) (priv : SplashPrivateKey) (k : Nat)
    (data : List Byte) (sig : SplashSignature)
    (hv : priv.Curve.Valid) (hs : ModSqrtSpec env.ModSqrt priv.Curve.P)
    (hlen : 32 ≤ data.length)
    (hsig : priv.signWithNonce env k data = SignAttempt.done sig) :
    ∃ pub, sig.ReconstructPublicKey env data priv.Curve = some pub := by
  haveI : Fact priv.Curve.P.Prime := ⟨hv.prime_P⟩
  obtain ⟨kInv, y1, y2, hk0, hkN, hkInv, hY, hR, hRne, hS, hSne, hV, hO⟩ :=
    signWithNonce_done hsig
  obtain ⟨Gp, hG, _, _⟩ := base_point priv.Curve hv
  have hNpos : (0 : Int) < (priv.Curve.N : Int) := by
    exact_mod_cast hv.prime_N.pos
  rw [← hR] at hY
  have hRdvd : ¬ (priv.Curve.N : Int) ∣ sig.R := by
    intro hd
    have h0 := Int.emod_eq_zero_of_dvd hd
    rw [hR, Int.emod_emod_of_dvd _ (dvd_refl _)] at h0
    rw [hR] at hRne
    exact hRne h0
  obtain ⟨RMod, hRMod⟩ := modInverse_exists sig.R priv.Curve.N hv.prime_N hRdvd
  obtain ⟨_, xy, _, _, hrec, _, _⟩ :=
    reconstruct_rep env priv.Curve hv hs sig data hlen hRMod hY hG
  exact ⟨_, hrec⟩

/-- What a partner signature whose recovery id records a root brings along. -/
theorem multiSign_rooted (env : Env) (c : CurveParams) [Fact c.P.Prime]
    (key : SplashMultiSigKey)
    (d : List Nat) (data : List Byte) (sig : SplashSignature)
    (hv : c.Valid) (hs : ModSqrtSpec env.ModSqrt c.P) (hnear : c.OrderNearField)
    (hkey : key.PrivateKey.Curve = c ∧ 0 < key.PrivateKey.D ∧ key.PrivateKey.D < c.N)
    (hsign : key.Sign env d data = (sig, none))
    (hroot : ∀ k ∈ d, (∃ s, key.PrivateKey.signWithNonce env k data = SignAttempt.done s) →
      KyIsRoot env c k = true) :
    sig.O = key.Order ∧
    sig.ReconstructPublicKey env data c = some key.PrivateKey.GetPublicKey ∧
    key.PrivateKey.GetPublicKey.Verify data sig = true ∧
    (0 ≤ sig.S ∧ sig.S < c.N) ∧
    ∃ (y1 y2 : Int) (Kp : c.toAffine.Point), GetY env sig.R c = some (y1, y2) ∧
      Rep c sig.R (if sig.V = 1 then y2 else y1) Kp ∧ Kp ≠ 0 ∧ c.N • Kp = 0 := by
  obtain ⟨hc, hD0, hDN⟩ := hkey
  subst hc
  obtain ⟨Gp, hG, hNG, hGne⟩ := base_point key.PrivateKey.Curve hv
  obtain ⟨sig0, hsig0, hO⟩ := multiSign_done env key d data sig hsign
  obtain ⟨hlen, k, hk, hdone⟩ := sign_done env key.PrivateKey d data sig0 hsig0
  obtain ⟨_, _, _, hk0', hkN', _⟩ := signWithNonce_done hdone
  have hw := no_wrap_of_root env key.PrivateKey.Curve hv hs hnear k hk0' hkN'
    (hroot k hk ⟨sig0, hdone⟩)
  have hrec := reconstruct_of_signWithNonce env key.PrivateKey k data sig0 hv hs hlen hdone hw
  have hver := verify_of_signWithNonce env key.PrivateKey k data sig0 hv ⟨hD0, hDN⟩ hdone
  obtain ⟨y1, y2, hY, hK, hk0, hkN, hS0, hSN⟩ :=
    signWithNonce_ephemeral env key.PrivateKey k data sig0 hv hs hdone hw hG
  subst hO
  refine ⟨rfl, hrec, hver, ⟨hS0, hSN⟩, y1, y2, k • Gp, hY, hK, ?_, ?_⟩
  · exact nsmul_ne_zero_of_lt hv.prime_N hGne hNG (not_dvd_of_pos_lt hk0 hkN)
  · rw [smul_comm, hNG, nsmul_zero]

/-- The signatures of a group of partners reconstruct to the partners' keys, verify, and
carry the partners' order indices. -/
theorem partner_signatures_rooted (env : Env) (c : CurveParams) (data : List Byte)
    (hv : c.Valid) (hs : ModSqrtSpec env.ModSqrt c.P) (hnear : c.OrderNearField) :
    ∀ (keys : List SplashMultiSigKey) (sigs : List SplashSignature),
      List.Forall₂ (fun key sig => ∃ d : List Nat, key.Sign env d data = (sig, none) ∧
        ∀ k ∈ d, (∃ s, key.PrivateKey.signWithNonce env k data = SignAttempt.done s) →
          KyIsRoot env c k = true) keys sigs →
      (∀ key ∈ keys, key.PrivateKey.Curve = c ∧ 0 < key.PrivateKey.D ∧
        key.PrivateKey.D < c.N) →
      List.Forall₂ (fun sig pub =>
        sig.ReconstructPublicKey env data c = some pub ∧ pub.Verify data sig = true) sigs
        (keys.map (fun key => key.PrivateKey.GetPublicKey)) ∧
      sigs.map (fun sig => sig.O.val) = keys.map (fun key => key.Order.val) := by
  haveI : Fact c.P.Prime := ⟨hv.prime_P⟩
  intro keys sigs h
  induction h with
  | nil => intro _; exact ⟨List.Forall₂.nil, rfl⟩
  | @cons key sig keys sigs hh _ ih =>
    intro hkeys
    obtain ⟨d, hsign, hroot⟩ := hh
    obtain ⟨ih1, ih2⟩ := ih (fun key hk => hkeys key (List.mem_cons_of_mem _ hk))
    obtain ⟨hO, hrec, hver, _, _⟩ := multiSign_rooted env c key d data sig hv hs hnear
      (hkeys key (List.mem_cons_self _ _)) hsign hroot
    constructor
    · simp only [List.map_cons]
      exact List.Forall₂.cons ⟨hrec, hver⟩ ih1
    · simp only [List.map_cons, ih2, hO]

/-- A signature whose `S` was replaced still reconstructs, to a pair in range; when it
passes `Verify`, the reconstructed key is a point of the curve other than the signer's. -/
theorem altered_reconstruct (env : Env) (c : CurveParams) [Fact c.P.Prime] (hv : c.Valid)
    (hs : ModSqrtSpec env.ModSqrt c.P) (sig : SplashSignature) (S' : Int)
    (data : List Byte) (pk : SplashPublicKey)
    (hrec : sig.ReconstructPublicKey env data c = some pk)
    (hS : 0 ≤ sig.S ∧ sig.S < c.N)
    (hK : ∃ (y1 y2 : Int) (Kp : c.toAffine.Point), GetY env sig.R c = some (y1, y2) ∧
      Rep c sig.R (if sig.V = 1 then y2 else y1) Kp ∧ Kp ≠ 0 ∧ c.N • Kp = 0)
    (hne : S' ≠ sig.S) :
    ∃ x y : Int,
      SplashSignature.ReconstructPublicKey env { sig with S := S' } data c
        = some ⟨some c, some x, some y⟩ ∧
      (0 ≤ x ∧ x < (c.P : Int) ∧ 0 ≤ y ∧ y < (c.P : Int)) ∧
      (SplashPublicKey.Verify ⟨some c, some x, some y⟩ data { sig with S := S' } = true →
        (⟨some c, some x, some y⟩ : SplashPublicKey) ≠ pk ∧ c.IsOnCurve x y = true) := by
  haveI : Fact c.N.Prime := ⟨hv.prime_N⟩
  obtain ⟨Gp, hG, hNG, hGne⟩ := base_point c hv
  obtain ⟨y1, y2, Kp, hY, hKp, hK0, hNK⟩ := hK
  obtain ⟨hlen, _, ⟨RMod, hR⟩⟩ := reconstruct_some_length env sig data c pk hrec
  obtain ⟨K2, xy2, _, _, hrec2, hr2, _⟩ :=
    reconstruct_rep env c hv hs { sig with S := S' } data hlen hR hY hG
  refine ⟨xy2.1, xy2.2, hrec2, hr2, fun hver => ⟨?_, verify_true_onCurve c _ _ data _ hver⟩⟩
  obtain ⟨_, _, h1, h2⟩ := verify_true_range c xy2.1 xy2.2 data _ hver
  exact tampered_key_ne env c hv hs sig S' data hG hY hKp hK0 hNK hS ⟨h1.le, h2⟩ hne
    hrec hrec2

/-- The two-partner scenario with one altered `S`: when the address binds the group's
keys, the call returns false. -/
theorem verifyMutliSig_altered (env : Env) (c : CurveParams) [Fact c.P.Prime]
    (data addr : List Byte)
    (hv : c.Valid) (hs : ModSqrtSpec env.ModSqrt c.P) (hm : MerkleSpec env.MerkleRoot)
    (sig0 sig1 : SplashSignature) (pk0 pk1 : SplashPublicKey)
    (hO0 : sig0.O.val = 0) (hO1 : sig1.O.val = 1)
    (hrec0 : sig0.ReconstructPublicKey env data c = some pk0)
    (hrec1 : sig1.ReconstructPublicKey env data c = some pk1)
    (hS0 : 0 ≤ sig0.S ∧ sig0.S < c.N) (hS1 : 0 ≤ sig1.S ∧ sig1.S < c.N)
    (hK0 : ∃ (y1 y2 : Int) (Kp : c.toAffine.Point), GetY env sig0.R c = some (y1, y2) ∧
      Rep c sig0.R (if sig0.V = 1 then y2 else y1) Kp ∧ Kp ≠ 0 ∧ c.N • Kp = 0)
    (hK1 : ∃ (y1 y2 : Int) (Kp : c.toAffine.Point), GetY env sig1.R c = some (y1, y2) ∧
      Rep c sig1.R (if sig1.V = 1 then y2 else y1) Kp ∧ Kp ≠ 0 ∧ c.N • Kp = 0)
    (haddr : GenerateMultiSigAddress env [pk0, pk1] = some addr)
    (hbind : AddressBinds env c [pk0, pk1]) :
    (∀ S', S' ≠ sig0.S →
      VerifyMutliSig env [{ sig0 with S := S' }, sig1] data addr c = some false) ∧
    (∀ S', S' ≠ sig1.S →
      VerifyMutliSig env [sig0, { sig1 with S := S' }] data addr c = some false) := by
  constructor
  · intro S' hne
    obtain ⟨x, y, hQ', hr, hQv⟩ :=
      altered_reconstruct env c hv hs sig0 S' data pk0 hrec0 hS0 hK0 hne
    apply verifyMutliSig_false_of env _ data addr c hm
    · intro sig hsig
      simp only [List.mem_cons, List.mem_singleton, List.not_mem_nil, or_false] at hsig
      rcases hsig with rfl | rfl
      · exact ⟨by rw [hQ']; rfl, by simp only [List.length_cons, List.length_nil]; omega⟩
      · exact ⟨by rw [hrec1]; rfl, by simp only [List.length_cons, List.length_nil]; omega⟩
    · rintro ⟨hall, hgen⟩
      obtain ⟨pub, hp, _, hver⟩ := hall _ (List.mem_cons_self _ _)
      rw [hQ', Option.some.injEq] at hp
      subst hp
      obtain ⟨hQne, hon⟩ := hQv hver
      rw [assembledKeys_pair env data c { sig0 with S := S' } sig1 hO0 hO1] at hgen
      simp only [keyOf, hQ', hrec1, Option.getD_some] at hgen
      have hb := hbind 0 (by simp) x.toNat (by omega) y.toNat (by omega)
      rw [Int.toNat_of_nonneg hr.1, Int.toNat_of_nonneg hr.2.2.1] at hb
      have := hb hon (by rw [haddr]; exact hgen)
      simp only [List.set_cons_zero, List.cons.injEq, and_true] at this
      exact hQne this
  · intro S' hne
    obtain ⟨x, y, hQ', hr, hQv⟩ :=
      altered_reconstruct env c hv hs sig1 S' data pk1 hrec1 hS1 hK1 hne
    apply verifyMutliSig_false_of env _ data addr c hm
    · intro sig hsig
      simp only [List.mem_cons, List.mem_singleton, List.not_mem_nil, or_false] at hsig
      rcases hsig with rfl | rfl
      · exact ⟨by rw [hrec0]; rfl, by simp only [List.length_cons, List.length_nil]; omega⟩
      · exact ⟨by rw [hQ']; rfl, by simp only [List.length_cons, List.length_nil]; omega⟩
    · rintro ⟨hall, hgen⟩
      obtain ⟨pub, hp, _, hver⟩ := hall _ (List.mem_cons_of_mem _ (List.mem_cons_self _ _))
      rw [hQ', Option.some.injEq] at hp
      subst hp
      obtain ⟨hQne, hon⟩ := hQv hver
      rw [assembledKeys_pair env data c sig0 { sig1 with S := S' } hO0 hO1] at hgen
      simp only [keyOf, hQ', hrec0, Option.getD_some] at hgen
      have hb := hbind 1 (by simp) x.toNat (by omega) y.toNat (by omega)
      rw [Int.toNat_of_nonneg hr.1, Int.toNat_of_nonneg hr.2.2.1] at hb
      have := hb hon (by rw [haddr]; exact hgen)
      simp only [List.set_cons_succ, List.set_cons_zero, List.cons.injEq, true_and,
        and_true] at this
      exact hQne this

/-! ## Facts about the supported curves -/

theorem modSqrtSpec_of_check (sqrt : Int → Int → Option Int) (p : Nat)
    (h : sqrtCheck sqrt p = true) : ModSqrtSpec sqrt p := by
  intro a ha0 haP
  have hp : (0 : Int) < (p : Int) := lt_of_le_of_lt ha0 haP
  unfold sqrtCheck at h
  rw [List.all_eq_true] at h
  have hmem : a.toNat ∈ List.range p := by
    rw [List.mem_range]
    omega
  have ha := h a.toNat hmem
  have hcast : ((a.toNat : Nat) : Int) = a := Int.toNat_of_nonneg ha0
  rw [hcast] at ha
  constructor
  · intro y hy
    rw [hy] at ha
    simpa using ha
  · intro hnone y hyy
    rw [hnone] at ha
    simp only [List.all_eq_true, decide_eq_true_eq] at ha
    have hy0 := Int.emod_nonneg y hp.ne'
    have hy1 := Int.emod_lt_of_pos y hp
    have hm : (y % (p : Int)).toNat ∈ List.range p := by
      rw [List.mem_range]
      omega
    apply ha _ hm
    rw [Int.toNat_of_nonneg hy0, ← Int.mul_emod]
    exact hyy

set_option maxRecDepth 100000 in
theorem goModSqrt_spec47 : ModSqrtSpec goEnv.ModSqrt curve47.P :=
  modSqrtSpec_of_check _ _ (by decide)

set_option maxRecDepth 100000 in
theorem curve47_valid : curve47.Valid where
  prime_P := by norm_num [curve47]
  prime_N := by norm_num [curve47]
  disc := by decide
  B_ne := by decide
  G_on := by decide
  G_order := by decide

theorem curve47_near : curve47.OrderNearField := by
  unfold CurveParams.OrderNearField
  decide

/-- The curve P-256 has its order near its field prime. -/
theorem p256_near : p256.OrderNearField := by
  unfold CurveParams.OrderNearField
  decide

/-- The curve P-224 has its order near its field prime, and its base point is on it. -/
theorem p224_near : p224.OrderNearField ∧ p224.IsOnCurve p224.Gx p224.Gy = true := by
  unfold CurveParams.OrderNearField
  decide

set_option maxRecDepth 100000 in
set_option synthInstance.maxSize 1024 in
set_option synthInstance.maxHeartbeats 200000 in
/-- With the reference digest, no point of the curve over `F_47` put in place of one of
the two keys gives the address of the two keys. -/
theorem curve47_binds :
    AddressBinds goEnv curve47 [key47a.GetPublicKey, key47b.GetPublicKey] := by
  unfold AddressBinds
  decide

set_option maxRecDepth 100000 in
/-- Outside the supported curves the reduction of `Kx` modulo `N` can be lost: on the curve
over `F_409`, where `(P - N)² = 676 > P`, the key `D = 2` signs the hash of value 5 with the
nonce 251. The ephemeral point is `(405, 182)`, `R = 405 mod 383 = 22`, the solver returns
`(227, 182)` for `x = 22` and `V = 1`; the key is rebuilt from `(22, 182)` and comes out
as `(68, 347)`, not `(407, 368)`. Over the hash of value 17 it comes out as `(0, 0)`. -/
theorem curve409_wrapped_nonce :
    ¬ curve409.OrderNearField ∧
    curve409.ScalarBaseMult (natBytes 251) = (405, 182) ∧
    GetY goEnv 22 curve409 = some (227, 182) ∧
    KyIsRoot goEnv curve409 251 = true ∧
    key2.signWithNonce goEnv 251 (hashOf 5) = SignAttempt.done ⟨22, 136, 1, 0⟩ ∧
    key2.GetPublicKey = ⟨some curve409, some 407, some 368⟩ ∧
    SplashSignature.ReconstructPublicKey goEnv ⟨22, 136, 1, 0⟩ (hashOf 5) curve409
      = some ⟨some curve409, some 68, some 347⟩ ∧
    key2.signWithNonce goEnv 251 (hashOf 17) = SignAttempt.done ⟨22, 310, 1, 0⟩ ∧
    SplashSignature.ReconstructPublicKey goEnv ⟨22, 310, 1, 0⟩ (hashOf 17) curve409
      = some ⟨some curve409, some 0, some 0⟩ := by
  refine ⟨?_, ?_, ?_, ?_, ?_, ?_, ?_, ?_, ?_⟩
  · unfold CurveParams.OrderNearField
    decide
  all_goals decide

/-! # The claims -/

/-! ### C1 -/

/-- C1: on a supported curve (well-formed, with the group order near the field prime as on
P-256 and P-224), for a `ModSqrt` that meets its contract, every private scalar, every hash
of at least 32 bytes and every signature `(R, S, V)` that one pass of `Sign` produces with a
nonce `k` whose `Ky` is the first or second root that the solver returns for `x = R`:
`ReconstructPublicKey` returns exactly the signer's public key `D·G`. -/
theorem C1_reconstruct_signed (env : Env) (priv : SplashPrivateKey) (k : Nat)
    (data : List Byte) (sig : SplashSignature)
    (hv : priv.Curve.Valid) (hs : ModSqrtSpec env.ModSqrt priv.Curve.P)
    (hnear : priv.Curve.OrderNearField) (hlen : 32 ≤ data.length)
    (hsig : priv.signWithNonce env k data = SignAttempt.done sig)
    (hroot : KyIsRoot env priv.Curve k = true) :
    sig.ReconstructPublicKey env data priv.Curve = some priv.GetPublicKey :=
  reconstruct_of_rooted env priv k data sig hv hs hnear hlen hsig hroot

set_option maxRecDepth 100000 in
/-- C1, witness: on the curve over `F_47` the key `D = 2` signs `hashOf 5` with the nonce 4;
the ephemeral point is `(24, 35)`, the solver of `math/big` returns `(12, 35)` for `x = 24`,
so `V = 1`, and the signature `(24, 24, 1)` reconstructs to the public key `(13, 21)`. -/
theorem C1_reconstruct_signed_witness :
    curve47.Valid ∧ ModSqrtSpec goEnv.ModSqrt curve47.P ∧ curve47.OrderNearField ∧
    32 ≤ (hashOf 5).length ∧
    key47a.signWithNonce goEnv 4 (hashOf 5) = SignAttempt.done ⟨24, 24, 1, 0⟩ ∧
    KyIsRoot goEnv curve47 4 = true ∧
    key47a.GetPublicKey = ⟨some curve47, some 13, some 21⟩ ∧
    SplashSignature.ReconstructPublicKey goEnv ⟨24, 24, 1, 0⟩ (hashOf 5) curve47
      = some key47a.GetPublicKey :=
  ⟨curve47_valid, goModSqrt_spec47, curve47_near, by decide, by decide, by decide, by decide,
    C1_reconstruct_signed goEnv key47a 4 (hashOf 5) ⟨24, 24, 1, 0⟩ curve47_valid
      goModSqrt_spec47 curve47_near (by decide) (by decide) (by decide)⟩

/-! ### C2 -/

/-- C2: for a well-formed curve, a `ModSqrt` that meets its contract and a hash of at least
32 bytes, every signature that one pass of `Sign` produces is reconstructed to a key that is
a point of the curve or the pair `(0, 0)`; on a supported curve (group order near the field
prime), for a private scalar in `[1, N-1]` and a recovery id that records a root, the key
satisfies the on-curve predicate and is not the pair `(0, 0)` that stands for the point at
infinity. -/
theorem C2_reconstructed_on_curve (env : Env) (priv : SplashPrivateKey) (k : Nat)
    (data : List Byte) (sig : SplashSignature)
    (hv : priv.Curve.Valid) (hs : ModSqrtSpec env.ModSqrt priv.Curve.P)
    (hlen : 32 ≤ data.length)
    (hsig : priv.signWithNonce env k data = SignAttempt.done sig) :
    ∃ pub, sig.ReconstructPublicKey env data priv.Curve = some pub ∧
      (pub.OnCurve = true ∨ (pub.X = some 0 ∧ pub.Y = some 0)) ∧
      (priv.Curve.OrderNearField → (0 < priv.D ∧ priv.D < priv.Curve.N) →
        KyIsRoot env priv.Curve k = true →
        pub.OnCurve = true ∧ ¬ (pub.X = some 0 ∧ pub.Y = some 0)) := by
  obtain ⟨pub, hpub⟩ := reconstruct_signed_some env priv k data sig hv hs hlen hsig
  refine ⟨pub, hpub, reconstruct_onCurve_or_zero env priv.Curve hv hs sig data pub hpub, ?_⟩
  intro hnear hD hroot
  have h := reconstruct_of_rooted env priv k data sig hv hs hnear hlen hsig hroot
  rw [hpub, Option.some.injEq] at h
  rw [h]
  exact publicKey_onCurve priv hv hD

set_option maxRecDepth 100000 in
/-- C2, witness: the signature `(24, 24, 1)` of the C1 witness reconstructs to `(13, 21)`,
which is on the curve over `F_47`. -/
theorem C2_reconstructed_on_curve_witness :
    curve47.Valid ∧ ModSqrtSpec goEnv.ModSqrt curve47.P ∧ 32 ≤ (hashOf 5).length ∧
    key47a.signWithNonce goEnv 4 (hashOf 5) = SignAttempt.done ⟨24, 24, 1, 0⟩ ∧
    curve47.OrderNearField ∧ (0 < key47a.D ∧ key47a.D < curve47.N) ∧
    KyIsRoot goEnv curve47 4 = true ∧
    curve47.IsOnCurve 13 21 = true ∧
    ∃ pub, SplashSignature.ReconstructPublicKey goEnv ⟨24, 24, 1, 0⟩ (hashOf 5) curve47
        = some pub ∧
      pub.OnCurve = true ∧ ¬ (pub.X = some 0 ∧ pub.Y = some 0) := by
  obtain ⟨pub, h1, _, h3⟩ := C2_reconstructed_on_curve goEnv key47a 4 (hashOf 5)
    ⟨24, 24, 1, 0⟩ curve47_valid goModSqrt_spec47 (by decide) (by decide)
  exact ⟨curve47_valid, goModSqrt_spec47, by decide, by decide, curve47_near, by decide,
    by decide, by decide, pub, h1, h3 curve47_near (by decide) (by decide)⟩

/-! ### C3 -/

/-- C3: for partner keys on one supported curve with private scalars in `[1, N-1]` and
Order values `0, 1, .., n-1`, if every key signs the same hash with
`SplashMultiSigKey.Sign`, every nonce that yields a signature records a root in the
recovery id, and the address is `GenerateMultiSigAddress` of the public keys in
Order-sorted sequence, then `VerifyMutliSig` over the signatures, listed in any order,
returns true. -/
theorem C3_all_partners_verify (env : Env) (c : CurveParams)
    (keys : List SplashMultiSigKey) (sigs0 sigs : List SplashSignature)
    (data addr : List Byte)
    (hv : c.Valid) (hs : ModSqrtSpec env.ModSqrt c.P) (hnear : c.OrderNearField)
    (hkeys : ∀ key ∈ keys, key.PrivateKey.Curve = c ∧ 0 < key.PrivateKey.D ∧
      key.PrivateKey.D < c.N)
    (horder : keys.map (fun key => key.Order.val) = List.range keys.length)
    (hsign : List.Forall₂ (fun key sig => ∃ d : List Nat, key.Sign env d data = (sig, none) ∧
      ∀ k ∈ d, (∃ s, key.PrivateKey.signWithNonce env k data = SignAttempt.done s) →
        KyIsRoot env c k = true) keys sigs0)
    (hperm : sigs0.Perm sigs)
    (haddr : GenerateMultiSigAddress env (keys.map (fun key => key.PrivateKey.GetPublicKey))
      = some addr) :
    VerifyMutliSig env sigs data addr c = some true := by
  obtain ⟨h1, h2⟩ := partner_signatures_rooted env c data hv hs hnear keys sigs0 hsign hkeys
  have hlen := hsign.length_eq
  have ho : sigs0.map (fun sig => sig.O.val) = List.range sigs0.length := by
    rw [h2, horder, hlen]
  have htrue := verifyMutliSig_of_ordered env c data addr sigs0 _ h1 ho haddr
  have hpass := ((verifyMutliSig_true_iff env sigs0 data addr c).mp htrue).1
  rw [← verifyMutliSig_perm env sigs0 sigs data addr c hperm
    (by rw [ho]; exact List.nodup_range _)
    (fun sig hsig => by
      obtain ⟨pub, hp, hlt, _⟩ := hpass sig hsig
      exact ⟨by rw [hp]; rfl, hlt⟩)]
  exact htrue

set_option maxRecDepth 100000 in
/-- C3, witness: on the curve over `F_47` the keys `D = 2` (order 0) and `D = 3` (order 1)
sign `hashOf 5` with the nonces 4 and 7; the signatures are handed over in the reverse
order. -/
theorem C3_all_partners_verify_witness :
    curve47.Valid ∧ ModSqrtSpec goEnv.ModSqrt curve47.P ∧ curve47.OrderNearField ∧
    (⟨key47a, 0, 2⟩ : SplashMultiSigKey).Sign goEnv [4] (hashOf 5)
      = (⟨24, 24, 1, 0⟩, none) ∧
    (⟨key47b, 1, 2⟩ : SplashMultiSigKey).Sign goEnv [7] (hashOf 5)
      = (⟨21, 22, 0, 1⟩, none) ∧
    KyIsRoot goEnv curve47 4 = true ∧ KyIsRoot goEnv curve47 7 = true ∧
    GenerateMultiSigAddress goEnv [key47a.GetPublicKey, key47b.GetPublicKey]
      = some [1, 2, 234, 44, 108, 58, 58, 25, 98, 4, 217, 28, 58, 165, 196, 151, 66, 74, 46,
          14, 245, 29] ∧
    VerifyMutliSig goEnv [⟨21, 22, 0, 1⟩, ⟨24, 24, 1, 0⟩] (hashOf 5)
      [1, 2, 234, 44, 108, 58, 58, 25, 98, 4, 217, 28, 58, 165, 196, 151, 66, 74, 46, 14,
        245, 29] curve47 = some true :=
  ⟨curve47_valid, goModSqrt_spec47, curve47_near, by decide, by decide, by decide,
    by decide, by decide,
    C3_all_partners_verify goEnv curve47 [⟨key47a, 0, 2⟩, ⟨key47b, 1, 2⟩]
      [⟨24, 24, 1, 0⟩, ⟨21, 22, 0, 1⟩] [⟨21, 22, 0, 1⟩, ⟨24, 24, 1, 0⟩] (hashOf 5) _
      curve47_valid goModSqrt_spec47 curve47_near (by decide) (by decide)
      (List.Forall₂.cons
        ⟨[4], by decide, fun k hk _ => by rw [List.mem_singleton.mp hk]; decide⟩
        (List.Forall₂.cons
          ⟨[7], by decide, fun k hk _ => by rw [List.mem_singleton.mp hk]; decide⟩
          List.Forall₂.nil))
      (List.Perm.swap _ _ []) (by decide)⟩

/-! ### C4 -/

set_option maxRecDepth 100000 in
/-- C4, the failing input evaluated: the keys `D = 2` (order 0) and `D = 3` (order 1) sign
`hashOf 5`; both signatures together verify against the address of the two public keys;
with the first partner's signature removed the remaining signature has `O = 1` in a
working array of length 1 and the call panics instead of returning false; with the last
partner's signature removed the call returns false. -/
theorem C4_omitted_signature_panics :
    GenerateMultiSigAddress refEnv [key2.GetPublicKey, key3.GetPublicKey]
      = some [1, 2, 173, 190, 127, 214, 129, 39, 171, 120, 215, 237, 160, 158, 193, 238, 95,
          187, 126, 109, 11, 218] ∧
    VerifyMutliSig refEnv [⟨276, 189, 0, 0⟩, ⟨137, 3, 0, 1⟩] (hashOf 5)
      [1, 2, 173, 190, 127, 214, 129, 39, 171, 120, 215, 237, 160, 158, 193, 238, 95,
          187, 126, 109, 11, 218] curve409 = some true ∧
    VerifyMutliSig refEnv [⟨137, 3, 0, 1⟩] (hashOf 5)
      [1, 2, 173, 190, 127, 214, 129, 39, 171, 120, 215, 237, 160, 158, 193, 238, 95,
          187, 126, 109, 11, 218] curve409 = none ∧
    VerifyMutliSig refEnv [⟨276, 189, 0, 0⟩] (hashOf 5)
      [1, 2, 173, 190, 127, 214, 129, 39, 171, 120, 215, 237, 160, 158, 193, 238, 95,
          187, 126, 109, 11, 218] curve409 = some false := by
  refine ⟨?_, ?_, ?_, ?_⟩ <;> decide

/-! ### C5 -/

set_option maxRecDepth 100000 in
/-- C5, the failing inputs evaluated: a single signature whose order index is 1 makes
`partners[sig.O]` index past the end of the one-element working array, and a data string
of three bytes makes `msgHash[:32]` fail; for every address the call panics and returns no
boolean. -/
theorem C5_verifyMutliSig_panics :
    (∀ addr, VerifyMutliSig refEnv [⟨276, 189, 0, 1⟩] (hashOf 5) addr curve409 = none) ∧
    (∀ addr, VerifyMutliSig refEnv [⟨276, 189, 0, 0⟩] [1, 2, 3] addr curve409 = none) := by
  have h1 : verifyLoop refEnv (hashOf 5) curve409 [⟨276, 189, 0, 1⟩]
      (List.replicate 1 SplashPublicKey.zero) = LoopOutcome.panicked := by decide
  have h2 : verifyLoop refEnv [1, 2, 3] curve409 [⟨276, 189, 0, 0⟩]
      (List.replicate 1 SplashPublicKey.zero) = LoopOutcome.panicked := by decide
  constructor
  · intro addr
    simp only [VerifyMutliSig, List.length_singleton, h1]
  · intro addr
    simp only [VerifyMutliSig, List.length_singleton, h2]

/-! ### C6 -/

/-- C6 (amended): when the Merkle root over the compressed keys (taken in array order)
has at least 20 bytes, `GenerateMultiSigAddress` returns exactly 22 bytes: byte 0 is
`0x01`, byte 1 is the number of keys modulo 256, and bytes 2..21 are the first 20 bytes of
that root. -/
theorem C6_address_layout (env : Env) (keys : List SplashPublicKey)
    (hroot : 20 ≤ (env.MerkleRoot (keys.map env.CompressedBytes)).length) :
    ∃ addr, GenerateMultiSigAddress env keys = some addr ∧ addr.length = 22 ∧
      addr[0]? = some 1 ∧ addr[1]?.map Fin.val = some (keys.length % 256) ∧
      addr.drop 2 = (env.MerkleRoot (keys.map env.CompressedBytes)).take 20 := by
  refine ⟨_, generateMultiSigAddress_eq env keys hroot, ?_, ?_, ?_, ?_⟩
  · simp only [List.cons_append, List.nil_append, List.length_cons, List.length_take]
    omega
  · simp
  · simp
  · simp

/-- C6, witness: the address of the two public keys of `key2` and `key3`. -/
theorem C6_address_layout_witness :
    20 ≤ (refEnv.MerkleRoot
      ([key2.GetPublicKey, key3.GetPublicKey].map refEnv.CompressedBytes)).length ∧
    ∃ addr, GenerateMultiSigAddress refEnv [key2.GetPublicKey, key3.GetPublicKey]
        = some addr ∧ addr.length = 22 ∧
      addr[0]? = some 1 ∧
      addr[1]?.map Fin.val = some ([key2.GetPublicKey, key3.GetPublicKey].length % 256) ∧
      addr.drop 2 = (refEnv.MerkleRoot
        ([key2.GetPublicKey, key3.GetPublicKey].map refEnv.CompressedBytes)).take 20 :=
  ⟨refEnv_merkle _,
    C6_address_layout refEnv [key2.GetPublicKey, key3.GetPublicKey] (refEnv_merkle _)⟩

/-- C6, counterexample: for a list of 256 keys byte 1 of the address is 0, not the number
of keys. -/
theorem C6_counterexample_256_keys :
    pubs256.length = 256 ∧
    (GenerateMultiSigAddress refEnv pubs256).map (fun addr => addr[1]?.map Fin.val)
      = some (some 0) := by
  have hl : pubs256.length = 256 := by
    simp only [pubs256, List.length_map, List.length_range]
  refine ⟨hl, ?_⟩
  rw [generateMultiSigAddress_eq refEnv pubs256 (refEnv_merkle _)]
  simp [hl]

/-! ### C7 -/

/-- C7 (amended): on a well-formed curve, a signature with `0 < R < N`, `R < P` and
`0 < S < N` whose selected ephemeral point `(R, root[V])` is annihilated by `N` verifies
against its own reconstructed key whenever that key satisfies the on-curve predicate. -/
theorem C7_verify_reconstructed (env : Env) (c : CurveParams) (sig : SplashSignature)
    (data : List Byte) (Q : SplashPublicKey)
    (hv : c.Valid) (hs : ModSqrtSpec env.ModSqrt c.P)
    (hR : 0 < sig.R ∧ sig.R < c.N ∧ sig.R < c.P)
    (hS : 0 < sig.S ∧ sig.S < c.N)
    (hord : ∀ y1 y2, GetY env sig.R c = some (y1, y2) →
      c.ScalarMult sig.R (if sig.V = 1 then y2 else y1) (natBytes c.N) = (0, 0))
    (hrec : sig.ReconstructPublicKey env data c = some Q)
    (hon : Q.OnCurve = true) :
    Q.Verify data sig = true :=
  verify_of_reconstruct env c sig data Q hv hs hR hS hord hrec hon

set_option maxRecDepth 100000 in
/-- C7, witness: the signature `(22, 136, 0)` over `hashOf 5`, which reconstructs to the
key `(68, 347)`. -/
theorem C7_verify_reconstructed_witness :
    curve409.Valid ∧ ModSqrtSpec refEnv.ModSqrt curve409.P ∧
    ((0 : Int) < 22 ∧ (22 : Int) < curve409.N ∧ (22 : Int) < curve409.P) ∧
    ((0 : Int) < 136 ∧ (136 : Int) < curve409.N) ∧
    GetY refEnv 22 curve409 = some (182, 227) ∧
    curve409.ScalarMult 22 182 (natBytes curve409.N) = (0, 0) ∧
    SplashSignature.ReconstructPublicKey refEnv ⟨22, 136, 0, 0⟩ (hashOf 5) curve409
      = some ⟨some curve409, some 68, some 347⟩ ∧
    (⟨some curve409, some 68, some 347⟩ : SplashPublicKey).OnCurve = true ∧
    (⟨some curve409, some 68, some 347⟩ : SplashPublicKey).Verify (hashOf 5) ⟨22, 136, 0, 0⟩
      = true :=
  ⟨curve409_valid, leastSqrt_spec _, by decide, by decide, by decide, by decide, by decide,
    by decide,
    C7_verify_reconstructed refEnv curve409 ⟨22, 136, 0, 0⟩ (hashOf 5)
      ⟨some curve409, some 68, some 347⟩ curve409_valid (leastSqrt_spec _) (by decide)
      (by decide)
      (by
        intro y1 y2 h
        have h0 : GetY refEnv 22 curve409 = some (182, 227) := by decide
        have h1 : (22 : Int) = (⟨22, 136, 0, 0⟩ : SplashSignature).R := rfl
        rw [← h1, h0] at h
        simp only [Option.some.injEq, Prod.mk.injEq] at h
        obtain ⟨rfl, rfl⟩ := h
        decide)
      (by decide) (by decide)⟩

set_option maxRecDepth 100000 in
/-- C7, counterexample: the signature `(R, S, V) = (22, 0, 0)` over `hashOf 5`
reconstructs to the key `(273, 211)`, and `Verify` of that key on the signature is
false. -/
theorem C7_counterexample_zero_S :
    SplashSignature.ReconstructPublicKey refEnv ⟨22, 0, 0, 0⟩ (hashOf 5) curve409
      = some ⟨some curve409, some 273, some 211⟩ ∧
    (⟨some curve409, some 273, some 211⟩ : SplashPublicKey).Verify (hashOf 5) ⟨22, 0, 0, 0⟩
      = false := by
  refine ⟨?_, ?_⟩ <;> decide

/-! ### C8 -/

/-- C8 (amended): if the address is not 22 bytes long, or its byte 1 differs from the
number of supplied signatures modulo 256, `VerifyMutliSig` does not return true. -/
theorem C8_count_mismatch_fails (env : Env) (sigs : List SplashSignature)
    (data addr : List Byte) (C : CurveParams)
    (h : addr.length ≠ 22 ∨ addr[1]?.map Fin.val ≠ some (sigs.length % 256)) :
    VerifyMutliSig env sigs data addr C ≠ some true := by
  intro ht
  obtain ⟨h1, h2⟩ := verifyMutliSig_true_address env sigs data addr C ht
  rcases h with h | h
  · exact h h1
  · exact h h2

set_option maxRecDepth 100000 in
/-- C8, witness: one signature against an address whose count byte says 2. -/
theorem C8_count_mismatch_fails_witness :
    (([1, 2, 173, 190, 127, 214, 129, 39, 171, 120, 215, 237, 160, 158, 193, 238, 95,
        187, 126, 109, 11, 218] : List Byte).length ≠ 22 ∨
      ([1, 2, 173, 190, 127, 214, 129, 39, 171, 120, 215, 237, 160, 158, 193, 238, 95,
        187, 126, 109, 11, 218] : List Byte)[1]?.map Fin.val
        ≠ some ([(⟨276, 189, 0, 0⟩ : SplashSignature)].length % 256)) ∧
    VerifyMutliSig refEnv [⟨276, 189, 0, 0⟩] (hashOf 5)
      [1, 2, 173, 190, 127, 214, 129, 39, 171, 120, 215, 237, 160, 158, 193, 238, 95,
        187, 126, 109, 11, 218] curve409 ≠ some true :=
  ⟨Or.inr (by decide),
    C8_count_mismatch_fails refEnv [⟨276, 189, 0, 0⟩] (hashOf 5) _ curve409
      (Or.inr (by decide))⟩

/-- C8, counterexample: 256 signatures with the order indices 0..255, all reconstructing
to the key of `key2`, verify against the address generated from these 256 keys, although
the count byte of that address is 0 and not the number 256 of supplied signatures. -/
theorem C8_counterexample_256_signatures :
    sigs256.length = 256 ∧
    (GenerateMultiSigAddress refEnv pubs256).map (fun addr => addr[1]?.map Fin.val)
      = some (some 0) ∧
    (GenerateMultiSigAddress refEnv pubs256).bind
      (fun addr => VerifyMutliSig refEnv sigs256 (hashOf 5) addr curve409) = some true := by
  have hl : pubs256.length = 256 := by
    simp only [pubs256, List.length_map, List.length_range]
  have ha := generateMultiSigAddress_eq refEnv pubs256 (refEnv_merkle _)
  refine ⟨by simp only [sigs256, List.length_map, List.length_range], ?_, ?_⟩
  · rw [ha]; simp [hl]
  · rw [ha, Option.some_bind]
    exact verifyMutliSig_of_ordered refEnv curve409 (hashOf 5) _ sigs256 pubs256
      (sigs256_forall₂ (List.range 256)) sigs256_orders ha

/-! ### C9 -/

/-- C9: `SplashMultiSigKey.Sign` returns the signature and the error of the wrapped
`PrivateKey.Sign` on the same data, with the same `R`, `S` and `V`, and with `O` equal to
the key's `Order`. -/
theorem C9_multiSign_stamps_order (env : Env) (multi : SplashMultiSigKey)
    (draws : List Nat) (data : List Byte) :
    (multi.Sign env draws data).1.R = (multi.PrivateKey.Sign env draws data).1.R ∧
    (multi.Sign env draws data).1.S = (multi.PrivateKey.Sign env draws data).1.S ∧
    (multi.Sign env draws data).1.V = (multi.PrivateKey.Sign env draws data).1.V ∧
    (multi.Sign env draws data).2 = (multi.PrivateKey.Sign env draws data).2 ∧
    (multi.Sign env draws data).1.O = multi.Order :=
  ⟨rfl, rfl, rfl, rfl, rfl⟩

/-! ### C10 -/

/-- C10 (amended): the key returned by `GenerateMultiSigKey(curve, order, partners)`
carries `Order = order` and `Partners = partners` unchanged, so it satisfies
`Order < Partners` exactly when the arguments satisfy `order < partners`. -/
theorem C10_key_stamped (rand : Option Nat) (curve : CurveParams) (order partners : Byte) :
    (GenerateMultiSigKey rand curve order partners).1.Order = order ∧
    (GenerateMultiSigKey rand curve order partners).1.Partners = partners ∧
    ((GenerateMultiSigKey rand curve order partners).1.Order
        < (GenerateMultiSigKey rand curve order partners).1.Partners ↔ order < partners) :=
  ⟨rfl, rfl, Iff.rfl⟩

/-- C10, counterexample: `GenerateMultiSigKey(curve, 5, 2)` succeeds and returns a key
with `Order = 5` and `Partners = 2`. -/
theorem C10_counterexample_order_5_of_2 :
    (GenerateMultiSigKey (some 1) curve409 5 2).2 = none ∧
    (GenerateMultiSigKey (some 1) curve409 5 2).1.Order = 5 ∧
    (GenerateMultiSigKey (some 1) curve409 5 2).1.Partners = 2 ∧
    ¬ ((GenerateMultiSigKey (some 1) curve409 5 2).1.Order
        < (GenerateMultiSigKey (some 1) curve409 5 2).1.Partners) := by
  refine ⟨rfl, rfl, rfl, ?_⟩
  decide

/-! ### C11 -/

/-- C11: for a prime `P`, a `ModSqrt` that meets its contract and every integer `x` for
which `x³ - 3x + B` has a square root modulo `P`, `GetY` returns a pair `(y1, y2)` with
`0 ≤ y1, y2 < P`, `y1² = x³ - 3x + B (mod P)`, `y2 = (P - y1) mod P` and
`y2² = x³ - 3x + B (mod P)`. -/
theorem C11_getY_both_roots (env : Env) (c : CurveParams) (x : Int) (hP : c.P.Prime)
    (hs : ModSqrtSpec env.ModSqrt c.P)
    (hroot : ∃ y : Int, y * y % (c.P : Int) = (x * x * x - 3 * x + (c.B : Int)) % (c.P : Int)) :
    ∃ y1 y2, GetY env x c = some (y1, y2) ∧
      0 ≤ y1 ∧ y1 < (c.P : Int) ∧ 0 ≤ y2 ∧ y2 < (c.P : Int) ∧
      y1 * y1 % (c.P : Int) = (x * x * x - 3 * x + (c.B : Int)) % (c.P : Int) ∧
      y2 = ((c.P : Int) - y1) % (c.P : Int) ∧
      y2 * y2 % (c.P : Int) = (x * x * x - 3 * x + (c.B : Int)) % (c.P : Int) := by
  obtain ⟨y1, y2, h⟩ := getY_succeeds env c x hP hs hroot
  exact ⟨y1, y2, h, getY_roots env c x hP hs h⟩

set_option maxRecDepth 100000 in
/-- C11, witness: `x = 22` on the small curve, where `182² = 22³ - 66 + 47 (mod 409)`. -/
theorem C11_getY_both_roots_witness :
    curve409.P.Prime ∧ ModSqrtSpec refEnv.ModSqrt curve409.P ∧
    (∃ y : Int, y * y % (curve409.P : Int)
      = ((22 : Int) * 22 * 22 - 3 * 22 + (curve409.B : Int)) % (curve409.P : Int)) ∧
    ∃ y1 y2, GetY refEnv 22 curve409 = some (y1, y2) ∧
      0 ≤ y1 ∧ y1 < (curve409.P : Int) ∧ 0 ≤ y2 ∧ y2 < (curve409.P : Int) ∧
      y1 * y1 % (curve409.P : Int)
        = ((22 : Int) * 22 * 22 - 3 * 22 + (curve409.B : Int)) % (curve409.P : Int) ∧
      y2 = ((curve409.P : Int) - y1) % (curve409.P : Int) ∧
      y2 * y2 % (curve409.P : Int)
        = ((22 : Int) * 22 * 22 - 3 * 22 + (curve409.B : Int)) % (curve409.P : Int) :=
  ⟨curve409_valid.prime_P, leastSqrt_spec _, ⟨182, by decide⟩,
    C11_getY_both_roots refEnv curve409 22 curve409_valid.prime_P (leastSqrt_spec _)
      ⟨182, by decide⟩⟩

/-! ### C12 -/

set_option maxRecDepth 100000 in
/-- C12, failing input: on P-256 the value `3³ - 3·3 + B` is not a square modulo `P` (its
Jacobi symbol is -1), `ModSqrt` returns nil and `GetY(3, curve)` dereferences it in
`new(big.Int).Sub(curve.P, y1)`: the call panics, where the claim has it fail with a domain
error. `GetY` has no error result. The same happens for `x = 3` on the curve over `F_409`,
while `x = 5` on P-256 has the two roots. -/
theorem C12_getY_panics_without_root :
    jacobiPrime ((3 * 3 * 3 - (3 * 2 + 3) + (p256.B : Int)) % (p256.P : Int)) (p256.P : Int)
      = -1 ∧
    GetY goEnv 3 p256 = none ∧
    GetY goEnv 3 curve409 = none ∧
    GetY goEnv 5 p256 = some
      (31468013646237722594854082025316614106172411895747863909393730389177298123724,
        84324075564118526167843364924090959423913731519542450286139900919689799730227) := by
  refine ⟨?_, ?_, ?_, ?_⟩ <;> decide

/-! ### C13 -/

/-- C13: two partner keys with Order 0 and 1 on one supported curve, private scalars in
`[1, N-1]`, sign the same hash with `SplashMultiSigKey.Sign`, every nonce that yields a
signature records a root in the recovery id, the Merkle root exposes 20 bytes, the address
is `GenerateMultiSigAddress` of the two public keys, and the address binds the two keys
(no point of the curve in place of one of them gives the same address). Then
`VerifyMutliSig` over the two signatures returns true, and after replacing `S` in either
signature by any other value it returns false (`Partners` is not read by any of the
functions). -/
theorem C13_two_partner_scenario (env : Env) (c : CurveParams)
    (key0 key1 : SplashMultiSigKey) (d0 d1 : List Nat) (sig0 sig1 : SplashSignature)
    (data addr : List Byte)
    (hv : c.Valid) (hs : ModSqrtSpec env.ModSqrt c.P) (hnear : c.OrderNearField)
    (hm : MerkleSpec env.MerkleRoot)
    (hk0 : key0.PrivateKey.Curve = c ∧ 0 < key0.PrivateKey.D ∧ key0.PrivateKey.D < c.N)
    (hk1 : key1.PrivateKey.Curve = c ∧ 0 < key1.PrivateKey.D ∧ key1.PrivateKey.D < c.N)
    (ho0 : key0.Order = 0) (ho1 : key1.Order = 1)
    (hsign0 : key0.Sign env d0 data = (sig0, none))
    (hroot0 : ∀ k ∈ d0,
      (∃ s, key0.PrivateKey.signWithNonce env k data = SignAttempt.done s) →
        KyIsRoot env c k = true)
    (hsign1 : key1.Sign env d1 data = (sig1, none))
    (hroot1 : ∀ k ∈ d1,
      (∃ s, key1.PrivateKey.signWithNonce env k data = SignAttempt.done s) →
        KyIsRoot env c k = true)
    (haddr : GenerateMultiSigAddress env
      [key0.PrivateKey.GetPublicKey, key1.PrivateKey.GetPublicKey] = some addr)
    (hbind : AddressBinds env c
      [key0.PrivateKey.GetPublicKey, key1.PrivateKey.GetPublicKey]) :
    VerifyMutliSig env [sig0, sig1] data addr c = some true ∧
    (∀ S', S' ≠ sig0.S →
      VerifyMutliSig env [{ sig0 with S := S' }, sig1] data addr c = some false) ∧
    (∀ S', S' ≠ sig1.S →
      VerifyMutliSig env [sig0, { sig1 with S := S' }] data addr c = some false) := by
  haveI : Fact c.P.Prime := ⟨hv.prime_P⟩
  obtain ⟨hO0, hrec0, hver0, hS0, hK0⟩ :=
    multiSign_rooted env c key0 d0 data sig0 hv hs hnear hk0 hsign0 hroot0
  obtain ⟨hO1, hrec1, hver1, hS1, hK1⟩ :=
    multiSign_rooted env c key1 d1 data sig1 hv hs hnear hk1 hsign1 hroot1
  have h0 : sig0.O.val = 0 := by rw [hO0, ho0]; rfl
  have h1 : sig1.O.val = 1 := by rw [hO1, ho1]; rfl
  refine ⟨?_, verifyMutliSig_altered env c data addr hv hs hm sig0 sig1 _ _ h0 h1 hrec0 hrec1
    hS0 hS1 hK0 hK1 haddr hbind⟩
  exact verifyMutliSig_of_ordered env c data addr [sig0, sig1] _
    (List.Forall₂.cons ⟨hrec0, hver0⟩ (List.Forall₂.cons ⟨hrec1, hver1⟩ List.Forall₂.nil))
    (by simp [h0, h1, List.range_succ]) haddr

set_option maxRecDepth 100000 in
/-- C13, witness: on the curve over `F_47` the keys `D = 2` (order 0) and `D = 3` (order 1)
sign `hashOf 5` with the nonces 4 and 7; the call returns true, and false after `S = 24` of
the first signature is replaced by 25 or `S = 22` of the second by 23. -/
theorem C13_two_partner_scenario_witness :
    curve47.Valid ∧ ModSqrtSpec goEnv.ModSqrt curve47.P ∧ curve47.OrderNearField ∧
    MerkleSpec goEnv.MerkleRoot ∧
    (⟨key47a, 0, 2⟩ : SplashMultiSigKey).Sign goEnv [4] (hashOf 5)
      = (⟨24, 24, 1, 0⟩, none) ∧
    (⟨key47b, 1, 2⟩ : SplashMultiSigKey).Sign goEnv [7] (hashOf 5)
      = (⟨21, 22, 0, 1⟩, none) ∧
    KyIsRoot goEnv curve47 4 = true ∧ KyIsRoot goEnv curve47 7 = true ∧
    GenerateMultiSigAddress goEnv [key47a.GetPublicKey, key47b.GetPublicKey]
      = some [1, 2, 234, 44, 108, 58, 58, 25, 98, 4, 217, 28, 58, 165, 196, 151, 66, 74, 46,
          14, 245, 29] ∧
    AddressBinds goEnv curve47 [key47a.GetPublicKey, key47b.GetPublicKey] ∧
    VerifyMutliSig goEnv [⟨24, 24, 1, 0⟩, ⟨21, 22, 0, 1⟩] (hashOf 5)
      [1, 2, 234, 44, 108, 58, 58, 25, 98, 4, 217, 28, 58, 165, 196, 151, 66, 74, 46, 14,
        245, 29] curve47 = some true ∧
    VerifyMutliSig goEnv [⟨24, 25, 1, 0⟩, ⟨21, 22, 0, 1⟩] (hashOf 5)
      [1, 2, 234, 44, 108, 58, 58, 25, 98, 4, 217, 28, 58, 165, 196, 151, 66, 74, 46, 14,
        245, 29] curve47 = some false ∧
    VerifyMutliSig goEnv [⟨24, 24, 1, 0⟩, ⟨21, 23, 0, 1⟩] (hashOf 5)
      [1, 2, 234, 44, 108, 58, 58, 25, 98, 4, 217, 28, 58, 165, 196, 151, 66, 74, 46, 14,
        245, 29] curve47 = some false := by
  have h := C13_two_partner_scenario goEnv curve47 ⟨key47a, 0, 2⟩ ⟨key47b, 1, 2⟩ [4] [7]
    ⟨24, 24, 1, 0⟩ ⟨21, 22, 0, 1⟩ (hashOf 5)
    [1, 2, 234, 44, 108, 58, 58, 25, 98, 4, 217, 28, 58, 165, 196, 151, 66, 74, 46, 14,
      245, 29]
    curve47_valid goModSqrt_spec47 curve47_near refEnv_merkle (by decide) (by decide) rfl rfl
    (by decide) (fun k hk _ => by rw [List.mem_singleton.mp hk]; decide)
    (by decide) (fun k hk _ => by rw [List.mem_singleton.mp hk]; decide)
    (by decide) curve47_binds
  exact ⟨curve47_valid, goModSqrt_spec47, curve47_near, refEnv_merkle, by decide, by decide,
    by decide, by decide, by decide, curve47_binds, h.1, h.2.1 25 (by decide),
    h.2.2 23 (by decide)⟩

/-! ### C14 -/

/-- C14: for a signature list whose order indices are all smaller than its length,
`VerifyMutliSig` returns true if and only if every signature reconstructs to a key against
which it verifies and `GenerateMultiSigAddress` of the assembled key array (one slot per
signature, slot `i` holding the key reconstructed from the signature with `O = i`) is the
given address. The length of the data needs no separate assumption: on data shorter than
32 bytes no signature reconstructs and the call does not return true. -/
theorem C14_verifyMutliSig_true_iff (env : Env) (sigs : List SplashSignature)
    (data addr : List Byte) (C : CurveParams)
    (hO : ∀ sig ∈ sigs, sig.O.val < sigs.length) :
    VerifyMutliSig env sigs data addr C = some true ↔
      (∀ sig ∈ sigs, ∃ pub, sig.ReconstructPublicKey env data C = some pub ∧
        pub.Verify data sig = true) ∧
      GenerateMultiSigAddress env (assembledKeys env data C sigs) = some addr := by
  rw [verifyMutliSig_true_iff]
  constructor
  · rintro ⟨h1, h2⟩
    refine ⟨fun sig hs => ?_, h2⟩
    obtain ⟨pub, hp, _, hv⟩ := h1 sig hs
    exact ⟨pub, hp, hv⟩
  · rintro ⟨h1, h2⟩
    refine ⟨fun sig hs => ?_, h2⟩
    obtain ⟨pub, hp, hv⟩ := h1 sig hs
    exact ⟨pub, hp, hO sig hs, hv⟩

set_option maxRecDepth 100000 in
/-- C14, witness: the signatures of `key2` (order 0, nonce 7) and `key3` (order 1,
nonce 11) over `hashOf 5`; the assembled array is the two public keys and the call
returns true on their address. -/
theorem C14_verifyMutliSig_true_iff_witness :
    (∀ sig ∈ [(⟨276, 189, 0, 0⟩ : SplashSignature), ⟨137, 3, 0, 1⟩], sig.O.val < 2) ∧
    assembledKeys refEnv (hashOf 5) curve409 [⟨276, 189, 0, 0⟩, ⟨137, 3, 0, 1⟩]
      = [key2.GetPublicKey, key3.GetPublicKey] ∧
    VerifyMutliSig refEnv [⟨276, 189, 0, 0⟩, ⟨137, 3, 0, 1⟩] (hashOf 5)
      [1, 2, 173, 190, 127, 214, 129, 39, 171, 120, 215, 237, 160, 158, 193, 238, 95, 187,
        126, 109, 11, 218] curve409 = some true ∧
    (VerifyMutliSig refEnv [⟨276, 189, 0, 0⟩, ⟨137, 3, 0, 1⟩] (hashOf 5)
      [1, 2, 173, 190, 127, 214, 129, 39, 171, 120, 215, 237, 160, 158, 193, 238, 95, 187,
        126, 109, 11, 218] curve409 = some true ↔
      (∀ sig ∈ [(⟨276, 189, 0, 0⟩ : SplashSignature), ⟨137, 3, 0, 1⟩],
        ∃ pub, sig.ReconstructPublicKey refEnv (hashOf 5) curve409 = some pub ∧
          pub.Verify (hashOf 5) sig = true) ∧
      GenerateMultiSigAddress refEnv
        (assembledKeys refEnv (hashOf 5) curve409 [⟨276, 189, 0, 0⟩, ⟨137, 3, 0, 1⟩])
        = some [1, 2, 173, 190, 127, 214, 129, 39, 171, 120, 215, 237, 160, 158, 193, 238,
            95, 187, 126, 109, 11, 218]) :=
  ⟨by decide, by decide, by decide,
    C14_verifyMutliSig_true_iff refEnv [⟨276, 189, 0, 0⟩, ⟨137, 3, 0, 1⟩] (hashOf 5) _
      curve409 (by decide)⟩

/-! ### C15 -/

/-- C15: when every supplied signature reconstructs, verifies and carries an index inside
the working array, the loop of `VerifyMutliSig` ends with an array of one slot per
signature in which slot `O` holds the key reconstructed from the last signature in list
order that carries `O` (a later signature overwrites an earlier one with the same index),
every slot whose index no signature carries still holds the zero-value key, and the
result of the call is the comparison of the address of that array with `addr`. -/
theorem C15_last_signature_wins (env : Env) (data : List Byte) (C : CurveParams)
    (sigs : List SplashSignature)
    (hall : ∀ sig ∈ sigs, ∃ pub, sig.ReconstructPublicKey env data C = some pub ∧
      sig.O.val < sigs.length ∧ pub.Verify data sig = true) :
    ∃ out, verifyLoop env data C sigs (List.replicate sigs.length SplashPublicKey.zero)
        = LoopOutcome.completed out ∧
      out.length = sigs.length ∧
      (∀ pre sig post, sigs = pre ++ sig :: post → (∀ t ∈ post, t.O ≠ sig.O) →
        out[sig.O.val]? = sig.ReconstructPublicKey env data C) ∧
      (∀ i, i < sigs.length → (∀ sig ∈ sigs, sig.O.val ≠ i) →
        out[i]? = some SplashPublicKey.zero) ∧
      (∀ addr, VerifyMutliSig env sigs data addr C =
        (GenerateMultiSigAddress env out).map (fun a => CheckByteEq a addr)) := by
  have hloop := (verifyLoop_completed_iff env data C sigs
    (List.replicate sigs.length SplashPublicKey.zero) _).mpr
      ⟨by simpa [SigPasses] using hall, rfl⟩
  refine ⟨_, hloop, ?_, ?_, ?_, ?_⟩
  · rw [storeKeys_length, List.length_replicate]
  · intro pre sig post hsplit hpost
    obtain ⟨pub, hp, hlt, _⟩ := hall sig (by rw [hsplit]; simp)
    rw [storeKeys_getElem?, hsplit,
      slotOwner_last pre post sig (fun t ht h => hpost t ht (Fin.ext h)), ← hsplit]
    simp only [List.length_replicate, hlt, if_true, keyOf, hp, Option.getD_some]
  · intro i hi hnone
    rw [storeKeys_getElem?, slotOwner_none sigs i hnone]
    simp only [List.getElem?_replicate, hi, if_true]
  · intro addr
    exact verifyMutliSig_of_completed env sigs data addr C _ hloop

set_option maxRecDepth 100000 in
/-- C15, witness: on `sigsDup` the slot 0 ends with the key of the second signature
(`key3`), the slot 1 with the zero value and the slot 2 with the key of the third
signature (`key2`). -/
theorem C15_last_signature_wins_witness :
    verifyLoop refEnv (hashOf 5) curve409 sigsDup
      (List.replicate sigsDup.length SplashPublicKey.zero)
      = LoopOutcome.completed [key3.GetPublicKey, SplashPublicKey.zero, key2.GetPublicKey] ∧
    ∃ out, verifyLoop refEnv (hashOf 5) curve409 sigsDup
        (List.replicate sigsDup.length SplashPublicKey.zero) = LoopOutcome.completed out ∧
      out.length = sigsDup.length ∧
      (∀ pre sig post, sigsDup = pre ++ sig :: post → (∀ t ∈ post, t.O ≠ sig.O) →
        out[sig.O.val]? = sig.ReconstructPublicKey refEnv (hashOf 5) curve409) ∧
      (∀ i, i < sigsDup.length → (∀ sig ∈ sigsDup, sig.O.val ≠ i) →
        out[i]? = some SplashPublicKey.zero) ∧
      (∀ addr, VerifyMutliSig refEnv sigsDup (hashOf 5) addr curve409 =
        (GenerateMultiSigAddress refEnv out).map (fun a => CheckByteEq a addr)) :=
  ⟨by decide,
    C15_last_signature_wins refEnv (hashOf 5) curve409 sigsDup (by
      intro sig hs
      simp only [sigsDup, List.mem_cons, List.mem_singleton, List.not_mem_nil, or_false] at hs
      rcases hs with rfl | rfl | rfl
      · exact ⟨key2.GetPublicKey, by decide, by decide, by decide⟩
      · exact ⟨key3.GetPublicKey, by decide, by decide, by decide⟩
      · exact ⟨key2.GetPublicKey, by decide, by decide, by decide⟩)⟩

/-! ### C16 -/

/-- C16: two message hashes of at least 32 bytes that agree on their first 32 bytes give
the same result of `ReconstructPublicKey`, for every signature and curve. -/
theorem C16_reconstruct_first_32_bytes (env : Env) (sig : SplashSignature)
    (C : CurveParams) (h1 h2 : List Byte) (hl1 : 32 ≤ h1.length) (hl2 : 32 ≤ h2.length)
    (heq : h1.take 32 = h2.take 32) :
    sig.ReconstructPublicKey env h1 C = sig.ReconstructPublicKey env h2 C := by
  unfold SplashSignature.ReconstructPublicKey
  simp only [not_lt.mpr hl1, not_lt.mpr hl2, if_false, heq]

set_option maxRecDepth 100000 in
/-- C16, witness: `hashOf 5` and the same hash followed by the bytes 9 and 9. -/
theorem C16_reconstruct_first_32_bytes_witness :
    32 ≤ (hashOf 5).length ∧ 32 ≤ (hashOf 5 ++ [9, 9]).length ∧
    (hashOf 5).take 32 = (hashOf 5 ++ [9, 9]).take 32 ∧
    SplashSignature.ReconstructPublicKey refEnv ⟨276, 189, 0, 0⟩ (hashOf 5) curve409
      = SplashSignature.ReconstructPublicKey refEnv ⟨276, 189, 0, 0⟩ (hashOf 5 ++ [9, 9])
          curve409 :=
  ⟨by decide, by decide, by decide,
    C16_reconstruct_first_32_bytes refEnv ⟨276, 189, 0, 0⟩ curve409 (hashOf 5)
      (hashOf 5 ++ [9, 9]) (by decide) (by decide) (by decide)⟩

/-! ### C17 -/

/-- C17 (amended): for signatures with pairwise distinct order indices, all smaller than
the list length, and any permutation of the list: if both calls of `VerifyMutliSig` return,
they return the same boolean; if `ReconstructPublicKey` returns on every signature, the two
calls behave alike; and if moreover the Merkle root exposes 20 bytes, both calls return
the same boolean. -/
theorem C17_permutation_invariance (env : Env) (sigs sigs' : List SplashSignature)
    (data addr : List Byte) (C : CurveParams) (hp : sigs.Perm sigs')
    (hnd : (sigs.map (fun sig => sig.O)).Nodup)
    (hO : ∀ sig ∈ sigs, sig.O.val < sigs.length) :
    (∀ b b', VerifyMutliSig env sigs data addr C = some b →
      VerifyMutliSig env sigs' data addr C = some b' → b = b') ∧
    ((∀ sig ∈ sigs, (sig.ReconstructPublicKey env data C).isSome) →
      VerifyMutliSig env sigs data addr C = VerifyMutliSig env sigs' data addr C) ∧
    ((∀ sig ∈ sigs, (sig.ReconstructPublicKey env data C).isSome) →
      MerkleSpec env.MerkleRoot →
      ∃ b, VerifyMutliSig env sigs data addr C = some b ∧
        VerifyMutliSig env sigs' data addr C = some b) := by
  have hnd' : (sigs.map (fun sig => sig.O.val)).Nodup := by
    have := hnd.map Fin.val_injective
    rwa [List.map_map] at this
  refine ⟨fun b b' hb hb' =>
    verifyMutliSig_perm_returns env sigs sigs' data addr C hp hnd' b b' hb hb', ?_, ?_⟩
  · intro hrec
    exact verifyMutliSig_perm env sigs sigs' data addr C hp hnd'
      (fun sig hs => ⟨hrec sig hs, hO sig hs⟩)
  · intro hrec hm
    obtain ⟨b, hb⟩ := verifyMutliSig_returns env sigs data addr C hm
      (fun sig hs => ⟨hrec sig hs, hO sig hs⟩)
    refine ⟨b, hb, ?_⟩
    rw [← verifyMutliSig_perm env sigs sigs' data addr C hp hnd'
      (fun sig hs => ⟨hrec sig hs, hO sig hs⟩)]
    exact hb

set_option maxRecDepth 100000 in
/-- C17, witness: the two signatures of the C14 witness, listed in both orders. -/
theorem C17_permutation_invariance_witness :
    [(⟨276, 189, 0, 0⟩ : SplashSignature), ⟨137, 3, 0, 1⟩].Perm
      [⟨137, 3, 0, 1⟩, ⟨276, 189, 0, 0⟩] ∧
    VerifyMutliSig refEnv [⟨137, 3, 0, 1⟩, ⟨276, 189, 0, 0⟩] (hashOf 5)
      [1, 2, 173, 190, 127, 214, 129, 39, 171, 120, 215, 237, 160, 158, 193, 238, 95, 187,
        126, 109, 11, 218] curve409 = some true ∧
    VerifyMutliSig refEnv [⟨276, 189, 0, 0⟩, ⟨137, 3, 0, 1⟩] (hashOf 5)
        [1, 2, 173, 190, 127, 214, 129, 39, 171, 120, 215, 237, 160, 158, 193, 238, 95, 187,
          126, 109, 11, 218] curve409
      = VerifyMutliSig refEnv [⟨137, 3, 0, 1⟩, ⟨276, 189, 0, 0⟩] (hashOf 5)
        [1, 2, 173, 190, 127, 214, 129, 39, 171, 120, 215, 237, 160, 158, 193, 238, 95, 187,
          126, 109, 11, 218] curve409 :=
  ⟨List.Perm.swap _ _ [], by decide,
    (C17_permutation_invariance refEnv [⟨276, 189, 0, 0⟩, ⟨137, 3, 0, 1⟩]
      [⟨137, 3, 0, 1⟩, ⟨276, 189, 0, 0⟩] (hashOf 5) _ curve409 (List.Perm.swap _ _ [])
      (by decide) (by decide)).2.1 (by decide)⟩

set_option maxRecDepth 100000 in
/-- C17, counterexample: the signature `(22, 0, 0)` with order index 0 reconstructs and
fails `Verify`; for `R = 3` (order index 1) there is no point on the curve, so
`ReconstructPublicKey` panics. Listed in this order the call returns false at the first
signature; listed in the other order it panics at the first signature. -/
theorem C17_counterexample_panic_order :
    [(⟨22, 0, 0, 0⟩ : SplashSignature), ⟨3, 1, 0, 1⟩].Perm [⟨3, 1, 0, 1⟩, ⟨22, 0, 0, 0⟩] ∧
    ([(⟨22, 0, 0, 0⟩ : SplashSignature), ⟨3, 1, 0, 1⟩].map (fun sig => sig.O)).Nodup ∧
    (∀ sig ∈ [(⟨22, 0, 0, 0⟩ : SplashSignature), ⟨3, 1, 0, 1⟩], sig.O.val < 2) ∧
    (∀ addr, VerifyMutliSig refEnv [⟨22, 0, 0, 0⟩, ⟨3, 1, 0, 1⟩] (hashOf 5) addr curve409
      = some false) ∧
    (∀ addr, VerifyMutliSig refEnv [⟨3, 1, 0, 1⟩, ⟨22, 0, 0, 0⟩] (hashOf 5) addr curve409
      = none) := by
  have h1 : verifyLoop refEnv (hashOf 5) curve409 [⟨22, 0, 0, 0⟩, ⟨3, 1, 0, 1⟩]
      (List.replicate 2 SplashPublicKey.zero) = LoopOutcome.rejected := by decide
  have h2 : verifyLoop refEnv (hashOf 5) curve409 [⟨3, 1, 0, 1⟩, ⟨22, 0, 0, 0⟩]
      (List.replicate 2 SplashPublicKey.zero) = LoopOutcome.panicked := by decide
  refine ⟨List.Perm.swap _ _ [], by decide, by decide, fun addr => ?_, fun addr => ?_⟩
  · simp only [VerifyMutliSig, List.length_cons, List.length_nil, h1]
  · simp only [VerifyMutliSig, List.length_cons, List.length_nil, h2]

/-! ### C18 -/

/-- C18: when the Merkle root has at least 20 bytes, byte 1 of the address of a key list
of length `n` is `n mod 256`; it is `n` for `n ≤ 255`, and 0 for a list of 256 keys. -/
theorem C18_count_byte_mod_256 (env : Env) (keys : List SplashPublicKey)
    (hroot : 20 ≤ (env.MerkleRoot (keys.map env.CompressedBytes)).length) :
    ∃ addr, GenerateMultiSigAddress env keys = some addr ∧
      addr[1]?.map Fin.val = some (keys.length % 256) ∧
      (keys.length ≤ 255 → addr[1]?.map Fin.val = some keys.length) ∧
      (keys.length = 256 → addr[1]?.map Fin.val = some 0) := by
  refine ⟨_, generateMultiSigAddress_eq env keys hroot, by simp, ?_, ?_⟩
  · intro h
    have : keys.length % 256 = keys.length := Nat.mod_eq_of_lt (by omega)
    simp [this]
  · intro h
    simp [h]

/-- C18, witness: the list of 256 keys. -/
theorem C18_count_byte_mod_256_witness :
    20 ≤ (refEnv.MerkleRoot (pubs256.map refEnv.CompressedBytes)).length ∧
    ∃ addr, GenerateMultiSigAddress refEnv pubs256 = some addr ∧
      addr[1]?.map Fin.val = some (pubs256.length % 256) ∧
      (pubs256.length ≤ 255 → addr[1]?.map Fin.val = some pubs256.length) ∧
      (pubs256.length = 256 → addr[1]?.map Fin.val = some 0) :=
  ⟨refEnv_merkle _, C18_count_byte_mod_256 refEnv pubs256 (refEnv_merkle _)⟩

/-! ### C19 -/

/-- C19: whenever the dual-root solver returns `(y1, y2)` for `x = R`,
`ReconstructPublicKey` applies the recovery formula to the ephemeral point `(R, y1)` for
`V = 0` and to `(R, y2)` for `V = 1`; and for every `V` other than 1 the result is the one
for the same signature with `V = 0`. -/
theorem C19_recovery_id_selects_root (env : Env) (sig : SplashSignature)
    (msgHash : List Byte) (C : CurveParams) :
    (∀ y1 y2, GetY env sig.R C = some (y1, y2) →
      (sig.V = 0 →
        sig.ReconstructPublicKey env msgHash C = reconstructWith sig y1 msgHash C) ∧
      (sig.V = 1 →
        sig.ReconstructPublicKey env msgHash C = reconstructWith sig y2 msgHash C)) ∧
    (sig.V ≠ 1 → sig.ReconstructPublicKey env msgHash C
      = SplashSignature.ReconstructPublicKey env { sig with V := 0 } msgHash C) := by
  refine ⟨fun y1 y2 hY => ⟨?_, ?_⟩, ?_⟩
  · intro hV
    unfold SplashSignature.ReconstructPublicKey reconstructWith
    simp only [hY, hV]
    rfl
  · intro hV
    unfold SplashSignature.ReconstructPublicKey reconstructWith
    simp only [hY, hV]
    rfl
  · intro hV
    unfold SplashSignature.ReconstructPublicKey
    cases hY : GetY env sig.R C with
    | none => simp only [hY]
    | some p =>
      simp only [hY, hV, if_false]
      rfl

set_option maxRecDepth 100000 in
/-- C19, evaluation: the signature `(276, 189)` over `hashOf 5` on the small curve, where
the solver returns `(140, 269)`: the recovery ids 0 and 7 give the key `(407, 368)` and the
recovery id 1 gives `(221, 397)`. -/
theorem C19_recovery_id_selects_root_witness :
    GetY refEnv 276 curve409 = some (140, 269) ∧
    SplashSignature.ReconstructPublicKey refEnv ⟨276, 189, 0, 0⟩ (hashOf 5) curve409
      = some ⟨some curve409, some 407, some 368⟩ ∧
    SplashSignature.ReconstructPublicKey refEnv ⟨276, 189, 1, 0⟩ (hashOf 5) curve409
      = some ⟨some curve409, some 221, some 397⟩ ∧
    SplashSignature.ReconstructPublicKey refEnv ⟨276, 189, 1, 0⟩ (hashOf 5) curve409
      = reconstructWith ⟨276, 189, 1, 0⟩ 269 (hashOf 5) curve409 ∧
    SplashSignature.ReconstructPublicKey refEnv ⟨276, 189, 7, 0⟩ (hashOf 5) curve409
      = SplashSignature.ReconstructPublicKey refEnv ⟨276, 189, 0, 0⟩ (hashOf 5) curve409 :=
  ⟨by decide, by decide, by decide,
    ((C19_recovery_id_selects_root refEnv ⟨276, 189, 1, 0⟩ (hashOf 5) curve409).1 140 269
      (by decide)).2 rfl,
    (C19_recovery_id_selects_root refEnv ⟨276, 189, 7, 0⟩ (hashOf 5) curve409).2
      (by decide)⟩

/-! ### C20 -/

/-- C20: for an odd prime `P`, a `ModSqrt` that meets its contract and every `x` for which
`GetY` returns `(y1, y2)`: if `y1 ≠ 0` then `y1 ≠ y2`, `y1 + y2 = P` and `y1`, `y2` have
opposite parity; if `y1 = 0` then `y2 = 0`. -/
theorem C20_roots_sum_and_parity (env : Env) (c : CurveParams) (x y1 y2 : Int)
    (hP : c.P.Prime) (hodd : c.P % 2 = 1) (hs : ModSqrtSpec env.ModSqrt c.P)
    (h : GetY env x c = some (y1, y2)) :
    (y1 ≠ 0 → y1 ≠ y2 ∧ y1 + y2 = (c.P : Int) ∧ y1 % 2 ≠ y2 % 2) ∧
    (y1 = 0 → y2 = 0) := by
  obtain ⟨h0, h1, _, _, _, hy2, _⟩ := getY_roots env c x hP hs h
  have hoddZ : (c.P : Int) % 2 = 1 := by exact_mod_cast hodd
  constructor
  · intro hne
    have hpos : 0 < y1 := lt_of_le_of_ne h0 (Ne.symm hne)
    have hy : y2 = (c.P : Int) - y1 := by
      rw [hy2]
      exact Int.emod_eq_of_lt (by omega) (by omega)
    refine ⟨by omega, by omega, by omega⟩
  · intro hz
    rw [hy2, hz]
    simp

set_option maxRecDepth 100000 in
/-- C20, witness: `x = 22` on the small curve, with the roots 182 and 227. -/
theorem C20_roots_sum_and_parity_witness :
    curve409.P.Prime ∧ curve409.P % 2 = 1 ∧ ModSqrtSpec refEnv.ModSqrt curve409.P ∧
    GetY refEnv 22 curve409 = some (182, 227) ∧
    (((182 : Int) ≠ 0 → (182 : Int) ≠ 227 ∧ (182 : Int) + 227 = (curve409.P : Int) ∧
        (182 : Int) % 2 ≠ 227 % 2) ∧
      ((182 : Int) = 0 → (227 : Int) = 0)) :=
  ⟨curve409_valid.prime_P, by decide, leastSqrt_spec _, by decide,
    C20_roots_sum_and_parity refEnv curve409 22 182 227 curve409_valid.prime_P (by decide)
      (leastSqrt_spec _) (by decide)⟩

end Splash
